import Mathlib

/-!
Verification of the SSA mid-end spec against the MIPS rewrite tables
(`rewriteValueMIPS*`, `rewriteBlockMIPS`) and the stack-slot allocator
(`stackalloc.go`) of the source repository.

The Go source is shallowly embedded: machine integers are `Int` with
explicit two's-complement wrapping, value graphs are trees (the rewrite
matchers only inspect a bounded window of a value: itself and its
direct arguments), and the stack allocator is explicit state passing
over lists indexed by value ID.  Go runtime panics (division by zero,
out-of-range indexing) are made explicit in the result types.
-/

namespace GoSSA

/-! ## Go machine arithmetic -/

/-- Two's-complement wrap to 32 bits: Go's `int32(x)` conversion from a
wider integer. -/
def int32 (n : Int) : Int := (n + 2 ^ 31) % 2 ^ 32 - 2 ^ 31

/-- Two's-complement wrap to 16 bits: Go's `int16(x)` conversion. -/
def int16 (n : Int) : Int := (n + 2 ^ 15) % 2 ^ 16 - 2 ^ 15

/-- Two's-complement wrap to 64 bits: Go's `int64` arithmetic. -/
def int64 (n : Int) : Int := (n + 2 ^ 63) % 2 ^ 64 - 2 ^ 63

/-- Go's `uint32(x)` conversion: value in `[0, 2^32)`. -/
def uint32 (n : Int) : Int := n % 2 ^ 32

/-- Go signed 32-bit quotient `int32(c) / int32(d)` of the two auxInt
operands, `none` when the divisor is zero (a Go runtime panic).
Go division truncates toward zero, and the most-negative-over-minus-one
case wraps, hence the outer `int32`. -/
def divS32 (c d : Int) : Option Int :=
  if int32 d = 0 then none else some (int32 (Int.tdiv (int32 c) (int32 d)))

/-- Go signed 32-bit remainder `int32(c) % int32(d)`, `none` on a zero
divisor. -/
def modS32 (c d : Int) : Option Int :=
  if int32 d = 0 then none else some (int32 (Int.tmod (int32 c) (int32 d)))

/-- Go unsigned 32-bit quotient `int64(int32(uint32(c) / uint32(d)))`,
`none` on a zero divisor.  `uint32 d = 0` iff `int32 d = 0`. -/
def divU32 (c d : Int) : Option Int :=
  if uint32 d = 0 then none else some (int32 (Int.tdiv (uint32 c) (uint32 d)))

/-- Go unsigned 32-bit remainder `int64(int32(uint32(c) % uint32(d)))`,
`none` on a zero divisor. -/
def modU32 (c d : Int) : Option Int :=
  if uint32 d = 0 then none else some (int32 (Int.tmod (uint32 c) (uint32 d)))

/-- Modelled from the spec: the rewrite helper `is16Bit` (its file is not
in the sources given); "Address-arithmetic rules fold `ADDconst` into
memory ops' displacements when the resulting displacement fits the
machine immediate field" — the MIPS load/store immediate field is a
16-bit signed displacement, so `is16Bit n` holds iff `n` equals its
16-bit truncation. -/
def is16Bit (n : Int) : Bool := n == int16 n

/-- Modelled from the spec: the rewrite helper `isPowerOfTwo` (its file
is not in the sources given): true iff the operand is positive and a
power of two (`x > 0 && x&(x-1) == 0`). -/
def isPowerOfTwo (n : Int) : Bool := 0 < n && n.toNat &&& (n.toNat - 1) == 0

/-- Modelled from the spec: the rewrite helper `log2` (its file is not in
the sources given): base-2 logarithm, rounded down, of a positive
operand. -/
def log2 (n : Int) : Int := Int.ofNat (Nat.log2 n.toNat)

/-! ## Ops, types, values -/

/-- Opcode tags, the subset of the closed enumeration of §3 that the
claims' code touches: generic ops, the MIPS ops appearing in the
embedded rewrite rules, and the allocator-relevant ops of
`stackalloc.go`. -/
inductive Op where
  | Add32 | Const32 | Select0 | Select1 | Copy | Phi | Arg
  | StoreReg | LoadReg
  | Add32carry | Sub32carry
  | MIPSADD | MIPSADDconst | MIPSSUB | MIPSSUBconst | MIPSNEG
  | MIPSMOVWconst | MIPSMOVWaddr | MIPSMOVWload | MIPSMOVWstore
  | MIPSMULTU | MIPSDIV | MIPSDIVU
  | MIPSCMOVZ | MIPSSRLconst | MIPSSLLconst
  | MIPSSGT | MIPSSGTU | MIPSSGTconst | MIPSSGTUconst
  | MIPSSGTzero | MIPSSGTUzero
  | MIPSXORconst | MIPSFPFlagTrue | MIPSFPFlagFalse
deriving DecidableEq, Repr

/-- IR types: size/signedness classes plus the distinguished memory,
flags and tuple indicators of §3.  `TypeMem` is the memory type. -/
inductive Ty where
  | mem | bool | int32ty | uint32ty | flags | ptr | unknown
  | tuple (a b : Ty)
deriving DecidableEq, Repr

/-- The distinguished memory type (`TypeMem` in the source). -/
def TypeMem : Ty := Ty.mem

/-- Go's `t.FieldType(0)` / `t.FieldType(1)` on a tuple type (used by the
carry-op rules, whose operand types are tuples by construction). -/
def Ty.fieldType : Ty → Nat → Ty
  | .tuple a _, 0 => a
  | .tuple _ b, _ => b
  | _, _ => .unknown

/-- An SSA value for the rewrite window: `(Op, Type, AuxInt, Aux, Args)`
plus the engine-maintained use count `Uses` (read by one rule
condition).  Arguments are embedded as subtrees: a matcher looks only at
the value and its direct arguments, so the tree view of that window is
faithful. -/
inductive Value : Type where
  | mk (op : Op) (ty : Ty) (auxInt : Int) (aux : Option Nat)
       (args : List Value) (uses : Int)

def Value.op : Value → Op | .mk o _ _ _ _ _ => o
def Value.ty : Value → Ty | .mk _ t _ _ _ _ => t
def Value.auxInt : Value → Int | .mk _ _ a _ _ _ => a
def Value.aux : Value → Option Nat | .mk _ _ _ s _ _ => s
def Value.args : Value → List Value | .mk _ _ _ _ l _ => l
def Value.uses : Value → Int | .mk _ _ _ _ _ u => u

@[simp] theorem Value.op_mk (o : Op) (t : Ty) (a : Int) (s : Option Nat)
    (l : List Value) (u : Int) : (Value.mk o t a s l u).op = o := rfl

@[simp] theorem Value.ty_mk (o : Op) (t : Ty) (a : Int) (s : Option Nat)
    (l : List Value) (u : Int) : (Value.mk o t a s l u).ty = t := rfl

@[simp] theorem Value.auxInt_mk (o : Op) (t : Ty) (a : Int) (s : Option Nat)
    (l : List Value) (u : Int) : (Value.mk o t a s l u).auxInt = a := rfl

@[simp] theorem Value.aux_mk (o : Op) (t : Ty) (a : Int) (s : Option Nat)
    (l : List Value) (u : Int) : (Value.mk o t a s l u).aux = s := rfl

@[simp] theorem Value.args_mk (o : Op) (t : Ty) (a : Int) (s : Option Nat)
    (l : List Value) (u : Int) : (Value.mk o t a s l u).args = l := rfl

@[simp] theorem Value.uses_mk (o : Op) (t : Ty) (a : Int) (s : Option Nat)
    (l : List Value) (u : Int) : (Value.mk o t a s l u).uses = u := rfl

/-- Structural equality on values, modelling the generated matchers'
pointer comparisons (`x != v_1`) in the tree embedding. -/
def Value.beq : Value → Value → Bool
  | .mk o t a s args u, .mk o' t' a' s' args' u' =>
    o = o' && t = t' && a = a' && s = s' && u = u' && beqList args args'
where beqList : List Value → List Value → Bool
  | [], [] => true
  | x :: xs, y :: ys => Value.beq x y && beqList xs ys
  | _, _ => false

/-- Outcome of one generated matcher function applied to a value:
`fired v'` models `return true` with the value rewritten in place to
`v'`, `unchanged` models `return false`, and `panicked` models a Go
runtime panic inside the matcher (division by zero, index out of
range). -/
inductive VResult where
  | fired (v : Value)
  | unchanged
  | panicked

/-- Commutative-match helper: the generated `for _i0 := 0; _i0 <= 1`
loops try a rule body on the two arguments in both orders, `continue`
standing for a failed orientation. -/
def commute2 (f : Value → Value → Option VResult) (a0 a1 : Value) :
    Option VResult :=
  (f a0 a1).orElse fun _ => f a1 a0

/-! ## Value rewrite matchers (from `rewriteMIPS.go` in the sources)

Each Go matcher mutates `v` in place and returns a `bool`; the embedding
returns `VResult`.  `v.reset(op)` keeps `v.Type` and `v.Uses` and clears
`AuxInt`, `Aux` and `Args`, so a rule that does not assign `v.Type`
produces a value with the original type and use count.  Inner values
built with `b.NewValue0` end with one use (their parent). -/

/-- Rule `(Select0 (Add32carry <t> x y)) => (ADD <t.FieldType(0)> x y)`. -/
def ruleS0Add32carry (v v0 : Value) : Option VResult :=
  if v0.op = .Add32carry then some (
    match v0.args with
    | x :: y :: _ => .fired (.mk .MIPSADD (v0.ty.fieldType 0) 0 none [x, y] v.uses)
    | _ => .panicked)
  else none

/-- Rule `(Select0 (Sub32carry <t> x y)) => (SUB <t.FieldType(0)> x y)`. -/
def ruleS0Sub32carry (v v0 : Value) : Option VResult :=
  if v0.op = .Sub32carry then some (
    match v0.args with
    | x :: y :: _ => .fired (.mk .MIPSSUB (v0.ty.fieldType 0) 0 none [x, y] v.uses)
    | _ => .panicked)
  else none

/-- Rules `(Select0/1 (MULTU (MOVWconst [k]) _)) => (MOVWconst [0])` for
the fixed constants `k = 0` (both) and `k = 1` (Select0): one
orientation of the commuted match. -/
def ruleMULTUconstK (k : Int) (v : Value) (a0 _a1 : Value) : Option VResult :=
  if a0.op = .MIPSMOVWconst ∧ a0.auxInt = k then
    some (.fired (.mk .MIPSMOVWconst v.ty 0 none [] v.uses))
  else none

/-- Rule `(Select0 (MULTU (MOVWconst [-1]) x)) =>
(CMOVZ (ADDconst <x.Type> [-1] x) (MOVWconst [0]) x)`, one orientation. -/
def ruleS0MULTUm1 (v : Value) (a0 a1 : Value) : Option VResult :=
  if a0.op = .MIPSMOVWconst ∧ a0.auxInt = -1 then
    some (.fired (.mk .MIPSCMOVZ v.ty 0 none
      [.mk .MIPSADDconst a1.ty (-1) none [a1] 1,
       .mk .MIPSMOVWconst .uint32ty 0 none [] 1, a1] v.uses))
  else none

/-- Rule `(Select0 (MULTU (MOVWconst [c]) x)) =>
(SRLconst [32-log2(int64(uint32(c)))] x)` when `uint32(c)` is a power of
two, one orientation. -/
def ruleS0MULTUpow2 (v : Value) (a0 a1 : Value) : Option VResult :=
  if a0.op = .MIPSMOVWconst ∧ isPowerOfTwo (uint32 a0.auxInt) = true then
    some (.fired (.mk .MIPSSRLconst v.ty (32 - log2 (uint32 a0.auxInt)) none [a1] v.uses))
  else none

/-- Rule `(Select0 (MULTU (MOVWconst [c]) (MOVWconst [d]))) =>
(MOVWconst [(c*d)>>32])`, one orientation; `>>` on `int64` is an
arithmetic shift, i.e. floor division. -/
def ruleS0MULTUcc (v : Value) (a0 a1 : Value) : Option VResult :=
  if a0.op = .MIPSMOVWconst ∧ a1.op = .MIPSMOVWconst then
    some (.fired (.mk .MIPSMOVWconst v.ty
      (Int.fdiv (int64 (a0.auxInt * a1.auxInt)) (2 ^ 32)) none [] v.uses))
  else none

/-- Rules `(Select0/1 ((DIV|DIVU) (MOVWconst [c]) (MOVWconst [d])))`:
the fold result is given by `f c d`, which is `none` exactly when the Go
expression divides by zero and the matcher panics. -/
def ruleSelDivFold (divOp : Op) (f : Int → Int → Option Int) (v v0 : Value) :
    Option VResult :=
  if v0.op = divOp then
    match v0.args with
    | a0 :: a1 :: _ =>
      if a0.op = .MIPSMOVWconst then
        if a1.op = .MIPSMOVWconst then
          match f a0.auxInt a1.auxInt with
          | some r => some (.fired (.mk .MIPSMOVWconst v.ty r none [] v.uses))
          | none => some .panicked
        else none
      else none
    | _ => some .panicked
  else none

/-- Embeds the `MULTU` rule group of `rewriteValueMIPS_OpSelect0`: a
`MULTU` operand with too few arguments panics (the matcher reads
`v_0.Args[1]`); a `MULTU` none of whose rules fire falls through to the
later rules, like the generated `break`s. -/
def s0MULTU (v v0 : Value) : Option VResult :=
  if v0.op = .MIPSMULTU then
    match v0.args with
    | a0 :: a1 :: _ =>
      (commute2 (ruleMULTUconstK 0 v) a0 a1).orElse fun _ =>
      (commute2 (ruleMULTUconstK 1 v) a0 a1).orElse fun _ =>
      (commute2 (ruleS0MULTUm1 v) a0 a1).orElse fun _ =>
      (commute2 (ruleS0MULTUpow2 v) a0 a1).orElse fun _ =>
      commute2 (ruleS0MULTUcc v) a0 a1
    | _ => some .panicked
  else none

/-- Embeds `rewriteValueMIPS_OpSelect0`: the eight rules of the source
function in order.  `Select0` of a tuple-producing op is its first
result: high word of `MULTU`, remainder of `DIV`/`DIVU`. -/
def rewriteValueMIPS_OpSelect0 (v : Value) : VResult :=
  match v.args with
  | v0 :: _ =>
    ((ruleS0Add32carry v v0).orElse fun _ =>
     (ruleS0Sub32carry v v0).orElse fun _ =>
     (s0MULTU v v0).orElse fun _ =>
     (ruleSelDivFold .MIPSDIV modS32 v v0).orElse fun _ =>
     ruleSelDivFold .MIPSDIVU modU32 v v0).getD .unchanged
  | _ => .panicked

/-- Rule `(Select1 (Add32carry <t> x y)) =>
(SGTU <Bool> x (ADD <t.FieldType(0)> x y))`. -/
def ruleS1Add32carry (v v0 : Value) : Option VResult :=
  if v0.op = .Add32carry then some (
    match v0.args with
    | x :: y :: _ => .fired (.mk .MIPSSGTU .bool 0 none
        [x, .mk .MIPSADD (v0.ty.fieldType 0) 0 none [x, y] 1] v.uses)
    | _ => .panicked)
  else none

/-- Rule `(Select1 (Sub32carry <t> x y)) =>
(SGTU <Bool> (SUB <t.FieldType(0)> x y) x)`. -/
def ruleS1Sub32carry (v v0 : Value) : Option VResult :=
  if v0.op = .Sub32carry then some (
    match v0.args with
    | x :: y :: _ => .fired (.mk .MIPSSGTU .bool 0 none
        [.mk .MIPSSUB (v0.ty.fieldType 0) 0 none [x, y] 1, x] v.uses)
    | _ => .panicked)
  else none

/-- Rule `(Select1 (MULTU (MOVWconst [1]) x)) => x`, one orientation;
a bare-variable result is generated as a `Copy` of it. -/
def ruleS1MULTU1 (v : Value) (a0 a1 : Value) : Option VResult :=
  if a0.op = .MIPSMOVWconst ∧ a0.auxInt = 1 then
    some (.fired (.mk .Copy a1.ty 0 none [a1] v.uses))
  else none

/-- Rule `(Select1 (MULTU (MOVWconst [-1]) x)) => (NEG <x.Type> x)`, one
orientation. -/
def ruleS1MULTUm1 (v : Value) (a0 a1 : Value) : Option VResult :=
  if a0.op = .MIPSMOVWconst ∧ a0.auxInt = -1 then
    some (.fired (.mk .MIPSNEG a1.ty 0 none [a1] v.uses))
  else none

/-- Rule `(Select1 (MULTU (MOVWconst [c]) x)) =>
(SLLconst [log2(int64(uint32(c)))] x)` when `uint32(c)` is a power of
two, one orientation. -/
def ruleS1MULTUpow2 (v : Value) (a0 a1 : Value) : Option VResult :=
  if a0.op = .MIPSMOVWconst ∧ isPowerOfTwo (uint32 a0.auxInt) = true then
    some (.fired (.mk .MIPSSLLconst v.ty (log2 (uint32 a0.auxInt)) none [a1] v.uses))
  else none

/-- Rule `(Select1 (MULTU (MOVWconst [c]) (MOVWconst [d]))) =>
(MOVWconst [int64(int32(uint32(c)*uint32(d)))])`, one orientation. -/
def ruleS1MULTUcc (v : Value) (a0 a1 : Value) : Option VResult :=
  if a0.op = .MIPSMOVWconst ∧ a1.op = .MIPSMOVWconst then
    some (.fired (.mk .MIPSMOVWconst v.ty
      (int32 (uint32 a0.auxInt * uint32 a1.auxInt)) none [] v.uses))
  else none

/-- Embeds the `MULTU` rule group of `rewriteValueMIPS_OpSelect1`,
analogous to `s0MULTU`. -/
def s1MULTU (v v0 : Value) : Option VResult :=
  if v0.op = .MIPSMULTU then
    match v0.args with
    | a0 :: a1 :: _ =>
      (commute2 (ruleMULTUconstK 0 v) a0 a1).orElse fun _ =>
      (commute2 (ruleS1MULTU1 v) a0 a1).orElse fun _ =>
      (commute2 (ruleS1MULTUm1 v) a0 a1).orElse fun _ =>
      (commute2 (ruleS1MULTUpow2 v) a0 a1).orElse fun _ =>
      commute2 (ruleS1MULTUcc v) a0 a1
    | _ => some .panicked
  else none

/-- Embeds `rewriteValueMIPS_OpSelect1`: the nine rules of the source
function in order.  `Select1` of a tuple-producing op is its second
result: carry bit, low word of `MULTU`, quotient of `DIV`/`DIVU`. -/
def rewriteValueMIPS_OpSelect1 (v : Value) : VResult :=
  match v.args with
  | v0 :: _ =>
    ((ruleS1Add32carry v v0).orElse fun _ =>
     (ruleS1Sub32carry v v0).orElse fun _ =>
     (s1MULTU v v0).orElse fun _ =>
     (ruleSelDivFold .MIPSDIV divS32 v v0).orElse fun _ =>
     ruleSelDivFold .MIPSDIVU divU32 v v0).getD .unchanged
  | _ => .panicked

/-- Embeds `rewriteValueMIPS_OpConst32`:
`(Const32 [val]) => (MOVWconst [val])`, unconditional. -/
def rewriteValueMIPS_OpConst32 (v : Value) : VResult :=
  .fired (.mk .MIPSMOVWconst v.ty v.auxInt none [] v.uses)

/-- Embeds `rewriteValueMIPS_OpAdd32`: `(Add32 x y) => (ADD x y)`,
unconditional (reads both arguments). -/
def rewriteValueMIPS_OpAdd32 (v : Value) : VResult :=
  match v.args with
  | x :: y :: _ => .fired (.mk .MIPSADD v.ty 0 none [x, y] v.uses)
  | _ => .panicked

/-- Rule `(ADD x (MOVWconst [c])) => (ADDconst [c] x)`, one orientation. -/
def ruleADDconstRight (v : Value) (a0 a1 : Value) : Option VResult :=
  if a1.op = .MIPSMOVWconst then
    some (.fired (.mk .MIPSADDconst v.ty a1.auxInt none [a0] v.uses))
  else none

/-- Rule `(ADD x (NEG y)) => (SUB x y)`, one orientation. -/
def ruleADDNEG (v : Value) (a0 a1 : Value) : Option VResult :=
  if a1.op = .MIPSNEG then some (
    match a1.args with
    | y :: _ => .fired (.mk .MIPSSUB v.ty 0 none [a0, y] v.uses)
    | _ => .panicked)
  else none

/-- Embeds `rewriteValueMIPS_OpMIPSADD`: the two (commuted) rules of the
source function in order. -/
def rewriteValueMIPS_OpMIPSADD (v : Value) : VResult :=
  match v.args with
  | a0 :: a1 :: _ =>
    ((commute2 (ruleADDconstRight v) a0 a1).orElse fun _ =>
     commute2 (ruleADDNEG v) a0 a1).getD .unchanged
  | _ => .panicked

/-- Embeds `rewriteValueMIPS_OpMIPSADDconst`: the five rules of the
source function in order. -/
def rewriteValueMIPS_OpMIPSADDconst (v : Value) : VResult :=
  match v.args with
  | v0 :: _ =>
    -- (ADDconst [off1] (MOVWaddr [off2] {sym} ptr)) => (MOVWaddr [off1+off2] {sym} ptr)
    if v0.op = .MIPSMOVWaddr then
      match v0.args with
      | ptr :: _ => .fired (.mk .MIPSMOVWaddr v.ty (int64 (v.auxInt + v0.auxInt)) v0.aux [ptr] v.uses)
      | _ => .panicked
    -- (ADDconst [0] x) => x
    else if v.auxInt = 0 then
      .fired (.mk .Copy v0.ty 0 none [v0] v.uses)
    -- (ADDconst [c] (MOVWconst [d])) => (MOVWconst [int64(int32(c+d))])
    else if v0.op = .MIPSMOVWconst then
      .fired (.mk .MIPSMOVWconst v.ty (int32 (v.auxInt + v0.auxInt)) none [] v.uses)
    -- (ADDconst [c] (ADDconst [d] x)) => (ADDconst [int64(int32(c+d))] x)
    else if v0.op = .MIPSADDconst then
      match v0.args with
      | x :: _ => .fired (.mk .MIPSADDconst v.ty (int32 (v.auxInt + v0.auxInt)) none [x] v.uses)
      | _ => .panicked
    -- (ADDconst [c] (SUBconst [d] x)) => (ADDconst [int64(int32(c-d))] x)
    else if v0.op = .MIPSSUBconst then
      match v0.args with
      | x :: _ => .fired (.mk .MIPSADDconst v.ty (int32 (v.auxInt - v0.auxInt)) none [x] v.uses)
      | _ => .panicked
    else .unchanged
  | _ => .panicked

/-- Embeds `rewriteValueMIPS_OpMIPSSUB`: the three rules of the source
function in order (the `(SUB x x)` rule compares the two argument
pointers, embedded as structural equality of the subtrees). -/
def rewriteValueMIPS_OpMIPSSUB (v : Value) : VResult :=
  match v.args with
  | a0 :: a1 :: _ =>
    -- (SUB x (MOVWconst [c])) => (SUBconst [c] x)
    if a1.op = .MIPSMOVWconst then
      .fired (.mk .MIPSSUBconst v.ty a1.auxInt none [a0] v.uses)
    -- (SUB x x) => (MOVWconst [0])
    else if a0.beq a1 then
      .fired (.mk .MIPSMOVWconst v.ty 0 none [] v.uses)
    -- (SUB (MOVWconst [0]) x) => (NEG x)
    else if a0.op = .MIPSMOVWconst ∧ a0.auxInt = 0 then
      .fired (.mk .MIPSNEG v.ty 0 none [a1] v.uses)
    else .unchanged
  | _ => .panicked

/-- Embeds `rewriteValueMIPS_OpMIPSSUBconst`: the four rules of the
source function in order.  Note that only a `MOVWconst`, `SUBconst` or
`ADDconst` operand turns the subtraction into an addition (or folds it);
a `SUBconst` of any other operand is left unchanged. -/
def rewriteValueMIPS_OpMIPSSUBconst (v : Value) : VResult :=
  match v.args with
  | v0 :: _ =>
    -- (SUBconst [0] x) => x
    if v.auxInt = 0 then
      .fired (.mk .Copy v0.ty 0 none [v0] v.uses)
    -- (SUBconst [c] (MOVWconst [d])) => (MOVWconst [int64(int32(d-c))])
    else if v0.op = .MIPSMOVWconst then
      .fired (.mk .MIPSMOVWconst v.ty (int32 (v0.auxInt - v.auxInt)) none [] v.uses)
    -- (SUBconst [c] (SUBconst [d] x)) => (ADDconst [int64(int32(-c-d))] x)
    else if v0.op = .MIPSSUBconst then
      match v0.args with
      | x :: _ => .fired (.mk .MIPSADDconst v.ty (int32 (-v.auxInt - v0.auxInt)) none [x] v.uses)
      | _ => .panicked
    -- (SUBconst [c] (ADDconst [d] x)) => (ADDconst [int64(int32(-c+d))] x)
    else if v0.op = .MIPSADDconst then
      match v0.args with
      | x :: _ => .fired (.mk .MIPSADDconst v.ty (int32 (-v.auxInt + v0.auxInt)) none [x] v.uses)
      | _ => .panicked
    else .unchanged
  | _ => .panicked

/-- Modelled from the spec: the symbol-merging helper `canMergeSym` of
the rewrite engine (its file is not in the sources given): two symbol
auxes can merge iff at least one is nil. -/
def canMergeSym (s1 s2 : Option Nat) : Bool := s1.isNone || s2.isNone

/-- Modelled from the spec: `mergeSym` returns whichever of the two
mergeable symbol auxes is non-nil. -/
def mergeSym (s1 s2 : Option Nat) : Option Nat :=
  match s1 with | none => s2 | some n => some n

/-- Modelled from the spec: the aliasing helper `isSamePtr` (its file is
not in the sources given), conservatively true when the two pointer
values coincide; embedded as structural equality of the subtrees. -/
def isSamePtr (p1 p2 : Value) : Bool := p1.beq p2

/-- Embeds the first rule of `rewriteValueMIPS_OpMIPSMOVWload`:
`(MOVWload [off1] {sym} x:(ADDconst [off2] ptr) mem)` rewrites to
`(MOVWload [off1+off2] {sym} ptr mem)` under the condition
`is16Bit(off1+off2) || x.Uses == 1`. -/
def ruleMOVWloadADDconst (v : Value) (x mem : Value) : Option VResult :=
  if x.op = .MIPSADDconst then
    match x.args with
    | ptr :: _ =>
      if is16Bit (int64 (v.auxInt + x.auxInt)) = true ∨ x.uses = 1 then
        some (.fired (.mk .MIPSMOVWload v.ty (int64 (v.auxInt + x.auxInt))
          v.aux [ptr, mem] v.uses))
      else none
    | _ => some .panicked
  else none

/-- Embeds the second rule of `rewriteValueMIPS_OpMIPSMOVWload`:
`(MOVWload [off1] {sym1} (MOVWaddr [off2] {sym2} ptr) mem)` rewrites to
`(MOVWload [off1+off2] {mergeSym(sym1,sym2)} ptr mem)` when the symbols
can merge. -/
def ruleMOVWloadMOVWaddr (v : Value) (x mem : Value) : Option VResult :=
  if x.op = .MIPSMOVWaddr then
    match x.args with
    | ptr :: _ =>
      if canMergeSym v.aux x.aux = true then
        some (.fired (.mk .MIPSMOVWload v.ty (int64 (v.auxInt + x.auxInt))
          (mergeSym v.aux x.aux) [ptr, mem] v.uses))
      else none
    | _ => some .panicked
  else none

/-- Embeds the third rule of `rewriteValueMIPS_OpMIPSMOVWload`:
store-to-load forwarding
`(MOVWload [off] {sym} ptr (MOVWstore [off2] {sym2} ptr2 x _)) => x`
when the symbol, offset and pointer coincide. -/
def ruleMOVWloadStore (v : Value) (ptr mem : Value) : Option VResult :=
  if mem.op = .MIPSMOVWstore then
    match mem.args with
    | ptr2 :: x :: _ :: _ =>
      if v.aux = mem.aux ∧ v.auxInt = mem.auxInt ∧ isSamePtr ptr ptr2 = true then
        some (.fired (.mk .Copy x.ty 0 none [x] v.uses))
      else none
    | _ => some .panicked
  else none

/-- Embeds `rewriteValueMIPS_OpMIPSMOVWload`: the three rules of the
source function in order (ADDconst displacement folding, MOVWaddr symbol
merging, store-to-load forwarding); a rule whose condition fails falls
through to the next, like the generated `break`s. -/
def rewriteValueMIPS_OpMIPSMOVWload (v : Value) : VResult :=
  match v.args with
  | v0 :: v1 :: _ =>
    ((ruleMOVWloadADDconst v v0 v1).orElse fun _ =>
     (ruleMOVWloadMOVWaddr v v0 v1).orElse fun _ =>
     ruleMOVWloadStore v v0 v1).getD .unchanged
  | _ => .panicked

/-- Embeds the dispatch of `rewriteValueMIPS`, restricted to the ops
whose matcher functions are embedded here; ops without a dispatch case
in the generated source (such as `MOVWconst`) return false there, as
here.  The remaining generated cases are a disjoint part of the table
that the claims never dispatch to. -/
def rewriteValueMIPS (v : Value) : VResult :=
  match v.op with
  | .Add32 => rewriteValueMIPS_OpAdd32 v
  | .Const32 => rewriteValueMIPS_OpConst32 v
  | .Select0 => rewriteValueMIPS_OpSelect0 v
  | .Select1 => rewriteValueMIPS_OpSelect1 v
  | .MIPSADD => rewriteValueMIPS_OpMIPSADD v
  | .MIPSADDconst => rewriteValueMIPS_OpMIPSADDconst v
  | .MIPSSUB => rewriteValueMIPS_OpMIPSSUB v
  | .MIPSSUBconst => rewriteValueMIPS_OpMIPSSUBconst v
  | .MIPSMOVWload => rewriteValueMIPS_OpMIPSMOVWload v
  | _ => .unchanged

/-- Modelled from the spec: the engine's execution model (§4.F) — "for
each value in the block, dispatch on `Op` to the matcher; if any rule
fires, replace the value in place and mark the block changed; iterate to
fixpoint" (the driver loop itself is not in the sources given).  One
pass rewrites a value's arguments and then the value; the changed flag
reports whether anything fired.  A matcher panic aborts with `.error`. -/
def rewritePass : Value → Except Unit (Bool × Value)
  | .mk o t a s argl u => do
    let (chA, argl') ← rewritePassList argl
    let v := Value.mk o t a s argl' u
    match rewriteValueMIPS v with
    | .fired w => .ok (true, w)
    | .unchanged => .ok (chA, v)
    | .panicked => .error ()
where rewritePassList : List Value → Except Unit (Bool × List Value)
  | [] => .ok (false, [])
  | x :: xs => do
    let (c1, y) ← rewritePass x
    let (c2, ys) ← rewritePassList xs
    .ok (c1 || c2, y :: ys)

/-- Modelled from the spec: iterate `rewritePass` until no rule fires
(§4.F "iterate to fixpoint over the entire function"), with fuel
standing in for the engine's unbounded loop. -/
def rewriteFix : Nat → Value → Except Unit Value
  | 0, v => .ok v
  | fuel + 1, v => do
    let (ch, w) ← rewritePass v
    if ch then rewriteFix fuel w else .ok w

/-! ## Block rewriter (from `rewriteMIPS.go`'s `rewriteBlockMIPS`) -/

/-- Terminator classes of §3 restricted to the kinds the MIPS block
rewriter dispatches on, together with the generic kinds. -/
inductive BlockKind where
  | Plain | If | First | Exit | Call
  | MIPSEQ | MIPSNE | MIPSGEZ | MIPSGTZ | MIPSLEZ | MIPSLTZ
  | MIPSFPT | MIPSFPF
deriving DecidableEq, Repr

/-- A basic block as the block rewriter sees it: kind, control values,
and successor edges (by block ID).  `b.Reset(k)` sets the kind and
clears the controls; `b.AddControl` appends one. -/
structure Block where
  kind : BlockKind
  controls : List Value
  succs : List Nat

/-- Go's `b.swapSuccessors()`: exchange the two successor edges. -/
def swapSuccs : List Nat → List Nat
  | [s0, s1] => [s1, s0]
  | l => l

/-- Outcome of `rewriteBlockMIPS` on one block: `changed b'` models
`return true` with the block mutated to `b'`, `unchanged` models
`return false`, `panicked` a Go runtime panic (reading a control or an
argument that is not there). -/
inductive BResult where
  | changed (b : Block)
  | unchanged
  | panicked

/-- Embeds `rewriteBlockMIPS`: dispatch on the block kind, then try the
generated rules in source order.  The six `XORconst [1]` inversion rules
of the `EQ` and `NE` cases differ only in the grandchild comparison op
and are grouped; rules check the control's `AuxInt` before reading its
argument, as the generated code does, and the `SGT`/`SGTU` variants also
read the comparison's second argument. -/
def rewriteBlockMIPS (b : Block) : BResult :=
  match b.kind with
  | .MIPSEQ =>
    match b.controls with
    | c :: _ =>
      -- (EQ (FPFlagTrue cmp) yes no) => (FPF cmp yes no)
      if c.op = .MIPSFPFlagTrue then
        match c.args with
        | cmp :: _ => .changed ⟨.MIPSFPF, [cmp], b.succs⟩
        | _ => .panicked
      -- (EQ (FPFlagFalse cmp) yes no) => (FPT cmp yes no)
      else if c.op = .MIPSFPFlagFalse then
        match c.args with
        | cmp :: _ => .changed ⟨.MIPSFPT, [cmp], b.succs⟩
        | _ => .panicked
      -- (EQ (XORconst [1] cmp:(SGT|SGTU|SGTconst|SGTUconst|SGTzero|SGTUzero ..)) yes no)
      --   => (NE cmp yes no)
      else if c.op = .MIPSXORconst then
        if c.auxInt = 1 then
          match c.args with
          | cmp :: _ =>
            if cmp.op = .MIPSSGT ∨ cmp.op = .MIPSSGTU then
              match cmp.args with
              | _ :: _ :: _ => .changed ⟨.MIPSNE, [cmp], b.succs⟩
              | _ => .panicked
            else if cmp.op = .MIPSSGTconst ∨ cmp.op = .MIPSSGTUconst ∨
                cmp.op = .MIPSSGTzero ∨ cmp.op = .MIPSSGTUzero then
              .changed ⟨.MIPSNE, [cmp], b.succs⟩
            else .unchanged
          | _ => .panicked
        else .unchanged
      -- (EQ (SGTUconst [1] x) yes no) => (NE x yes no)
      else if c.op = .MIPSSGTUconst then
        if c.auxInt = 1 then
          match c.args with
          | x :: _ => .changed ⟨.MIPSNE, [x], b.succs⟩
          | _ => .panicked
        else .unchanged
      -- (EQ (SGTUzero x) yes no) => (EQ x yes no)
      else if c.op = .MIPSSGTUzero then
        match c.args with
        | x :: _ => .changed ⟨.MIPSEQ, [x], b.succs⟩
        | _ => .panicked
      -- (EQ (SGTconst [0] x) yes no) => (GEZ x yes no)
      else if c.op = .MIPSSGTconst then
        if c.auxInt = 0 then
          match c.args with
          | x :: _ => .changed ⟨.MIPSGEZ, [x], b.succs⟩
          | _ => .panicked
        else .unchanged
      -- (EQ (SGTzero x) yes no) => (LEZ x yes no)
      else if c.op = .MIPSSGTzero then
        match c.args with
        | x :: _ => .changed ⟨.MIPSLEZ, [x], b.succs⟩
        | _ => .panicked
      -- (EQ (MOVWconst [0]) yes no) => (First yes no)
      -- (EQ (MOVWconst [c]) yes no) && c != 0 => (First no yes)
      else if c.op = .MIPSMOVWconst then
        if c.auxInt = 0 then .changed ⟨.First, [], b.succs⟩
        else .changed ⟨.First, [], swapSuccs b.succs⟩
      else .unchanged
    | _ => .panicked
  | .MIPSGEZ =>
    -- (GEZ (MOVWconst [c]) yes no): First, successors swapped iff int32(c) < 0
    match b.controls with
    | c :: _ =>
      if c.op = .MIPSMOVWconst then
        if 0 ≤ int32 c.auxInt then .changed ⟨.First, [], b.succs⟩
        else .changed ⟨.First, [], swapSuccs b.succs⟩
      else .unchanged
    | _ => .panicked
  | .MIPSGTZ =>
    -- (GTZ (MOVWconst [c]) yes no): First, successors swapped iff int32(c) <= 0
    match b.controls with
    | c :: _ =>
      if c.op = .MIPSMOVWconst then
        if 0 < int32 c.auxInt then .changed ⟨.First, [], b.succs⟩
        else .changed ⟨.First, [], swapSuccs b.succs⟩
      else .unchanged
    | _ => .panicked
  | .If =>
    -- (If cond yes no) => (NE cond yes no), unconditional
    match b.controls with
    | cond :: _ => .changed ⟨.MIPSNE, [cond], b.succs⟩
    | _ => .panicked
  | .MIPSLEZ =>
    -- (LEZ (MOVWconst [c]) yes no): First, successors swapped iff int32(c) > 0
    match b.controls with
    | c :: _ =>
      if c.op = .MIPSMOVWconst then
        if int32 c.auxInt ≤ 0 then .changed ⟨.First, [], b.succs⟩
        else .changed ⟨.First, [], swapSuccs b.succs⟩
      else .unchanged
    | _ => .panicked
  | .MIPSLTZ =>
    -- (LTZ (MOVWconst [c]) yes no): First, successors swapped iff int32(c) >= 0
    match b.controls with
    | c :: _ =>
      if c.op = .MIPSMOVWconst then
        if int32 c.auxInt < 0 then .changed ⟨.First, [], b.succs⟩
        else .changed ⟨.First, [], swapSuccs b.succs⟩
      else .unchanged
    | _ => .panicked
  | .MIPSNE =>
    match b.controls with
    | c :: _ =>
      -- (NE (FPFlagTrue cmp) yes no) => (FPT cmp yes no)
      if c.op = .MIPSFPFlagTrue then
        match c.args with
        | cmp :: _ => .changed ⟨.MIPSFPT, [cmp], b.succs⟩
        | _ => .panicked
      -- (NE (FPFlagFalse cmp) yes no) => (FPF cmp yes no)
      else if c.op = .MIPSFPFlagFalse then
        match c.args with
        | cmp :: _ => .changed ⟨.MIPSFPF, [cmp], b.succs⟩
        | _ => .panicked
      -- (NE (XORconst [1] cmp:(SGT|SGTU|SGTconst|SGTUconst|SGTzero|SGTUzero ..)) yes no)
      --   => (EQ cmp yes no)
      else if c.op = .MIPSXORconst then
        if c.auxInt = 1 then
          match c.args with
          | cmp :: _ =>
            if cmp.op = .MIPSSGT ∨ cmp.op = .MIPSSGTU then
              match cmp.args with
              | _ :: _ :: _ => .changed ⟨.MIPSEQ, [cmp], b.succs⟩
              | _ => .panicked
            else if cmp.op = .MIPSSGTconst ∨ cmp.op = .MIPSSGTUconst ∨
                cmp.op = .MIPSSGTzero ∨ cmp.op = .MIPSSGTUzero then
              .changed ⟨.MIPSEQ, [cmp], b.succs⟩
            else .unchanged
          | _ => .panicked
        else .unchanged
      -- (NE (SGTUconst [1] x) yes no) => (EQ x yes no)
      else if c.op = .MIPSSGTUconst then
        if c.auxInt = 1 then
          match c.args with
          | x :: _ => .changed ⟨.MIPSEQ, [x], b.succs⟩
          | _ => .panicked
        else .unchanged
      -- (NE (SGTUzero x) yes no) => (NE x yes no)
      else if c.op = .MIPSSGTUzero then
        match c.args with
        | x :: _ => .changed ⟨.MIPSNE, [x], b.succs⟩
        | _ => .panicked
      -- (NE (SGTconst [0] x) yes no) => (LTZ x yes no)
      else if c.op = .MIPSSGTconst then
        if c.auxInt = 0 then
          match c.args with
          | x :: _ => .changed ⟨.MIPSLTZ, [x], b.succs⟩
          | _ => .panicked
        else .unchanged
      -- (NE (SGTzero x) yes no) => (GTZ x yes no)
      else if c.op = .MIPSSGTzero then
        match c.args with
        | x :: _ => .changed ⟨.MIPSGTZ, [x], b.succs⟩
        | _ => .panicked
      -- (NE (MOVWconst [0]) yes no) => (First no yes)
      -- (NE (MOVWconst [c]) yes no) && c != 0 => (First yes no)
      else if c.op = .MIPSMOVWconst then
        if c.auxInt = 0 then .changed ⟨.First, [], swapSuccs b.succs⟩
        else .changed ⟨.First, [], b.succs⟩
      else .unchanged
    | _ => .panicked
  | _ => .unchanged

/-! ## Stack-slot allocator (from `stackalloc.go`)

Values are referenced by dense ID here (the allocator works on the
per-function graph, not on a local window): a value carries its argument
IDs, and side tables are ID-indexed.  The Go sparse sets (whose file is
not in the sources given) are modelled from the spec — "dense-indexed
sets over value IDs" (§2 C) — as finite sets of IDs. -/

/-- A set of value IDs (the sparse-set abstraction); value IDs are dense
nonzero integers unique within one function (§3), embedded as `Nat`. -/
abbrev IDSet := Finset Nat

/-- A frontend symbol (`GCNode` in the source): either provided by the
front end with the input function (parameter and named-variable nodes)
or freshly created by the `Config.fe.Auto` callback during stack
allocation.  The frontend contract (§6, `Auto(type) → symbol` allocates
a new local) makes an `Auto` result distinct from every existing node,
which the two constructors record. -/
inductive GCNode where
  | named (n : Nat)
  | auto (n : Nat)
deriving DecidableEq

/-- Go's `LocalSlot{N GCNode, Type Type, Off int64}`; the zero
`LocalSlot` has a nil `N`. -/
structure LocalSlot where
  n : Option GCNode
  ty : Ty
  off : Int
deriving DecidableEq

/-- A post-regalloc home: a machine register or a stack slot. -/
inductive Location where
  | register (r : Nat)
  | localSlot (s : LocalSlot)
deriving DecidableEq

/-- A value as the stack allocator sees it: ID, op, type, the scalar and
symbol auxiliaries (`AuxInt`/`Aux`, the latter read only for `OpArg`),
and argument references by ID. -/
structure SAValue where
  id : Nat
  op : Op
  ty : Ty
  auxInt : Int
  aux : Option GCNode
  args : List Nat
deriving DecidableEq

/-- A basic block for the allocator: ID, the ordered values defined in
it, and predecessor/successor edges by block ID. -/
structure SABlock where
  id : Nat
  values : List SAValue
  preds : List Nat
  succs : List Nat
deriving DecidableEq

/-- The per-function state the allocator reads and writes: blocks, the
entry block, the `RegAlloc` home table (dense, ID-indexed, nil entries
for unassigned values), the ordered `Names`/`NamedValues` tables, and
the `NumValues` bound on IDs. -/
structure Func where
  blocks : List SABlock
  entryID : Nat
  regAlloc : List (Option Location)
  names : List (LocalSlot × List Nat)
  numValues : Nat

/-- Go's `f.getHome(vid)` on a raw home table: nil for an ID at or
beyond the table's length, else the stored entry (itself possibly nil). -/
def getHomeL (ra : List (Option Location)) (vid : Nat) : Option Location :=
  if ra.length ≤ vid then none
  else ra.getD vid none

/-- Grow a home table with nil entries until index `vid` exists, as
`setHome`'s append loop does. -/
def growTo (ra : List (Option Location)) (vid : Nat) : List (Option Location) :=
  ra ++ List.replicate (vid + 1 - ra.length) none

/-- Go's `f.setHome(v, loc)` on a raw home table: grow with nils, then
store. -/
def setHomeL (ra : List (Option Location)) (vid : Nat) (loc : Location) :
    List (Option Location) :=
  (growTo ra vid).set vid (some loc)

/-- Embeds `(*Func).getHome`. -/
def Func.getHome (f : Func) (vid : Nat) : Option Location :=
  getHomeL f.regAlloc vid

/-- Embeds `(*Func).setHome`. -/
def Func.setHome (f : Func) (v : SAValue) (loc : Location) : Func :=
  { f with regAlloc := setHomeL f.regAlloc v.id loc }

/-- Embeds `(*Value).isStackPhi` against a given home table (the method
reads the current `f.RegAlloc`): not a phi or a memory phi is never a
stack phi; otherwise a phi is a stack phi exactly when its home entry is
missing or nil. -/
def isStackPhi (ra : List (Option Location)) (v : SAValue) : Bool :=
  if v.op ≠ .Phi then false
  else if v.ty = TypeMem then false
  else if ra.length ≤ v.id then true
  else decide (ra.getD v.id none = none)

/-- Look a block up by ID (blocks hold pointers in Go; the embedding
resolves the ID against the block list, with a harmless dummy for IDs
that do not occur — well-formed functions resolve every edge). -/
def Func.blockById (f : Func) (bid : Nat) : SABlock :=
  (f.blocks.find? (fun b => b.id = bid)).getD ⟨0, [], [], []⟩

/-- Entry block of the function. -/
def Func.entry (f : Func) : SABlock := f.blockById f.entryID

/-- Value-type cache `types[v.ID] = v.Type` built at the top of
`stackalloc`. -/
def typesOf (f : Func) : Nat → Ty :=
  f.blocks.foldl
    (fun m b => b.values.foldl
      (fun m v => fun id => if id = v.id then v.ty else m id) m)
    (fun _ => .unknown)

/-! ### Spill liveness (`liveSpills`) -/

/-- Per-block, per-successor-edge live sets: `live[blockID][succIndex]`. -/
abbrev LiveMap := Nat → List IDSet

/-- Initial live map: one empty set per successor edge of each block. -/
def initLive (f : Func) : LiveMap := fun bid =>
  match f.blocks.find? (fun b => b.id = bid) with
  | some b => List.replicate b.succs.length ∅
  | none => []

/-- Union of the live-on-edge sets over all successor edges of `b`: the
`s.clear(); s.addAll(live[b.ID][i])` prologue of both backward scans. -/
def blockLiveOut (live : LiveMap) (b : SABlock) : IDSet :=
  (List.range b.succs.length).foldl (fun s i => s ∪ (live b.id).getD i ∅) ∅

/-- One backward step of `liveSpills` over a value: a `StoreReg`
definition kills its ID, a `LoadReg` use revives its argument, a stack
phi kills its ID and is saved for the per-edge phi-input attribution.
Anything else (including `OpArg`) leaves the set alone. -/
def liveStep (ra : List (Option Location)) (acc : IDSet × List SAValue)
    (v : SAValue) : IDSet × List SAValue :=
  if v.op = .StoreReg then (acc.1.erase v.id, acc.2)
  else if v.op = .LoadReg then (insert (v.args.headD 0) acc.1, acc.2)
  else if isStackPhi ra v then (acc.1.erase v.id, v :: acc.2)
  else acc

/-- Backward scan of a block's values from the live-out set: yields the
set live at the start of the block (phi inputs excluded) and the list of
stack phis encountered. -/
def blockScan (ra : List (Option Location)) (vals : List SAValue)
    (send : IDSet) : IDSet × List SAValue :=
  vals.reverse.foldl (liveStep ra) (send, [])

/-- Expand the live-on-edge set of predecessor edge `i` of `b`: find the
index `j` of `b` among the predecessor's successors, union in the
live-at-start set and the `i`-th argument of every stack phi of `b`, and
record whether the set grew (the `t.size() == len(live[p.ID][j])`
comparison — the old set is contained in the new one, so equal size
means no change). -/
def edgeUpdate (f : Func) (s : IDSet) (phis : List SAValue) (b : SABlock)
    (acc : Bool × LiveMap) (i : Nat) : Bool × LiveMap :=
  let p := f.blockById (b.preds.getD i 0)
  let j := p.succs.findIdx (fun sid => sid = b.id)
  let old := (acc.2 p.id).getD j ∅
  let t := old ∪ s ∪ phis.foldl (fun u v => insert (v.args.getD i 0) u) ∅
  if t.card = old.card then acc
  else (true, fun x => if x = p.id then (acc.2 p.id).set j t else acc.2 x)

/-- Process one block of a `liveSpills` pass: backward scan, then expand
every incoming edge. -/
def processBlock (f : Func) (ra : List (Option Location)) (lv : LiveMap)
    (b : SABlock) : Bool × LiveMap :=
  (List.range b.preds.length).foldl
    (edgeUpdate f (blockScan ra b.values (blockLiveOut lv b)).1
      (blockScan ra b.values (blockLiveOut lv b)).2 b) (false, lv)

/-- One full pass of the `liveSpills` fixpoint loop over the iteration
order `po`. -/
def livePass (f : Func) (ra : List (Option Location)) (po : List SABlock)
    (lv : LiveMap) : Bool × LiveMap :=
  po.foldl
    (fun acc b =>
      let r := processBlock f ra acc.2 b
      (acc.1 || r.1, r.2))
    (false, lv)

/-- Iterate `livePass` until a pass reports no change, with fuel
standing in for the source's unbounded loop (the sets only grow and are
bounded, so the Go loop terminates; a `none` result means the fuel was
too small, never that the source diverges). -/
def liveLoop (f : Func) (ra : List (Option Location)) (po : List SABlock) :
    Nat → LiveMap → Option LiveMap
  | 0, _ => none
  | fuel + 1, lv =>
    let r := livePass f ra po lv
    if r.1 then liveLoop f ra po fuel r.2 else some r.2

/-- Modelled from the spec: the iteration order of the fixpoint loop,
"Instead of iterating over f.Blocks, iterate over their postordering"
(the postorder utility's file is not in the sources given; §4.H:
liveness iterates in an order chosen only "to converge quickly", and the
theorems below are about stabilized results, which satisfy the per-block
equations regardless of the order).  Reversing the block list visits
later blocks first, as a postorder does for a forward-ordered list. -/
def postorderModel (f : Func) : List SABlock := f.blocks.reverse

/-- Embeds `(*Func).liveSpills`: the per-edge sets of `StoreReg`/stack
phi IDs live on each successor edge, computed to fixpoint. -/
def liveSpills (f : Func) (fuel : Nat) : Option LiveMap :=
  liveLoop f f.regAlloc (postorderModel f) fuel (initLive f)

/-! ### Interference graph -/

/-- One backward step of the interference builder: when a `StoreReg` or
stack phi `v` is reached, it leaves the live set and picks up an
interference edge (both directions) to every still-live ID of an equal
type; a `LoadReg` revives its argument; `OpArg` is deliberately left in
the live set. -/
def interStep (ra : List (Option Location)) (types : Nat → Ty)
    (acc : IDSet × (Nat → IDSet)) (v : SAValue) : IDSet × (Nat → IDSet) :=
  if v.op = .StoreReg ∨ isStackPhi ra v = true then
    let s := acc.1.erase v.id
    let sameTy := s.filter (fun id => v.ty = types id)
    (s, fun id =>
      if id = v.id then acc.2 id ∪ sameTy
      else if id ∈ sameTy then insert v.id (acc.2 id)
      else acc.2 id)
  else if v.op = .LoadReg then (insert (v.args.headD 0) acc.1, acc.2)
  else acc

/-- Embeds the interference-graph construction at the top of
`stackalloc`: for every block, start from the union of the live-on-edge
sets over its successors and walk the values backwards. -/
def buildInterference (f : Func) (types : Nat → Ty) (live : LiveMap) :
    Nat → IDSet :=
  f.blocks.foldl
    (fun nbr b =>
      (b.values.reverse.foldl (interStep f.regAlloc types)
        (blockLiveOut live b, nbr)).2)
    (fun _ => ∅)

/-! ### Slot assignment -/

/-- The `names[v.ID]` table: one `LocalSlot` per value, taken from the
ordered `f.Names`/`f.NamedValues` tables (later names overwrite, "this
step picks one name per value arbitrarily"); the default is the zero
`LocalSlot` with nil `N`. -/
def buildNames (f : Func) : Nat → LocalSlot :=
  f.names.foldl
    (fun m p => p.2.foldl
      (fun m vid => fun id => if id = vid then p.1 else m id) m)
    (fun _ => ⟨none, .unknown, 0⟩)

/-- The `phiArg` table: an ID is a phi argument iff some stack phi (with
respect to the incoming home table — this runs before any assignment)
lists it among its arguments. -/
def buildPhiArg (f : Func) : Nat → Bool :=
  f.blocks.foldl
    (fun pa b => b.values.foldl
      (fun pa v =>
        if isStackPhi f.regAlloc v then
          v.args.foldl (fun pa a => fun id => if id = a then true else pa id) pa
        else pa)
      pa)
    (fun _ => false)

/-- The pre-loop `OpArg` pass: every `OpArg` of the entry block is homed
at its calling-convention slot `LocalSlot{v.Aux.(GCNode), v.Type,
v.AuxInt}`. -/
def argHomes (f : Func) (ra : List (Option Location)) :
    List (Option Location) :=
  f.entry.values.foldl
    (fun ra v =>
      if v.op = .Arg then setHomeL ra v.id (.localSlot ⟨v.aux, v.ty, v.auxInt⟩)
      else ra)
    ra

/-- Mutable state of the slot-picking loop: the home table, the per-type
pool of allocated slots (`locations`), the `slots` index table (-1 for
"no pool slot"), and the number of `Auto` calls made so far (each
returning a fresh frontend node). -/
structure AllocState where
  ra : List (Option Location)
  locs : Ty → List LocalSlot
  slots : Nat → Int
  ctr : Nat

/-- First index `i < n` not marked used, or `n` if every index is used
(the `for i = 0; i < len(locs); i++ { if !used[i] break }` scan). -/
def firstFree (n : Nat) (used : Nat → Bool) : Nat :=
  (((List.range n).filter (fun i => !used i)).headD n)

/-- The name tried for a value: a `StoreReg` spill prefers the name of
the value it stores; a phi prefers its own name. -/
def pickedName (names : Nat → LocalSlot) (v : SAValue) : LocalSlot :=
  if v.op = .StoreReg then names (v.args.headD 0) else names v.id

/-- Condition for using the named slot: the name is real, of the
value's type, and neither a value interfering with `v` nor — when `v`
is a phi — a value interfering with one of its arguments already holds
it (the `goto noname` checks). -/
def nameOK (itf : Nat → IDSet) (ra : List (Option Location)) (v : SAValue)
    (name : LocalSlot) : Prop :=
  name.n ≠ none ∧ v.ty = name.ty ∧
  (∀ id ∈ itf v.id, getHomeL ra id ≠ some (.localSlot name)) ∧
  (v.op = .Phi → ∀ a ∈ v.args, ∀ id ∈ itf a,
    getHomeL ra id ≠ some (.localSlot name))

instance (itf : Nat → IDSet) (ra : List (Option Location)) (v : SAValue)
    (name : LocalSlot) : Decidable (nameOK itf ra v name) := by
  unfold nameOK; infer_instance

/-- The `used[i]` mark of the pool scan: some value interfering with
`v` (or, for a phi, with one of its arguments) occupies pool index `i`. -/
def usedFun (itf : Nat → IDSet) (slots : Nat → Int) (v : SAValue)
    (i : Nat) : Bool :=
  decide (∃ xid ∈ itf v.id, slots xid = (i : Int)) ||
  (decide (v.op = .Phi) &&
    decide (∃ a ∈ v.args, ∃ xid ∈ itf a, slots xid = (i : Int)))

/-- The pool index picked for `v`: the first interference-free index,
or the pool size when every index is used. -/
def poolIndex (itf : Nat → IDSet) (st : AllocState) (v : SAValue) : Nat :=
  firstFree (st.locs v.ty).length (usedFun itf st.slots v)

/-- The pool after `v`'s scan: unchanged when a free index exists, else
grown by a fresh `Auto` slot. -/
def poolAfter (itf : Nat → IDSet) (st : AllocState) (v : SAValue) :
    List LocalSlot :=
  if poolIndex itf st v = (st.locs v.ty).length
  then st.locs v.ty ++ [⟨some (.auto st.ctr), v.ty, 0⟩]
  else st.locs v.ty

/-- One iteration of the slot-picking loop on a value `v`.  Values that
are neither `StoreReg` nor stack phis (with respect to the current home
table) are skipped, as are phi arguments.  Otherwise the named slot is
tried first and, failing that, the per-type pool is scanned, a fresh
slot being appended when every pool slot is used.  A phi's arguments
always receive the phi's own slot. -/
def allocStep (itf : Nat → IDSet) (names : Nat → LocalSlot)
    (phiArg : Nat → Bool) (st : AllocState) (v : SAValue) : AllocState :=
  if ¬(v.op = .StoreReg ∨ isStackPhi st.ra v = true) then st
  else if phiArg v.id = true then st
  else if nameOK itf st.ra v (pickedName names v) then
    let name := pickedName names v
    let ra1 := setHomeL st.ra v.id (.localSlot name)
    { st with ra :=
        if v.op = .Phi then
          v.args.foldl (fun ra a => setHomeL ra a (.localSlot name)) ra1
        else ra1 }
  else
    -- noname: scan the per-type pool for an interference-free index.
    let i := poolIndex itf st v
    let ls2 := poolAfter itf st v
    let loc := ls2.getD i ⟨none, .unknown, 0⟩
    let ra1 := setHomeL st.ra v.id (.localSlot loc)
    let ra2 :=
      if v.op = .Phi then
        v.args.foldl (fun ra a => setHomeL ra a (.localSlot loc)) ra1
      else ra1
    let slots2 : Nat → Int := fun id =>
      if id = v.id ∨ (v.op = .Phi ∧ id ∈ v.args) then (i : Int)
      else st.slots id
    { ra := ra2,
      locs := fun t => if t = v.ty then ls2 else st.locs t,
      slots := slots2,
      ctr := if i = (st.locs v.ty).length then st.ctr + 1 else st.ctr }

/-- The slot-picking loop: every value of every block in order. -/
def allocAll (itf : Nat → IDSet) (names : Nat → LocalSlot)
    (phiArg : Nat → Bool) (st : AllocState) (f : Func) : AllocState :=
  f.blocks.foldl
    (fun st b => b.values.foldl (allocStep itf names phiArg) st) st

/-- Embeds `stackalloc`: cache types, compute spill liveness and the
interference graph, build the name and phi-argument tables, home the
entry `OpArg`s, then run the slot-picking loop.  The result is the
function with its updated home table (`none` only when the liveness
fuel ran out). -/
def stackalloc (f : Func) (fuel : Nat) : Option Func :=
  match liveSpills f fuel with
  | none => none
  | some live =>
    let types := typesOf f
    let itf := buildInterference f types live
    let names := buildNames f
    let phiArg := buildPhiArg f
    let ra0 := argHomes f f.regAlloc
    let st := allocAll itf names phiArg ⟨ra0, fun _ => [], fun _ => -1, 0⟩ f
    some { f with regAlloc := st.ra }

/-- The interference graph exactly as `stackalloc` builds it internally
(exposed so that statements can refer to its edges). -/
def interferenceOf (f : Func) (fuel : Nat) : Option (Nat → IDSet) :=
  (liveSpills f fuel).map (fun live => buildInterference f (typesOf f) live)

/-! ## Home-table lemmas -/

/-- Normal form for `getHomeL`: both the out-of-range branch and a nil
entry read back as `none`. -/
theorem getHomeL_eq (ra : List (Option Location)) (id : Nat) :
    getHomeL ra id = (ra[id]?).getD none := by
  unfold getHomeL
  by_cases h : ra.length ≤ id
  · rw [if_pos h, List.getElem?_eq_none h]
    rfl
  · rw [if_neg h, List.getD_eq_getElem?_getD]

theorem getHomeL_setHomeL (ra : List (Option Location)) (vid id : Nat)
    (loc : Location) :
    getHomeL (setHomeL ra vid loc) id
      = if id = vid then some loc else getHomeL ra id := by
  have hlen : vid < (growTo ra vid).length := by
    unfold growTo
    rw [List.length_append, List.length_replicate]
    omega
  rw [getHomeL_eq, getHomeL_eq, setHomeL]
  by_cases h : id = vid
  · subst h
    rw [if_pos rfl, List.getElem?_set_self hlen]
    rfl
  · rw [if_neg h, List.getElem?_set_ne (fun hh => h hh.symm)]
    unfold growTo
    rcases lt_or_ge id ra.length with h2 | h2
    · rw [List.getElem?_append_left h2]
    · rw [List.getElem?_append_right h2, List.getElem?_eq_none h2,
        List.getElem?_replicate]
      by_cases h3 : id - ra.length < vid + 1 - ra.length <;> simp [h3]

theorem getHomeL_setHomeL_self (ra : List (Option Location)) (vid : Nat)
    (loc : Location) : getHomeL (setHomeL ra vid loc) vid = some loc := by
  rw [getHomeL_setHomeL, if_pos rfl]

theorem getHomeL_setHomeL_ne (ra : List (Option Location)) (vid id : Nat)
    (loc : Location) (h : id ≠ vid) :
    getHomeL (setHomeL ra vid loc) id = getHomeL ra id := by
  rw [getHomeL_setHomeL, if_neg h]

/-- Normal form for `isStackPhi`: a phi of a non-memory type whose
current home is nil (or missing). -/
theorem isStackPhi_iff (ra : List (Option Location)) (v : SAValue) :
    isStackPhi ra v = true
      ↔ v.op = .Phi ∧ v.ty ≠ TypeMem ∧ getHomeL ra v.id = none := by
  unfold isStackPhi getHomeL
  by_cases h1 : v.op = .Phi
  · by_cases h2 : v.ty = TypeMem
    · simp [h1, h2]
    · by_cases h3 : ra.length ≤ v.id
      · simp [h1, h2, h3]
      · simp [h1, h2, h3]
  · simp [h1]

/-- Setting one home entry never turns an assigned entry back into nil. -/
theorem setHomeL_none_mono (ra : List (Option Location)) (vid id : Nat)
    (loc : Location) (h : getHomeL (setHomeL ra vid loc) id = none) :
    getHomeL ra id = none := by
  rw [getHomeL_setHomeL] at h
  by_cases h2 : id = vid
  · simp [h2] at h
  · rwa [if_neg h2] at h

/-- Generic preservation of an invariant along a left fold. -/
theorem foldl_preserve {α β : Type _} {P : α → Prop} (g : α → β → α)
    (l : List β) (h : ∀ a b, b ∈ l → P a → P (g a b)) :
    ∀ a, P a → P (l.foldl g a) := by
  induction l with
  | nil => intro a ha; simpa using ha
  | cons x xs ih =>
    intro a ha
    rw [List.foldl_cons]
    exact ih (fun a b hb => h a b (List.mem_cons_of_mem _ hb)) _
      (h a x (List.mem_cons_self _ _) ha)

/-- An invariant established at some element of a fold and preserved by
every element holds at the end of the fold. -/
theorem foldl_establish {α β : Type _} (P : α → Prop) (g : α → β → α)
    (l : List β) (x : β) (hx : x ∈ l)
    (hpres : ∀ a b, b ∈ l → P a → P (g a b))
    (hest : ∀ a, P (g a x)) :
    ∀ a, P (l.foldl g a) := by
  obtain ⟨s, t, rfl⟩ := List.append_of_mem hx
  intro a
  rw [List.foldl_append, List.foldl_cons]
  exact foldl_preserve g t
    (fun a b hb => hpres a b (by simp [hb])) _ (hest _)

theorem getHomeL_foldl_setHomeL (args : List Nat) (ra : List (Option Location))
    (loc : Location) (id : Nat) :
    getHomeL (args.foldl (fun ra a => setHomeL ra a loc) ra) id
      = if id ∈ args then some loc else getHomeL ra id := by
  induction args generalizing ra with
  | nil => simp
  | cons a as ih =>
    rw [List.foldl_cons, ih]
    by_cases h1 : id ∈ as
    · simp [h1]
    · rw [if_neg h1, getHomeL_setHomeL]
      by_cases h2 : id = a
      · simp [h2]
      · simp [h2, h1]

/-! ## Characterizing one slot-picking step -/

/-- A value that is neither a `StoreReg` nor a stack phi is skipped. -/
theorem allocStep_skip1 (itf : Nat → IDSet) (names : Nat → LocalSlot)
    (phiArg : Nat → Bool) (st : AllocState) (v : SAValue)
    (h : ¬(v.op = .StoreReg ∨ isStackPhi st.ra v = true)) :
    allocStep itf names phiArg st v = st := by
  unfold allocStep
  rw [if_pos h]

/-- A phi argument is skipped by the slot-picking loop. -/
theorem allocStep_skip2 (itf : Nat → IDSet) (names : Nat → LocalSlot)
    (phiArg : Nat → Bool) (st : AllocState) (v : SAValue)
    (h : phiArg v.id = true) :
    allocStep itf names phiArg st v = st := by
  unfold allocStep
  by_cases h1 : ¬(v.op = .StoreReg ∨ isStackPhi st.ra v = true)
  · rw [if_pos h1]
  · rw [if_neg h1, if_pos h]

/-- A processed value (`StoreReg` or current stack phi, not a phi
argument) receives one location, which is also written over every
argument when the value is a phi; all other home entries are untouched. -/
theorem allocStep_processed (itf : Nat → IDSet) (names : Nat → LocalSlot)
    (phiArg : Nat → Bool) (st : AllocState) (v : SAValue)
    (h1 : v.op = .StoreReg ∨ isStackPhi st.ra v = true)
    (h2 : phiArg v.id = false) :
    ∃ loc : Location, ∀ id,
      getHomeL (allocStep itf names phiArg st v).ra id
        = if id = v.id ∨ (v.op = .Phi ∧ id ∈ v.args) then some loc
          else getHomeL st.ra id := by
  unfold allocStep
  rw [if_neg (not_not_intro h1), if_neg (by simp [h2])]
  by_cases hname : nameOK itf st.ra v (pickedName names v)
  · rw [if_pos hname]
    refine ⟨.localSlot (pickedName names v), fun id => ?_⟩
    by_cases hphi : v.op = .Phi
    · simp only [hphi, if_true]
      rw [getHomeL_foldl_setHomeL]
      by_cases hmem : id ∈ v.args
      · simp [hmem]
      · rw [if_neg hmem, getHomeL_setHomeL]
        by_cases hid : id = v.id
        · simp [hid]
        · simp [hid, hmem]
    · simp only [hphi, if_false]
      rw [getHomeL_setHomeL]
      by_cases hid : id = v.id
      · simp [hid]
      · simp [hid, hphi]
  · rw [if_neg hname]
    refine ⟨.localSlot ((poolAfter itf st v).getD (poolIndex itf st v)
      ⟨none, .unknown, 0⟩), fun id => ?_⟩
    by_cases hphi : v.op = .Phi
    · simp only [hphi, if_true]
      rw [getHomeL_foldl_setHomeL]
      by_cases hmem : id ∈ v.args
      · simp [hmem]
      · rw [if_neg hmem, getHomeL_setHomeL]
        by_cases hid : id = v.id
        · simp [hid]
        · simp [hid, hmem]
    · simp only [hphi, if_false]
      rw [getHomeL_setHomeL]
      by_cases hid : id = v.id
      · simp [hid]
      · simp [hid, hphi]

/-- The slot-picking loop is a fold over the concatenation of all
blocks' value lists. -/
theorem allocAll_eq_flatten (itf : Nat → IDSet) (names : Nat → LocalSlot)
    (phiArg : Nat → Bool) (st : AllocState) (f : Func) :
    allocAll itf names phiArg st f
      = ((f.blocks.map SABlock.values).flatten).foldl
          (allocStep itf names phiArg) st := by
  unfold allocAll
  rw [List.foldl_flatten, List.foldl_map]

theorem mem_flatten_values {f : Func} {v : SAValue}
    (h : v ∈ (f.blocks.map SABlock.values).flatten) :
    ∃ b ∈ f.blocks, v ∈ b.values := by
  rw [List.mem_flatten] at h
  obtain ⟨l, hl, hv⟩ := h
  rw [List.mem_map] at hl
  obtain ⟨b, hb, rfl⟩ := hl
  exact ⟨b, hb, hv⟩

/-- `argHomes` leaves every entry that no entry-block `OpArg` owns
untouched. -/
theorem argHomes_preserves (f : Func) (ra : List (Option Location))
    (id : Nat) (h : ∀ w ∈ f.entry.values, w.op = .Arg → w.id ≠ id) :
    getHomeL (argHomes f ra) id = getHomeL ra id := by
  unfold argHomes
  refine foldl_preserve _ f.entry.values
    (fun ra2 w hw (hP : getHomeL ra2 id = getHomeL ra id) => ?_) ra rfl
  by_cases hop : w.op = .Arg
  · rw [if_pos hop, getHomeL_setHomeL_ne _ _ _ _ (fun hh => h w hw hop hh.symm)]
    exact hP
  · rwa [if_neg hop]

/-- Evaluating the phi-argument marker fold at one ID. -/
theorem foldl_markTrue (args : List Nat) (pa : Nat → Bool) (id : Nat) :
    (args.foldl (fun pa a => fun x => if x = a then true else pa x) pa) id
      = if id ∈ args then true else pa id := by
  induction args generalizing pa with
  | nil => simp
  | cons a as ih =>
    rw [List.foldl_cons, ih]
    by_cases h1 : id ∈ as
    · simp [h1]
    · by_cases h2 : id = a
      · simp [h1, h2]
      · simp [h1, h2]

/-- An ID that no stack phi lists among its arguments is not marked as
a phi argument. -/
theorem buildPhiArg_false (f : Func) (id : Nat)
    (h : ∀ b ∈ f.blocks, ∀ w ∈ b.values,
      isStackPhi f.regAlloc w = true → id ∉ w.args) :
    buildPhiArg f id = false := by
  unfold buildPhiArg
  refine foldl_preserve (P := fun pa : Nat → Bool => pa id = false) _ f.blocks
    (fun pa b hb hP => ?_) _ rfl
  refine foldl_preserve (P := fun pa : Nat → Bool => pa id = false) _ b.values
    (fun pa w hw hP2 => ?_) _ hP
  by_cases hphi : isStackPhi f.regAlloc w
  · show (if isStackPhi f.regAlloc w = true then _ else pa) id = false
    rw [if_pos hphi, foldl_markTrue, if_neg (h b hb w hw hphi)]
    exact hP2
  · show (if isStackPhi f.regAlloc w = true then _ else pa) id = false
    rwa [if_neg hphi]

/-- An argument of a stack phi is marked as a phi argument. -/
theorem buildPhiArg_true (f : Func) (b : SABlock) (w : SAValue) (a : Nat)
    (hb : b ∈ f.blocks) (hw : w ∈ b.values)
    (hphi : isStackPhi f.regAlloc w = true) (ha : a ∈ w.args) :
    buildPhiArg f a = true := by
  unfold buildPhiArg
  refine foldl_establish (fun pa : Nat → Bool => pa a = true) _ f.blocks b hb
    (fun pa b2 _ hP => ?_) (fun pa => ?_) _
  · refine foldl_preserve (P := fun pa : Nat → Bool => pa a = true) _ b2.values
      (fun pa w2 _ hP2 => ?_) _ hP
    show (if isStackPhi f.regAlloc w2 = true then _ else pa) a = true
    by_cases hphi2 : isStackPhi f.regAlloc w2
    · rw [if_pos hphi2, foldl_markTrue]
      by_cases hmem : a ∈ w2.args <;> simp [hmem, hP2]
    · rwa [if_neg hphi2]
  · refine foldl_establish (fun pa : Nat → Bool => pa a = true) _ b.values w hw
      (fun pa w2 _ hP => ?_) (fun pa => ?_) _
    · show (if isStackPhi f.regAlloc w2 = true then _ else pa) a = true
      by_cases hphi2 : isStackPhi f.regAlloc w2
      · rw [if_pos hphi2, foldl_markTrue]
        by_cases hmem : a ∈ w2.args <;> simp [hmem, hP]
      · rwa [if_neg hphi2]
    · show (if isStackPhi f.regAlloc w = true then _ else pa) a = true
      rw [if_pos hphi, foldl_markTrue, if_pos ha]

/-! ## C9 and C10 -/

/-- C9: the home map is a total, consistent store: after
`setHome(v, loc)` a `getHome(v.ID)` returns `loc`, and `getHome` of any
ID at or beyond the current length of the `RegAlloc` slice returns nil
rather than indexing out of range, so querying a value that was never
assigned a home is safe and yields nil. -/
theorem C9_home_map (f : Func) (v : SAValue) (loc : Location) (vid : Nat)
    (h : f.regAlloc.length ≤ vid) :
    (f.setHome v loc).getHome v.id = some loc ∧ f.getHome vid = none := by
  constructor
  · unfold Func.getHome Func.setHome
    exact getHomeL_setHomeL_self _ _ _
  · unfold Func.getHome getHomeL
    rw [if_pos h]

theorem C9_home_map_witness :
    (Func.setHome ⟨[], 0, [], [], 0⟩ ⟨5, .StoreReg, .int32ty, 0, none, []⟩
        (.register 3)).getHome 5 = some (.register 3)
    ∧ Func.getHome ⟨[], 0, [], [], 0⟩ 7 = none :=
  C9_home_map ⟨[], 0, [], [], 0⟩ ⟨5, .StoreReg, .int32ty, 0, none, []⟩
    (.register 3) 7 (by simp)

/-- C10: a phi whose type is `Mem` is never classified as a stack phi
(`isStackPhi` is false for every value whose op is not `Phi` or whose
type is `TypeMem`), a non-memory phi is a stack phi exactly when its
`RegAlloc` entry is missing or nil, and consequently `stackalloc` never
assigns a stack slot to a memory phi — its home entry is untouched
(under the well-formedness facts that IDs are not shared between a
memory phi and the entry `OpArg`s, `StoreReg`s, or non-memory phis, and
that no non-memory phi takes a memory phi as argument, both guaranteed
by SSA construction). -/
theorem C10_mem_phi_never_slotted :
    (∀ (ra : List (Option Location)) (v : SAValue),
        v.op ≠ .Phi ∨ v.ty = TypeMem → isStackPhi ra v = false)
  ∧ (∀ (ra : List (Option Location)) (v : SAValue),
        v.op = .Phi → v.ty ≠ TypeMem →
        (isStackPhi ra v = true ↔ getHomeL ra v.id = none))
  ∧ (∀ (f : Func) (fuel : Nat) (f2 : Func) (mv : SAValue),
        stackalloc f fuel = some f2 →
        mv.op = .Phi → mv.ty = TypeMem →
        (∀ w ∈ f.entry.values, w.op = .Arg → w.id ≠ mv.id) →
        (∀ b ∈ f.blocks, ∀ w ∈ b.values, w.op = .StoreReg → w.id ≠ mv.id) →
        (∀ b ∈ f.blocks, ∀ w ∈ b.values, w.op = .Phi → w.ty ≠ TypeMem →
          w.id ≠ mv.id ∧ mv.id ∉ w.args) →
        f2.getHome mv.id = f.getHome mv.id) := by
  refine ⟨?_, ?_, ?_⟩
  · intro ra v h
    rcases h with h | h
    · unfold isStackPhi
      rw [if_pos (by simpa using h)]
    · unfold isStackPhi
      by_cases h1 : v.op ≠ .Phi
      · rw [if_pos h1]
      · rw [if_neg h1, if_pos h]
  · intro ra v hop hty
    rw [isStackPhi_iff]
    constructor
    · exact fun h => h.2.2
    · exact fun h => ⟨hop, hty, h⟩
  · intro f fuel f2 mv hsa hop hty hargs hstore hphis
    unfold stackalloc at hsa
    rcases hlive : liveSpills f fuel with _ | live
    · rw [hlive] at hsa; exact absurd hsa (by simp)
    · rw [hlive] at hsa
      simp only [Option.some.injEq] at hsa
      subst hsa
      show getHomeL _ mv.id = getHomeL f.regAlloc mv.id
      rw [allocAll_eq_flatten]
      have base : getHomeL (argHomes f f.regAlloc) mv.id
          = getHomeL f.regAlloc mv.id := argHomes_preserves f _ _ hargs
      refine foldl_preserve
        (P := fun st : AllocState => getHomeL st.ra mv.id
          = getHomeL f.regAlloc mv.id)
        _ _ (fun st w hw hP => ?_) _ base
      obtain ⟨b, hb, hwb⟩ := mem_flatten_values hw
      by_cases hg1 : ¬(w.op = .StoreReg ∨ isStackPhi st.ra w = true)
      · rw [allocStep_skip1 _ _ _ _ _ hg1]; exact hP
      · by_cases hg2 : buildPhiArg f w.id = true
        · rw [allocStep_skip2 _ _ _ _ _ hg2]; exact hP
        · obtain ⟨loc, hchar⟩ := allocStep_processed _ _ _ st w
            (not_not.mp hg1) (by simpa using hg2)
          rw [hchar mv.id]
          rw [if_neg, hP]
          rintro (hids | ⟨hwphi, hmem⟩)
          · rcases not_not.mp hg1 with hsr | hsp
            · exact hstore b hb w hwb hsr hids.symm
            · rw [isStackPhi_iff] at hsp
              exact (hphis b hb w hwb hsp.1 hsp.2.1).1 hids.symm
          · rcases not_not.mp hg1 with hsr | hsp
            · rw [hsr] at hwphi; exact absurd hwphi (by decide)
            · rw [isStackPhi_iff] at hsp
              exact (hphis b hb w hwb hsp.1 hsp.2.1).2 hmem

theorem C10_mem_phi_never_slotted_witness :
    isStackPhi [] ⟨1, .Phi, .mem, 0, none, []⟩ = false
    ∧ (isStackPhi [] ⟨2, .Phi, .int32ty, 0, none, []⟩ = true
        ↔ getHomeL [] 2 = none)
    ∧ Func.getHome ⟨[⟨0, [⟨1, .Phi, .mem, 0, none, []⟩], [], []⟩],
        0, [], [], 2⟩ 1
      = Func.getHome ⟨[⟨0, [⟨1, .Phi, .mem, 0, none, []⟩], [], []⟩],
        0, [], [], 2⟩ 1 := by
  refine ⟨?_, ?_, ?_⟩
  · exact C10_mem_phi_never_slotted.1 [] _ (Or.inr rfl)
  · exact C10_mem_phi_never_slotted.2.1 [] _ rfl (by decide)
  · exact C10_mem_phi_never_slotted.2.2
      ⟨[⟨0, [⟨1, .Phi, .mem, 0, none, []⟩], [], []⟩], 0, [], [], 2⟩ 10 _
      ⟨1, .Phi, .mem, 0, none, []⟩ (by rfl) rfl rfl
      (by decide) (by decide) (by decide)

/-! ## C2: stack-phi coalescing -/

/-- Fold variant of `foldl_establish` for a target invariant that the
distinguished element establishes out of a weaker preserved one. -/
theorem foldl_establish2 {α β : Type _} (P Q : α → Prop) (g : α → β → α)
    (l : List β) (x : β) (hx : x ∈ l)
    (hP : ∀ a b, b ∈ l → P a → P (g a b))
    (hQ : ∀ a b, b ∈ l → Q a → Q (g a b))
    (hest : ∀ a, P a → Q (g a x)) :
    ∀ a, P a → Q (l.foldl g a) := by
  obtain ⟨s, t, rfl⟩ := List.append_of_mem hx
  intro a ha
  rw [List.foldl_append, List.foldl_cons]
  refine foldl_preserve g t (fun a b hb => hQ a b (by simp [hb])) _ ?_
  refine hest _ ?_
  exact foldl_preserve g s (fun a b hb => hP a b (by simp [hb])) _ ha

/-- `argHomes` never clears a home entry. -/
theorem argHomes_none_mono (f : Func) (ra : List (Option Location))
    (id : Nat) (h : getHomeL (argHomes f ra) id = none) :
    getHomeL ra id = none := by
  unfold argHomes at h
  revert h
  refine foldl_preserve
    (P := fun ra2 => getHomeL ra2 id = none → getHomeL ra id = none)
    _ f.entry.values (fun ra2 w hw hP hnone => ?_) ra (fun h => h)
  by_cases hop : w.op = .Arg
  · rw [if_pos hop] at hnone
    exact hP (setHomeL_none_mono _ _ _ _ hnone)
  · rw [if_neg hop] at hnone
    exact hP hnone

/-- One slot-picking step never clears a home entry. -/
theorem allocStep_none_mono (itf : Nat → IDSet) (names : Nat → LocalSlot)
    (phiArg : Nat → Bool) (st : AllocState) (v : SAValue) (id : Nat)
    (h : getHomeL (allocStep itf names phiArg st v).ra id = none) :
    getHomeL st.ra id = none := by
  by_cases hg1 : ¬(v.op = .StoreReg ∨ isStackPhi st.ra v = true)
  · rwa [allocStep_skip1 _ _ _ _ _ hg1] at h
  · by_cases hg2 : phiArg v.id = true
    · rwa [allocStep_skip2 _ _ _ _ _ hg2] at h
    · obtain ⟨loc, hchar⟩ := allocStep_processed itf names phiArg st v
        (not_not.mp hg1) (by simpa using hg2)
      rw [hchar id] at h
      by_cases hc : id = v.id ∨ (v.op = .Phi ∧ id ∈ v.args)
      · rw [if_pos hc] at h; exact absurd h (by simp)
      · rwa [if_neg hc] at h

/-- C2 (amended): arguments of stack phis are always skipped by the
slot-picking loop and are marked in the `phiArg` table; and — provided
no value is an argument of two distinct stack phis, no stack phi is
itself an argument of a stack phi, and IDs are well formed — every
stack phi is assigned a home that all of its arguments share.  (Without
the two sharing provisos the property fails; see the counterexample.) -/
theorem C2_stack_phi_coalescing (f : Func) (fuel : Nat) (f2 : Func)
    (P : SAValue) (b0 : SABlock)
    (hsa : stackalloc f fuel = some f2)
    (hb0 : b0 ∈ f.blocks) (hPmem : P ∈ b0.values)
    (hphi : isStackPhi f.regAlloc P = true)
    (hnoarg : ∀ b ∈ f.blocks, ∀ w ∈ b.values,
      isStackPhi f.regAlloc w = true → P.id ∉ w.args)
    (hnoshare : ∀ b ∈ f.blocks, ∀ w ∈ b.values,
      isStackPhi f.regAlloc w = true → w ≠ P → ∀ a ∈ P.args, a ∉ w.args)
    (hidu : ∀ b ∈ f.blocks, ∀ w ∈ b.values, w.id = P.id → w = P)
    (hentry : ∀ w ∈ f.entry.values, w.op = .Arg → w.id ≠ P.id) :
    (∃ loc, f2.getHome P.id = some loc
      ∧ ∀ a ∈ P.args, f2.getHome a = some loc)
    ∧ (∀ a ∈ P.args, buildPhiArg f a = true)
    ∧ (∀ (itf : Nat → IDSet) (names : Nat → LocalSlot)
         (phiArg : Nat → Bool) (st : AllocState) (v : SAValue),
         phiArg v.id = true → allocStep itf names phiArg st v = st) := by
  have hargMark : ∀ a ∈ P.args, buildPhiArg f a = true :=
    fun a ha => buildPhiArg_true f b0 P a hb0 hPmem hphi ha
  refine ⟨?_, hargMark, fun itf names phiArg st v h =>
    allocStep_skip2 itf names phiArg st v h⟩
  obtain ⟨hPop, hPty, hPnone⟩ := (isStackPhi_iff _ _).mp hphi
  have hPnotArg : buildPhiArg f P.id = false :=
    buildPhiArg_false f P.id hnoarg
  unfold stackalloc at hsa
  rcases hlive : liveSpills f fuel with _ | live
  · rw [hlive] at hsa; exact absurd hsa (by simp)
  rw [hlive] at hsa
  simp only [Option.some.injEq] at hsa
  subst hsa
  show ∃ loc, getHomeL _ P.id = some loc ∧ ∀ a ∈ P.args, getHomeL _ a = some loc
  rw [allocAll_eq_flatten]
  -- the preserved and target invariants of the slot-picking fold
  have hPflat : P ∈ (f.blocks.map SABlock.values).flatten := by
    rw [List.mem_flatten]
    exact ⟨b0.values, List.mem_map_of_mem _ hb0, hPmem⟩
  have base1 : getHomeL (argHomes f f.regAlloc) P.id = none := by
    rw [argHomes_preserves f _ _ hentry]; exact hPnone
  -- step preservation for both invariants
  have hstep : ∀ (st : AllocState) (w : SAValue),
      w ∈ (f.blocks.map SABlock.values).flatten →
      (∀ id, getHomeL st.ra id = none → getHomeL f.regAlloc id = none) →
      ∀ id, getHomeL (allocStep (buildInterference f (typesOf f) live) (buildNames f) (buildPhiArg f) st w).ra id = none →
        getHomeL f.regAlloc id = none :=
    fun st w _ hext id hnone => hext id (allocStep_none_mono _ _ _ _ _ _ hnone)
  -- a processed value other than P touches neither P's entry nor its args
  have hdisjoint : ∀ (st : AllocState) (w : SAValue),
      w ∈ (f.blocks.map SABlock.values).flatten →
      (∀ id, getHomeL st.ra id = none → getHomeL f.regAlloc id = none) →
      (w.op = .StoreReg ∨ isStackPhi st.ra w = true) →
      buildPhiArg f w.id = false → w ≠ P →
      ∀ id, id = P.id ∨ id ∈ P.args →
        ¬(id = w.id ∨ (w.op = .Phi ∧ id ∈ w.args)) := by
    intro st w hw hext hproc hwnotArg hne id hid hc
    obtain ⟨b, hb, hwb⟩ := mem_flatten_values hw
    have hworig : w.op = .StoreReg ∨ isStackPhi f.regAlloc w = true := by
      rcases hproc with h | h
      · exact Or.inl h
      · rw [isStackPhi_iff] at h
        exact Or.inr ((isStackPhi_iff _ _).mpr ⟨h.1, h.2.1, hext _ h.2.2⟩)
    rcases hc with hc | ⟨hwphi, hcmem⟩
    · rcases hid with hid | hid
      · exact hne (hidu b hb w hwb (by rw [← hc, hid]))
      · -- w.id is an argument of the stack phi P, so it is marked
        have hmark : buildPhiArg f w.id = true :=
          buildPhiArg_true f b0 P w.id hb0 hPmem hphi (hc ▸ hid)
        rw [hwnotArg] at hmark
        exact absurd hmark (by simp)
    · -- w is a phi taking id as an argument
      have hwstack : isStackPhi f.regAlloc w = true := by
        rcases hworig with h | h
        · rw [h] at hwphi; exact absurd hwphi (by decide)
        · exact h
      rcases hid with hid | hid
      · exact hnoarg b hb w hwb hwstack (hid ▸ hcmem)
      · exact hnoshare b hb w hwb hwstack hne id hid hcmem
  refine foldl_establish2
    (fun st : AllocState =>
      (∀ id, getHomeL st.ra id = none → getHomeL f.regAlloc id = none)
      ∧ (getHomeL st.ra P.id = none
        ∨ ∃ loc, getHomeL st.ra P.id = some loc
            ∧ ∀ a ∈ P.args, getHomeL st.ra a = some loc))
    (fun st : AllocState =>
      (∀ id, getHomeL st.ra id = none → getHomeL f.regAlloc id = none)
      ∧ ∃ loc, getHomeL st.ra P.id = some loc
          ∧ ∀ a ∈ P.args, getHomeL st.ra a = some loc)
    (allocStep (buildInterference f (typesOf f) live) (buildNames f) (buildPhiArg f))
    _ P hPflat ?_ ?_ ?_ _
    ⟨fun id h => argHomes_none_mono f _ id h, Or.inl base1⟩
    |>.2
  · -- the weak invariant is preserved by every step
    intro st w hw ⟨hext, hdisj⟩
    refine ⟨hstep st w hw hext, ?_⟩
    by_cases hg1 : ¬(w.op = .StoreReg ∨ isStackPhi st.ra w = true)
    · rwa [allocStep_skip1 _ _ _ _ _ hg1]
    · by_cases hg2 : buildPhiArg f w.id = true
      · rwa [allocStep_skip2 _ _ _ _ _ hg2]
      · obtain ⟨loc, hchar⟩ := allocStep_processed (buildInterference f (typesOf f) live) (buildNames f) (buildPhiArg f) st w
          (not_not.mp hg1) (by simpa using hg2)
        by_cases hne : w = P
        · refine Or.inr ⟨loc, ?_, fun a ha => ?_⟩
          · rw [hchar P.id, if_pos (Or.inl (by rw [hne]))]
          · rw [hchar a, if_pos (Or.inr ⟨by rw [hne]; exact hPop,
              by rw [hne]; exact ha⟩)]
        · have hdnone := hdisjoint st w hw hext (not_not.mp hg1)
            (by simpa using hg2) hne
          rcases hdisj with hl | ⟨loc2, hsome, hargs⟩
          · refine Or.inl ?_
            rw [hchar P.id, if_neg (hdnone P.id (Or.inl rfl))]
            exact hl
          · refine Or.inr ⟨loc2, ?_, fun a ha => ?_⟩
            · rw [hchar P.id, if_neg (hdnone P.id (Or.inl rfl))]
              exact hsome
            · rw [hchar a, if_neg (hdnone a (Or.inr ha))]
              exact hargs a ha
  · -- the target invariant is preserved by every step
    intro st w hw ⟨hext, loc2, hsome, hargs⟩
    refine ⟨hstep st w hw hext, ?_⟩
    by_cases hg1 : ¬(w.op = .StoreReg ∨ isStackPhi st.ra w = true)
    · rw [allocStep_skip1 _ _ _ _ _ hg1]
      exact ⟨loc2, hsome, hargs⟩
    · by_cases hg2 : buildPhiArg f w.id = true
      · rw [allocStep_skip2 _ _ _ _ _ hg2]
        exact ⟨loc2, hsome, hargs⟩
      · obtain ⟨loc, hchar⟩ := allocStep_processed (buildInterference f (typesOf f) live) (buildNames f) (buildPhiArg f) st w
          (not_not.mp hg1) (by simpa using hg2)
        have hne : w ≠ P := by
          intro hEq
          subst hEq
          rcases not_not.mp hg1 with h | h
          · rw [hPop] at h; exact absurd h (by decide)
          · rw [isStackPhi_iff] at h
            rw [h.2.2] at hsome
            exact absurd hsome (by simp)
        have hdnone := hdisjoint st w hw hext (not_not.mp hg1)
          (by simpa using hg2) hne
        refine ⟨loc2, ?_, fun a ha => ?_⟩
        · rw [hchar P.id, if_neg (hdnone P.id (Or.inl rfl))]
          exact hsome
        · rw [hchar a, if_neg (hdnone a (Or.inr ha))]
          exact hargs a ha
  · -- the step at P itself establishes the target invariant
    intro st ⟨hext, hdisj⟩
    refine ⟨fun id h => hext id (allocStep_none_mono _ _ _ _ _ _ h), ?_⟩
    rcases hdisj with hl | ⟨loc2, hsome, hargs⟩
    · have hg1 : P.op = .StoreReg ∨ isStackPhi st.ra P = true :=
        Or.inr ((isStackPhi_iff _ _).mpr ⟨hPop, hPty, hl⟩)
      obtain ⟨loc, hchar⟩ := allocStep_processed (buildInterference f (typesOf f) live) (buildNames f) (buildPhiArg f) st P
        hg1 hPnotArg
      refine ⟨loc, ?_, fun a ha => ?_⟩
      · rw [hchar P.id, if_pos (Or.inl rfl)]
      · rw [hchar a, if_pos (Or.inr ⟨hPop, ha⟩)]
    · have hskip : isStackPhi st.ra P = false := by
        rw [show (isStackPhi st.ra P = false)
          ↔ ¬(isStackPhi st.ra P = true) by simp]
        rw [isStackPhi_iff]
        rintro ⟨_, _, hnone⟩
        rw [hnone] at hsome
        exact absurd hsome (by simp)
      have hg1 : ¬(P.op = .StoreReg ∨ isStackPhi st.ra P = true) := by
        rintro (h | h)
        · rw [hPop] at h; exact absurd h (by decide)
        · rw [hskip] at h; exact absurd h (by decide)
      rw [allocStep_skip1 _ _ _ _ _ hg1]
      exact ⟨loc2, hsome, hargs⟩

/-- A well-behaved function for the C2 witness: two spills in the entry
block flowing into one stack phi over a diamond. -/
def c2wF : Func :=
  ⟨[⟨0, [⟨1, .StoreReg, .int32ty, 0, none, [8]⟩,
         ⟨2, .StoreReg, .int32ty, 0, none, [9]⟩], [], [1, 2]⟩,
    ⟨1, [], [0], [3]⟩,
    ⟨2, [], [0], [3]⟩,
    ⟨3, [⟨3, .Phi, .int32ty, 0, none, [1, 2]⟩], [1, 2], []⟩],
   0, [], [], 4⟩

theorem C2_stack_phi_coalescing_witness :
    (∃ loc, ((stackalloc c2wF 10).getD ⟨[], 0, [], [], 0⟩).getHome
        (⟨3, .Phi, .int32ty, 0, none, [1, 2]⟩ : SAValue).id = some loc
      ∧ ∀ a ∈ (⟨3, .Phi, .int32ty, 0, none, [1, 2]⟩ : SAValue).args,
          ((stackalloc c2wF 10).getD ⟨[], 0, [], [], 0⟩).getHome a = some loc)
    ∧ (∀ a ∈ (⟨3, .Phi, .int32ty, 0, none, [1, 2]⟩ : SAValue).args,
        buildPhiArg c2wF a = true)
    ∧ (∀ (itf : Nat → IDSet) (names : Nat → LocalSlot)
         (phiArg : Nat → Bool) (st : AllocState) (v : SAValue),
         phiArg v.id = true → allocStep itf names phiArg st v = st) :=
  C2_stack_phi_coalescing c2wF 10 _ ⟨3, .Phi, .int32ty, 0, none, [1, 2]⟩
    ⟨3, [⟨3, .Phi, .int32ty, 0, none, [1, 2]⟩], [1, 2], []⟩
    (by rfl) (by decide) (by decide) (by decide) (by decide) (by decide)
    (by decide) (by decide)

/-- A function refuting C2 as stated: the stack phi with ID 2 is itself
the argument of the stack phi with ID 3 (a phi of a phi), so the loop
skips it; it receives a home through its parent, but its own argument
(the spill with ID 1) receives none. -/
def c2cexF : Func :=
  ⟨[⟨0, [⟨1, .StoreReg, .int32ty, 0, none, [8]⟩], [], [1]⟩,
    ⟨1, [⟨2, .Phi, .int32ty, 0, none, [1]⟩], [0], [2, 3]⟩,
    ⟨2, [], [1], [4]⟩,
    ⟨3, [], [1], [4]⟩,
    ⟨4, [⟨3, .Phi, .int32ty, 0, none, [2, 2]⟩], [2, 3], []⟩],
   0, [], [], 4⟩

theorem C2_counterexample :
    (⟨2, .Phi, .int32ty, 0, none, [1]⟩ : SAValue) ∈ (c2cexF.blockById 1).values
    ∧ isStackPhi c2cexF.regAlloc ⟨2, .Phi, .int32ty, 0, none, [1]⟩ = true
    ∧ (stackalloc c2cexF 10).map (fun f2 => f2.getHome 2)
        = some (some (.localSlot ⟨some (.auto 0), .int32ty, 0⟩))
    ∧ (stackalloc c2cexF 10).map (fun f2 => f2.getHome 1) = some none
    ∧ (some (Location.localSlot ⟨some (.auto 0), .int32ty, 0⟩) : Option Location)
        ≠ none :=
  ⟨by decide, by decide, rfl, rfl, by simp⟩

/-! ## C1: totality of the Select0/Select1 matchers -/

/-- A matcher rule outcome that is not a panic. -/
def ruleOK (o : Option VResult) : Prop := ∀ r, o = some r → r ≠ .panicked

theorem ruleOK_none : ruleOK none := by intro r h; cases h

theorem ruleOK_orElse {o1 o2 : Option VResult} (h1 : ruleOK o1)
    (h2 : ruleOK o2) : ruleOK (o1.orElse fun _ => o2) := by
  cases o1 with
  | none => simpa [Option.orElse] using h2
  | some r => simpa [Option.orElse] using h1

theorem ruleOK_getD {o : Option VResult} (h : ruleOK o) :
    o.getD .unchanged ≠ .panicked := by
  cases o with
  | none => simp
  | some r => simpa using h r rfl

theorem ruleOK_commute2 {f : Value → Value → Option VResult} {a0 a1 : Value}
    (h : ∀ x y, ruleOK (f x y)) : ruleOK (commute2 f a0 a1) :=
  ruleOK_orElse (h a0 a1) (h a1 a0)

/-- None of the commuted `MULTU` rule bodies can panic. -/
theorem ruleOK_MULTUbodies (v : Value) :
    (∀ k x y, ruleOK (ruleMULTUconstK k v x y))
    ∧ (∀ x y, ruleOK (ruleS0MULTUm1 v x y))
    ∧ (∀ x y, ruleOK (ruleS0MULTUpow2 v x y))
    ∧ (∀ x y, ruleOK (ruleS0MULTUcc v x y))
    ∧ (∀ x y, ruleOK (ruleS1MULTU1 v x y))
    ∧ (∀ x y, ruleOK (ruleS1MULTUm1 v x y))
    ∧ (∀ x y, ruleOK (ruleS1MULTUpow2 v x y))
    ∧ (∀ x y, ruleOK (ruleS1MULTUcc v x y)) := by
  refine ⟨?_, ?_, ?_, ?_, ?_, ?_, ?_, ?_⟩ <;>
    first
    | (intro k x y r h
       simp only [ruleMULTUconstK] at h
       split at h
       next =>
         simp only [Option.some.injEq] at h
         rw [← h]
         exact fun hh => VResult.noConfusion hh
       next => cases h)
    | (intro x y r h
       simp only [ruleS0MULTUm1, ruleS0MULTUpow2, ruleS0MULTUcc,
         ruleS1MULTU1, ruleS1MULTUm1, ruleS1MULTUpow2, ruleS1MULTUcc] at h
       split at h
       next =>
         simp only [Option.some.injEq] at h
         rw [← h]
         exact fun hh => VResult.noConfusion hh
       next => cases h)

/-- C1 (amended): the `Select0`/`Select1` matchers terminate normally
on every well-formed window whose `DIV`/`DIVU` constant-fold divisor is
nonzero as a 32-bit value; on `Select1 (DIV (MOVWconst c) (MOVWconst
d))` with `int32 d ≠ 0` the fold yields `MOVWconst [int64(int32(c) /
int32(d))]` and `Select0` yields the remainder; when `int32 d = 0` both
matchers panic with a division by zero instead of terminating (so the
claim's "including d = 0" fails — see the counterexample). -/
theorem C1_select_div_totality :
    (∀ (v v0 : Value) (rest : List Value), v.args = v0 :: rest →
      ((v0.op = .Add32carry ∨ v0.op = .Sub32carry ∨ v0.op = .MIPSMULTU) →
        ∃ x y r, v0.args = x :: y :: r) →
      ((v0.op = .MIPSDIV ∨ v0.op = .MIPSDIVU) →
        ∃ x y r, v0.args = x :: y :: r ∧
          (x.op = .MIPSMOVWconst → y.op = .MIPSMOVWconst →
            int32 y.auxInt ≠ 0)) →
      rewriteValueMIPS_OpSelect1 v ≠ .panicked
      ∧ rewriteValueMIPS_OpSelect0 v ≠ .panicked)
  ∧ (∀ (t td tc : Ty) (c d u uc : Int), int32 d ≠ 0 →
      rewriteValueMIPS_OpSelect1 (.mk .Select1 t 0 none
          [.mk .MIPSDIV td 0 none
            [.mk .MIPSMOVWconst tc c none [] uc,
             .mk .MIPSMOVWconst tc d none [] uc] uc] u)
        = .fired (.mk .MIPSMOVWconst t
            (int32 (Int.tdiv (int32 c) (int32 d))) none [] u)
      ∧ rewriteValueMIPS_OpSelect0 (.mk .Select0 t 0 none
          [.mk .MIPSDIV td 0 none
            [.mk .MIPSMOVWconst tc c none [] uc,
             .mk .MIPSMOVWconst tc d none [] uc] uc] u)
        = .fired (.mk .MIPSMOVWconst t
            (int32 (Int.tmod (int32 c) (int32 d))) none [] u))
  ∧ (∀ (t td tc : Ty) (c d u uc : Int), int32 d = 0 →
      rewriteValueMIPS_OpSelect1 (.mk .Select1 t 0 none
          [.mk .MIPSDIV td 0 none
            [.mk .MIPSMOVWconst tc c none [] uc,
             .mk .MIPSMOVWconst tc d none [] uc] uc] u)
        = .panicked
      ∧ rewriteValueMIPS_OpSelect0 (.mk .Select0 t 0 none
          [.mk .MIPSDIV td 0 none
            [.mk .MIPSMOVWconst tc c none [] uc,
             .mk .MIPSMOVWconst tc d none [] uc] uc] u)
        = .panicked) := by
  have hcarry : ∀ (v v0 : Value),
      ((v0.op = .Add32carry ∨ v0.op = .Sub32carry ∨ v0.op = .MIPSMULTU) →
        ∃ x y r, v0.args = x :: y :: r) →
      ruleOK (ruleS0Add32carry v v0) ∧ ruleOK (ruleS0Sub32carry v v0)
      ∧ ruleOK (ruleS1Add32carry v v0) ∧ ruleOK (ruleS1Sub32carry v v0) := by
    intro v v0 h
    refine ⟨?_, ?_, ?_, ?_⟩ <;>
      · intro r hr
        simp only [ruleS0Add32carry, ruleS0Sub32carry,
          ruleS1Add32carry, ruleS1Sub32carry] at hr
        split at hr
        next hop =>
          obtain ⟨x, y, rr, hargs⟩ := h (by simp [hop])
          rw [hargs] at hr
          simp only [Option.some.injEq] at hr
          rw [← hr]
          exact fun hh => VResult.noConfusion hh
        next hop => cases hr
  have hmultu : ∀ (v v0 : Value),
      ((v0.op = .Add32carry ∨ v0.op = .Sub32carry ∨ v0.op = .MIPSMULTU) →
        ∃ x y r, v0.args = x :: y :: r) →
      ruleOK (s0MULTU v v0) ∧ ruleOK (s1MULTU v v0) := by
    intro v v0 h
    obtain ⟨hk, hm1, hp2, hcc, hu1, hum1, hup2, hucc⟩ := ruleOK_MULTUbodies v
    constructor <;>
      · simp only [s0MULTU, s1MULTU]
        split
        next hop =>
          obtain ⟨x, y, rr, hargs⟩ := h (by simp [hop])
          rw [hargs]
          exact ruleOK_orElse (ruleOK_commute2 (hk 0))
            (ruleOK_orElse (ruleOK_commute2 (by intro a b; first
                | exact hk 1 a b | exact hu1 a b))
              (ruleOK_orElse (ruleOK_commute2 (by intro a b; first
                  | exact hm1 a b | exact hum1 a b))
                (ruleOK_orElse (ruleOK_commute2 (by intro a b; first
                    | exact hp2 a b | exact hup2 a b))
                  (ruleOK_commute2 (by intro a b; first
                    | exact hcc a b | exact hucc a b)))))
        next hop => exact ruleOK_none
  have hdiv : ∀ (v v0 : Value) (divOp : Op) (g : Int → Int → Option Int),
      (v0.op = divOp → v0.op = .MIPSDIV ∨ v0.op = .MIPSDIVU) →
      (∀ c d, int32 d ≠ 0 → g c d ≠ none) →
      ((v0.op = .MIPSDIV ∨ v0.op = .MIPSDIVU) →
        ∃ x y r, v0.args = x :: y :: r ∧
          (x.op = .MIPSMOVWconst → y.op = .MIPSMOVWconst →
            int32 y.auxInt ≠ 0)) →
      ruleOK (ruleSelDivFold divOp g v v0) := by
    intro v v0 divOp g hdo hg h r hr
    unfold ruleSelDivFold at hr
    split at hr
    next hop =>
      obtain ⟨x, y, rr, hargs, hnz⟩ := h (hdo hop)
      rw [hargs] at hr
      change (if x.op = Op.MIPSMOVWconst then
          if y.op = Op.MIPSMOVWconst then
            match g x.auxInt y.auxInt with
            | some q => some (VResult.fired
                (Value.mk Op.MIPSMOVWconst v.ty q none [] v.uses))
            | none => some VResult.panicked
          else none
        else none) = some r at hr
      by_cases hx : x.op = .MIPSMOVWconst
      · rw [if_pos hx] at hr
        by_cases hy : y.op = .MIPSMOVWconst
        · rw [if_pos hy] at hr
          rcases hgv : g x.auxInt y.auxInt with _ | q
          · exact absurd hgv (hg _ _ (hnz hx hy))
          · rw [hgv] at hr
            simp only [Option.some.injEq] at hr
            rw [← hr]
            exact fun hh => VResult.noConfusion hh
        · rw [if_neg hy] at hr
          cases hr
      · rw [if_neg hx] at hr
        cases hr
    next hop => cases hr
  have hgS : ∀ c d, int32 d ≠ 0 → divS32 c d ≠ none := by
    intro c d hd
    unfold divS32
    rw [if_neg hd]
    simp
  have hgS0 : ∀ c d, int32 d ≠ 0 → modS32 c d ≠ none := by
    intro c d hd
    unfold modS32
    rw [if_neg hd]
    simp
  have hi32u : ∀ d : Int, int32 d = 0 ↔ uint32 d = 0 := by
    intro d
    unfold int32 uint32
    omega
  have hgU : ∀ c d, int32 d ≠ 0 → divU32 c d ≠ none := by
    intro c d hd
    unfold divU32
    rw [if_neg (fun hh => hd ((hi32u d).mpr hh))]
    simp
  have hgU0 : ∀ c d, int32 d ≠ 0 → modU32 c d ≠ none := by
    intro c d hd
    unfold modU32
    rw [if_neg (fun hh => hd ((hi32u d).mpr hh))]
    simp
  refine ⟨?_, ?_, ?_⟩
  · intro v v0 rest hargs hcar hdv
    obtain ⟨h0a, h0s, h1a, h1s⟩ := hcarry v v0 hcar
    obtain ⟨hm0, hm1⟩ := hmultu v v0 hcar
    constructor
    · unfold rewriteValueMIPS_OpSelect1
      rw [hargs]
      exact ruleOK_getD (ruleOK_orElse h1a (ruleOK_orElse h1s
        (ruleOK_orElse hm1 (ruleOK_orElse
          (hdiv v v0 .MIPSDIV divS32 (fun hh => Or.inl hh) hgS hdv)
          (hdiv v v0 .MIPSDIVU divU32 (fun hh => Or.inr hh) hgU hdv)))))
    · unfold rewriteValueMIPS_OpSelect0
      rw [hargs]
      exact ruleOK_getD (ruleOK_orElse h0a (ruleOK_orElse h0s
        (ruleOK_orElse hm0 (ruleOK_orElse
          (hdiv v v0 .MIPSDIV modS32 (fun hh => Or.inl hh) hgS0 hdv)
          (hdiv v v0 .MIPSDIVU modU32 (fun hh => Or.inr hh) hgU0 hdv)))))
  · intro t td tc c d u uc hd
    constructor
    · simp [rewriteValueMIPS_OpSelect1, ruleS1Add32carry, ruleS1Sub32carry,
        s1MULTU, ruleSelDivFold, Value.op, Value.args, Value.auxInt,
        Value.ty, Value.uses, Option.orElse, divS32, hd]
    · simp [rewriteValueMIPS_OpSelect0, ruleS0Add32carry, ruleS0Sub32carry,
        s0MULTU, ruleSelDivFold, Value.op, Value.args, Value.auxInt,
        Value.ty, Value.uses, Option.orElse, modS32, hd]
  · intro t td tc c d u uc hd
    constructor
    · simp [rewriteValueMIPS_OpSelect1, ruleS1Add32carry, ruleS1Sub32carry,
        s1MULTU, ruleSelDivFold, Value.op, Value.args, Value.auxInt,
        Value.ty, Value.uses, Option.orElse, divS32, hd]
    · simp [rewriteValueMIPS_OpSelect0, ruleS0Add32carry, ruleS0Sub32carry,
        s0MULTU, ruleSelDivFold, Value.op, Value.args, Value.auxInt,
        Value.ty, Value.uses, Option.orElse, modS32, hd]

/-- Concrete values for the C1 witness. -/
def w1multu : Value :=
  .mk .MIPSMULTU (.tuple .int32ty .int32ty) 0 none
    [.mk .MIPSMOVWconst .int32ty 3 none [] 1,
     .mk .MIPSMOVWconst .int32ty 5 none [] 1] 1

def w1sel : Value := .mk .Select1 .int32ty 0 none [w1multu] 1

theorem C1_select_div_totality_witness :
    (w1sel.args = w1multu :: []
      ∧ rewriteValueMIPS_OpSelect1 w1sel ≠ .panicked)
    ∧ (int32 2 ≠ 0
      ∧ rewriteValueMIPS_OpSelect1 (.mk .Select1 .int32ty 0 none
          [.mk .MIPSDIV (.tuple .int32ty .int32ty) 0 none
            [.mk .MIPSMOVWconst .int32ty 7 none [] 1,
             .mk .MIPSMOVWconst .int32ty 2 none [] 1] 1] 1)
        = .fired (.mk .MIPSMOVWconst .int32ty 3 none [] 1)) := by
  constructor
  · refine ⟨rfl, ?_⟩
    exact (C1_select_div_totality.1 w1sel w1multu [] rfl
      (fun _ => ⟨_, _, [], rfl⟩)
      (fun hh => by rcases hh with h | h <;> exact Op.noConfusion h)).1
  · refine ⟨by decide, ?_⟩
    have h := (C1_select_div_totality.2.1 .int32ty (.tuple .int32ty .int32ty)
      .int32ty 7 2 1 1 (by decide)).1
    rw [show int32 (Int.tdiv (int32 7) (int32 2)) = 3 from by decide] at h
    exact h

/-- C1 counterexample: both matchers panic (Go division by zero) on a
`Select` of `DIV` of two constants with divisor 0, so the rewrite does
not terminate normally for every `c` and `d`. -/
theorem C1_counterexample :
    rewriteValueMIPS_OpSelect1 (.mk .Select1 .int32ty 0 none
      [.mk .MIPSDIV (.tuple .int32ty .int32ty) 0 none
        [.mk .MIPSMOVWconst .int32ty 7 none [] 1,
         .mk .MIPSMOVWconst .int32ty 0 none [] 1] 1] 1) = .panicked
    ∧ rewriteValueMIPS_OpSelect0 (.mk .Select0 .int32ty 0 none
      [.mk .MIPSDIV (.tuple .int32ty .int32ty) 0 none
        [.mk .MIPSMOVWconst .int32ty 7 none [] 1,
         .mk .MIPSMOVWconst .int32ty 0 none [] 1] 1] 1) = .panicked :=
  ⟨rfl, rfl⟩

/-! ## C4: the block rewriter on If/NE/EQ with constant controls -/

/-- C4: an `If` block always rewrites to `NE` with the same control and
successors; an `NE` (resp. `EQ`) block whose control is a `MOVWconst`
always rewrites to kind `First`, with the successors swapped exactly
when the constant makes the other successor the taken one (`c = 0` for
`NE`, `c ≠ 0` for `EQ`); consequently, at a fixpoint of
`rewriteBlockMIPS` (it returns unchanged), no block is an `If` and no
`NE`/`EQ` block has a constant control. -/
theorem C4_no_constant_if_at_fixpoint (b : Block) (v : Value)
    (h : b.controls = [v]) :
    (b.kind = .If → rewriteBlockMIPS b = .changed ⟨.MIPSNE, [v], b.succs⟩)
    ∧ (b.kind = .MIPSNE → v.op = .MIPSMOVWconst →
        rewriteBlockMIPS b = .changed ⟨.First, [],
          if v.auxInt = 0 then swapSuccs b.succs else b.succs⟩)
    ∧ (b.kind = .MIPSEQ → v.op = .MIPSMOVWconst →
        rewriteBlockMIPS b = .changed ⟨.First, [],
          if v.auxInt = 0 then b.succs else swapSuccs b.succs⟩)
    ∧ (rewriteBlockMIPS b = .unchanged →
        b.kind ≠ .If
        ∧ ((b.kind = .MIPSNE ∨ b.kind = .MIPSEQ) → v.op ≠ .MIPSMOVWconst)) := by
  obtain ⟨k, cs, succs⟩ := b
  simp only [Block.mk.injEq] at h ⊢
  subst h
  have h1 : k = .If →
      rewriteBlockMIPS ⟨k, [v], succs⟩ = .changed ⟨.MIPSNE, [v], succs⟩ := by
    intro hk
    subst hk
    rfl
  have h2 : k = .MIPSNE → v.op = .MIPSMOVWconst →
      rewriteBlockMIPS ⟨k, [v], succs⟩ = .changed ⟨.First, [],
        if v.auxInt = 0 then swapSuccs succs else succs⟩ := by
    intro hk hop
    subst hk
    by_cases hz : v.auxInt = 0 <;>
      simp [rewriteBlockMIPS, hop, hz]
  have h3 : k = .MIPSEQ → v.op = .MIPSMOVWconst →
      rewriteBlockMIPS ⟨k, [v], succs⟩ = .changed ⟨.First, [],
        if v.auxInt = 0 then succs else swapSuccs succs⟩ := by
    intro hk hop
    subst hk
    by_cases hz : v.auxInt = 0 <;>
      simp [rewriteBlockMIPS, hop, hz]
  refine ⟨h1, h2, h3, fun hun => ⟨?_, ?_⟩⟩
  · intro hk
    rw [h1 hk] at hun
    exact BResult.noConfusion hun
  · rintro (hk | hk) hop
    · rw [h2 hk hop] at hun
      exact BResult.noConfusion hun
    · rw [h3 hk hop] at hun
      exact BResult.noConfusion hun

theorem C4_no_constant_if_at_fixpoint_witness :
    rewriteBlockMIPS ⟨.If, [.mk .MIPSMOVWconst .int32ty 5 none [] 1], [1, 2]⟩
      = .changed ⟨.MIPSNE, [.mk .MIPSMOVWconst .int32ty 5 none [] 1], [1, 2]⟩
    ∧ rewriteBlockMIPS
        ⟨.MIPSNE, [.mk .MIPSMOVWconst .int32ty 0 none [] 1], [1, 2]⟩
      = .changed ⟨.First, [], [2, 1]⟩
    ∧ rewriteBlockMIPS
        ⟨.MIPSEQ, [.mk .MIPSMOVWconst .int32ty 5 none [] 1], [1, 2]⟩
      = .changed ⟨.First, [], [2, 1]⟩ := by
  refine ⟨?_, ?_, ?_⟩
  · exact (C4_no_constant_if_at_fixpoint
      ⟨.If, [.mk .MIPSMOVWconst .int32ty 5 none [] 1], [1, 2]⟩ _ rfl).1 rfl
  · have h := (C4_no_constant_if_at_fixpoint
      ⟨.MIPSNE, [.mk .MIPSMOVWconst .int32ty 0 none [] 1], [1, 2]⟩ _
      rfl).2.1 rfl rfl
    simpa [swapSuccs] using h
  · have h := (C4_no_constant_if_at_fixpoint
      ⟨.MIPSEQ, [.mk .MIPSMOVWconst .int32ty 5 none [] 1], [1, 2]⟩ _
      rfl).2.2.1 rfl rfl
    simpa [swapSuccs] using h

/-! ## C5: constant folding of Add32 (Const32 [14]) (Const32 [26]) -/

/-- C5: running the rewrite engine to fixpoint on
`Add32 (Const32 [14]) (Const32 [26])` yields the single value
`MOVWconst [40]`, which is itself a fixpoint; the chain is
`Const32 => MOVWconst`, `Add32 => ADD`, `ADD x (MOVWconst c) =>
ADDconst [c] x`, `ADDconst [c] (MOVWconst [d]) =>
MOVWconst [int64(int32(c+d))]`. -/
theorem C5_add32_constant_fold :
    rewriteFix 10 (.mk .Add32 .int32ty 0 none
        [.mk .Const32 .int32ty 14 none [] 1,
         .mk .Const32 .int32ty 26 none [] 1] 1)
      = .ok (.mk .MIPSMOVWconst .int32ty 40 none [] 1)
    ∧ rewritePass (.mk .MIPSMOVWconst .int32ty 40 none [] 1)
      = .ok (false, .mk .MIPSMOVWconst .int32ty 40 none [] 1)
    ∧ rewriteValueMIPS_OpConst32 (.mk .Const32 .int32ty 14 none [] 1)
      = .fired (.mk .MIPSMOVWconst .int32ty 14 none [] 1)
    ∧ rewriteValueMIPS_OpAdd32 (.mk .Add32 .int32ty 0 none
        [.mk .MIPSMOVWconst .int32ty 14 none [] 1,
         .mk .MIPSMOVWconst .int32ty 26 none [] 1] 1)
      = .fired (.mk .MIPSADD .int32ty 0 none
        [.mk .MIPSMOVWconst .int32ty 14 none [] 1,
         .mk .MIPSMOVWconst .int32ty 26 none [] 1] 1)
    ∧ rewriteValueMIPS_OpMIPSADD (.mk .MIPSADD .int32ty 0 none
        [.mk .MIPSMOVWconst .int32ty 14 none [] 1,
         .mk .MIPSMOVWconst .int32ty 26 none [] 1] 1)
      = .fired (.mk .MIPSADDconst .int32ty 26 none
        [.mk .MIPSMOVWconst .int32ty 14 none [] 1] 1)
    ∧ rewriteValueMIPS_OpMIPSADDconst (.mk .MIPSADDconst .int32ty 26 none
        [.mk .MIPSMOVWconst .int32ty 14 none [] 1] 1)
      = .fired (.mk .MIPSMOVWconst .int32ty 40 none [] 1) :=
  ⟨rfl, rfl, rfl, rfl, rfl, rfl⟩

/-! ## C6: folding ADDconst into the load displacement -/

/-- C6 (amended): the `MOVWload`-of-`ADDconst` rule fires if and only
if `is16Bit(off1+off2)` holds **or the `ADDconst` has exactly one use**
(`x.Uses == 1`); the claim's "if and only if `off1+off2` fits 16 bits"
omits the use-count escape hatch, see the counterexample.  When neither
holds the whole matcher leaves the value unchanged (given that the
memory operand is not a forwarding `MOVWstore`), and a load from
`(base + 4)` does rewrite to `MOVWload [4] base mem`. -/
theorem C6_load_displacement_fold (off1 off2 : Int) (sym : Option Nat)
    (tl tp : Ty) (ptr mem : Value) (ux uv : Int) :
    ((is16Bit (int64 (off1 + off2)) = true ∨ ux = 1) →
      rewriteValueMIPS_OpMIPSMOVWload (.mk .MIPSMOVWload tl off1 sym
          [.mk .MIPSADDconst tp off2 none [ptr] ux, mem] uv)
        = .fired (.mk .MIPSMOVWload tl (int64 (off1 + off2)) sym
            [ptr, mem] uv))
    ∧ (is16Bit (int64 (off1 + off2)) = false → ux ≠ 1 →
        mem.op ≠ .MIPSMOVWstore →
        rewriteValueMIPS_OpMIPSMOVWload (.mk .MIPSMOVWload tl off1 sym
          [.mk .MIPSADDconst tp off2 none [ptr] ux, mem] uv) = .unchanged)
    ∧ rewriteValueMIPS_OpMIPSMOVWload (.mk .MIPSMOVWload tl 0 none
        [.mk .MIPSADDconst tp 4 none [ptr] ux, mem] uv)
      = .fired (.mk .MIPSMOVWload tl 4 none [ptr, mem] uv) := by
  refine ⟨?_, ?_, ?_⟩
  · intro hc
    rcases hc with h | h
    · simp [rewriteValueMIPS_OpMIPSMOVWload, ruleMOVWloadADDconst,
        Option.orElse, h]
    · subst h
      simp [rewriteValueMIPS_OpMIPSMOVWload, ruleMOVWloadADDconst,
        Option.orElse]
  · intro h16 hux hmem
    simp [rewriteValueMIPS_OpMIPSMOVWload, ruleMOVWloadADDconst,
      ruleMOVWloadMOVWaddr, ruleMOVWloadStore, Option.orElse,
      h16, hux, hmem]
  · simp [rewriteValueMIPS_OpMIPSMOVWload, ruleMOVWloadADDconst,
      Option.orElse,
      show is16Bit 4 = true from by decide,
      show int64 4 = (4 : Int) from by decide]

theorem C6_load_displacement_fold_witness :
    rewriteValueMIPS_OpMIPSMOVWload (.mk .MIPSMOVWload .int32ty 8 none
        [.mk .MIPSADDconst .ptr 4 none [.mk .Arg .ptr 0 none [] 2] 2,
         .mk .Phi .mem 0 none [] 1] 1)
      = .fired (.mk .MIPSMOVWload .int32ty (int64 (8 + 4)) none
          [.mk .Arg .ptr 0 none [] 2, .mk .Phi .mem 0 none [] 1] 1)
    ∧ rewriteValueMIPS_OpMIPSMOVWload (.mk .MIPSMOVWload .int32ty 40000 none
        [.mk .MIPSADDconst .ptr 40000 none [.mk .Arg .ptr 0 none [] 2] 2,
         .mk .Phi .mem 0 none [] 1] 1)
      = .unchanged := by
  constructor
  · exact (C6_load_displacement_fold 8 4 none .int32ty .ptr
      (.mk .Arg .ptr 0 none [] 2) (.mk .Phi .mem 0 none [] 1) 2 1).1
      (Or.inl (by decide))
  · exact (C6_load_displacement_fold 40000 40000 none .int32ty .ptr
      (.mk .Arg .ptr 0 none [] 2) (.mk .Phi .mem 0 none [] 1) 2 1).2.1
      (by decide) (by decide) (by decide)

/-- C6 counterexample: with `off1 + off2 = 32768`, which does not fit
the signed 16-bit immediate field, the rule still fires because the
`ADDconst` has exactly one use, refuting "fires if and only if
`off1+off2` fits 16 bits". -/
theorem C6_counterexample :
    rewriteValueMIPS_OpMIPSMOVWload (.mk .MIPSMOVWload .int32ty 0 none
        [.mk .MIPSADDconst .ptr 32768 none [.mk .Arg .ptr 0 none [] 2] 1,
         .mk .Phi .mem 0 none [] 1] 1)
      = .fired (.mk .MIPSMOVWload .int32ty 32768 none
          [.mk .Arg .ptr 0 none [] 2, .mk .Phi .mem 0 none [] 1] 1)
    ∧ is16Bit (int64 (0 + 32768)) = false :=
  ⟨rfl, rfl⟩

/-! ## C7: canonicalization of constants and subtraction -/

/-- C7 (amended): a constant operand of the commutative `ADD` moves to
the right and the op becomes `ADDconst [c] x`, under both argument
orders (for the swapped order, provided the other operand is not itself
a constant, in which case the symmetric rewrite fires).  Subtraction by
a constant canonicalizes to `SUBconst [c] x`; a `SUBconst` is rewritten
into an `ADDconst` by the negation only when its operand is itself a
`SUBconst` or `ADDconst` (and folds completely on a `MOVWconst`); a
`SUBconst [c] x` with any other operand is left unchanged, so
subtraction by a constant does **not** universally rewrite to addition
by the negation (see the counterexample). -/
theorem C7_constant_canonicalization :
    (∀ (x : Value) (c u uc : Int) (t tc : Ty),
      rewriteValueMIPS_OpMIPSADD (.mk .MIPSADD t 0 none
          [x, .mk .MIPSMOVWconst tc c none [] uc] u)
        = .fired (.mk .MIPSADDconst t c none [x] u))
    ∧ (∀ (x : Value) (c u uc : Int) (t tc : Ty), x.op ≠ .MIPSMOVWconst →
      rewriteValueMIPS_OpMIPSADD (.mk .MIPSADD t 0 none
          [.mk .MIPSMOVWconst tc c none [] uc, x] u)
        = .fired (.mk .MIPSADDconst t c none [x] u))
    ∧ (∀ (x : Value) (c u uc : Int) (t tc : Ty),
      rewriteValueMIPS_OpMIPSSUB (.mk .MIPSSUB t 0 none
          [x, .mk .MIPSMOVWconst tc c none [] uc] u)
        = .fired (.mk .MIPSSUBconst t c none [x] u))
    ∧ (∀ (x : Value) (c d u ui : Int) (t ti : Ty), c ≠ 0 →
      rewriteValueMIPS_OpMIPSSUBconst (.mk .MIPSSUBconst t c none
          [.mk .MIPSSUBconst ti d none [x] ui] u)
        = .fired (.mk .MIPSADDconst t (int32 (-c - d)) none [x] u))
    ∧ (∀ (x : Value) (c d u ui : Int) (t ti : Ty), c ≠ 0 →
      rewriteValueMIPS_OpMIPSSUBconst (.mk .MIPSSUBconst t c none
          [.mk .MIPSADDconst ti d none [x] ui] u)
        = .fired (.mk .MIPSADDconst t (int32 (-c + d)) none [x] u))
    ∧ (∀ (c d u ui : Int) (t ti : Ty), c ≠ 0 →
      rewriteValueMIPS_OpMIPSSUBconst (.mk .MIPSSUBconst t c none
          [.mk .MIPSMOVWconst ti d none [] ui] u)
        = .fired (.mk .MIPSMOVWconst t (int32 (d - c)) none [] u))
    ∧ (∀ (x : Value) (c u : Int) (t : Ty), c ≠ 0 →
      x.op ≠ .MIPSMOVWconst → x.op ≠ .MIPSSUBconst → x.op ≠ .MIPSADDconst →
      rewriteValueMIPS_OpMIPSSUBconst (.mk .MIPSSUBconst t c none [x] u)
        = .unchanged) := by
  refine ⟨?_, ?_, ?_, ?_, ?_, ?_, ?_⟩
  · intro x c u uc t tc
    simp [rewriteValueMIPS_OpMIPSADD, commute2, ruleADDconstRight,
      Option.orElse]
  · intro x c u uc t tc hx
    simp [rewriteValueMIPS_OpMIPSADD, commute2, ruleADDconstRight,
      Option.orElse, hx]
  · intro x c u uc t tc
    simp [rewriteValueMIPS_OpMIPSSUB]
  · intro x c d u ui t ti hc
    simp [rewriteValueMIPS_OpMIPSSUBconst, hc]
  · intro x c d u ui t ti hc
    simp [rewriteValueMIPS_OpMIPSSUBconst, hc]
  · intro c d u ui t ti hc
    simp [rewriteValueMIPS_OpMIPSSUBconst, hc]
  · intro x c u t hc h1 h2 h3
    simp [rewriteValueMIPS_OpMIPSSUBconst, hc, h1, h2, h3]

theorem C7_constant_canonicalization_witness :
    rewriteValueMIPS_OpMIPSADD (.mk .MIPSADD .int32ty 0 none
        [.mk .MIPSMOVWconst .int32ty 9 none [] 1,
         .mk .Arg .int32ty 0 none [] 2] 1)
      = .fired (.mk .MIPSADDconst .int32ty 9 none
          [.mk .Arg .int32ty 0 none [] 2] 1)
    ∧ rewriteValueMIPS_OpMIPSSUBconst (.mk .MIPSSUBconst .int32ty 3 none
        [.mk .MIPSSUBconst .int32ty 4 none
          [.mk .Arg .int32ty 0 none [] 2] 1] 1)
      = .fired (.mk .MIPSADDconst .int32ty (int32 (-3 - 4)) none
          [.mk .Arg .int32ty 0 none [] 2] 1)
    ∧ rewriteValueMIPS_OpMIPSSUBconst (.mk .MIPSSUBconst .int32ty 5 none
        [.mk .Arg .int32ty 0 none [] 2] 1) = .unchanged := by
  refine ⟨?_, ?_, ?_⟩
  · exact C7_constant_canonicalization.2.1 (.mk .Arg .int32ty 0 none [] 2)
      9 1 1 .int32ty .int32ty (by decide)
  · exact C7_constant_canonicalization.2.2.2.1 (.mk .Arg .int32ty 0 none [] 2)
      3 4 1 1 .int32ty .int32ty (by decide)
  · exact C7_constant_canonicalization.2.2.2.2.2.2
      (.mk .Arg .int32ty 0 none [] 2) 5 1 .int32ty (by decide) (by decide)
      (by decide) (by decide)

/-- C7 counterexample: `SUB x (MOVWconst [5])` canonicalizes to
`SUBconst [5] x`, not to `ADDconst [-5] x`, and the `SUBconst` of a
plain operand is not rewritten further, so subtraction by a constant
does not rewrite to addition by the negation. -/
theorem C7_counterexample :
    rewriteValueMIPS_OpMIPSSUB (.mk .MIPSSUB .int32ty 0 none
        [.mk .Arg .int32ty 0 none [] 2,
         .mk .MIPSMOVWconst .int32ty 5 none [] 1] 1)
      = .fired (.mk .MIPSSUBconst .int32ty 5 none
          [.mk .Arg .int32ty 0 none [] 2] 1)
    ∧ rewriteValueMIPS_OpMIPSSUBconst (.mk .MIPSSUBconst .int32ty 5 none
        [.mk .Arg .int32ty 0 none [] 2] 1) = .unchanged :=
  ⟨rfl, rfl⟩

/-! ## C8: phi inputs are attributed to predecessor edges -/

/-- An edge update whose incoming flag is up keeps it up. -/
theorem edgeUpdate_flag (f : Func) (s : IDSet) (phis : List SAValue)
    (b : SABlock) (acc : Bool × LiveMap) (i : Nat)
    (h : acc.1 = true) : (edgeUpdate f s phis b acc i).1 = true := by
  simp only [edgeUpdate]
  split
  · exact h
  · rfl

/-- An edge update whose resulting flag is down returned its input. -/
theorem edgeUpdate_noflag (f : Func) (s : IDSet) (phis : List SAValue)
    (b : SABlock) (acc : Bool × LiveMap) (i : Nat)
    (h : (edgeUpdate f s phis b acc i).1 = false) :
    edgeUpdate f s phis b acc i = acc := by
  simp only [edgeUpdate] at h ⊢
  split at h
  next hc => rw [if_pos hc]
  next hc => simp at h

theorem edgeUpdate_false (f : Func) (s : IDSet) (phis : List SAValue)
    (b : SABlock) (lv : LiveMap) (i : Nat)
    (h : edgeUpdate f s phis b (false, lv) i = (false, lv)) :
    s ∪ phis.foldl (fun u v => insert (v.args.getD i 0) u) ∅
      ⊆ (lv (f.blockById (b.preds.getD i 0)).id).getD
          ((f.blockById (b.preds.getD i 0)).succs.findIdx
            (fun sid => sid = b.id)) ∅ := by
  by_cases hcard :
      ((lv (f.blockById (b.preds.getD i 0)).id).getD
          ((f.blockById (b.preds.getD i 0)).succs.findIdx
            (fun sid => sid = b.id)) ∅
        ∪ s ∪ phis.foldl (fun u v => insert (v.args.getD i 0) u) ∅).card
      = ((lv (f.blockById (b.preds.getD i 0)).id).getD
          ((f.blockById (b.preds.getD i 0)).succs.findIdx
            (fun sid => sid = b.id)) ∅).card
  · set old := (lv (f.blockById (b.preds.getD i 0)).id).getD
        ((f.blockById (b.preds.getD i 0)).succs.findIdx
          (fun sid => sid = b.id)) ∅ with hold
    have hsub : old ⊆ old ∪ s ∪
        phis.foldl (fun u v => insert (v.args.getD i 0) u) ∅ := by
      intro x hx
      simp [Finset.mem_union, hx]
    have heq := Finset.eq_of_subset_of_card_le hsub (le_of_eq hcard)
    intro x hx
    rw [heq]
    rcases Finset.mem_union.mp hx with hx2 | hx2
    · exact Finset.mem_union_left _ (Finset.mem_union_right _ hx2)
    · exact Finset.mem_union_right _ hx2
  · exfalso
    simp only [edgeUpdate] at h
    rw [if_neg hcard] at h
    exact Bool.noConfusion (congrArg Prod.fst h)

/-- A pass of edge updates whose flag stays down changed nothing, and
every single update changed nothing. -/
theorem foldl_edgeUpdate_false (f : Func) (s : IDSet) (phis : List SAValue)
    (b : SABlock) (lv : LiveMap) (l : List Nat)
    (h : (l.foldl (edgeUpdate f s phis b) (false, lv)).1 = false) :
    (l.foldl (edgeUpdate f s phis b) (false, lv)).2 = lv
    ∧ ∀ i ∈ l, edgeUpdate f s phis b (false, lv) i = (false, lv) := by
  induction l with
  | nil => exact ⟨rfl, by simp⟩
  | cons i rest ih =>
    rw [List.foldl_cons] at h ⊢
    rcases hflag : (edgeUpdate f s phis b (false, lv) i).1 with _ | _
    · have hstep := edgeUpdate_noflag f s phis b (false, lv) i hflag
      rw [hstep] at h ⊢
      obtain ⟨h1, h2⟩ := ih h
      exact ⟨h1, fun j hj => by
        rcases List.mem_cons.mp hj with hj | hj
        · rw [hj]; exact hstep
        · exact h2 j hj⟩
    · exfalso
      have : (rest.foldl (edgeUpdate f s phis b)
          (edgeUpdate f s phis b (false, lv) i)).1 = true := by
        refine foldl_preserve
          (P := fun acc : Bool × LiveMap => acc.1 = true)
          _ rest (fun acc j _ hacc => edgeUpdate_flag f s phis b acc j hacc)
          _ hflag
      rw [h] at this
      exact Bool.noConfusion this

theorem processBlock_false (f : Func) (ra : List (Option Location))
    (lv : LiveMap) (b : SABlock)
    (h : (processBlock f ra lv b).1 = false) :
    (processBlock f ra lv b).2 = lv
    ∧ ∀ i ∈ List.range b.preds.length,
        edgeUpdate f (blockScan ra b.values (blockLiveOut lv b)).1
          (blockScan ra b.values (blockLiveOut lv b)).2 b (false, lv) i
        = (false, lv) := by
  unfold processBlock at h ⊢
  exact foldl_edgeUpdate_false f _ _ b lv _ h

/-- The step of the `livePass` fold over blocks, written without the
`let`. -/
def passStep (f : Func) (ra : List (Option Location))
    (acc : Bool × LiveMap) (b : SABlock) : Bool × LiveMap :=
  (acc.1 || (processBlock f ra acc.2 b).1, (processBlock f ra acc.2 b).2)

theorem passStep_flag (f : Func) (ra : List (Option Location))
    (acc : Bool × LiveMap) (b : SABlock)
    (h : acc.1 = true) : (passStep f ra acc b).1 = true := by
  simp [passStep, h]

theorem foldl_passStep_false (f : Func) (ra : List (Option Location))
    (po : List SABlock) (lv : LiveMap) (L : LiveMap)
    (h : po.foldl (passStep f ra) (false, lv) = (false, L)) :
    L = lv ∧ ∀ b ∈ po, processBlock f ra lv b = (false, lv) := by
  induction po generalizing lv with
  | nil =>
    rw [List.foldl_nil] at h
    exact ⟨(congrArg Prod.snd h).symm, by simp⟩
  | cons b rest ih =>
    rw [List.foldl_cons] at h
    rcases hflag : (processBlock f ra lv b).1 with _ | _
    · have hmap := (processBlock_false f ra lv b hflag).1
      have hstep : passStep f ra (false, lv) b = (false, lv) := by
        show ((false : Bool) || (processBlock f ra lv b).1,
          (processBlock f ra lv b).2) = ((false : Bool), lv)
        rw [hflag, hmap]
        rfl
      rw [hstep] at h
      obtain ⟨h1, h2⟩ := ih lv h
      refine ⟨h1, fun b2 hb2 => ?_⟩
      rcases List.mem_cons.mp hb2 with hb2 | hb2
      · rw [hb2]
        rw [show processBlock f ra lv b = ((processBlock f ra lv b).1,
          (processBlock f ra lv b).2) from rfl, hflag, hmap]
      · exact h2 b2 hb2
    · exfalso
      have : (rest.foldl (passStep f ra)
          (passStep f ra (false, lv) b)).1 = true := by
        refine foldl_preserve
          (P := fun acc : Bool × LiveMap => acc.1 = true)
          _ rest (fun acc b2 _ hacc => passStep_flag f ra acc b2 hacc)
          _ ?_
        show ((false : Bool) || (processBlock f ra lv b).1,
          (processBlock f ra lv b).2).1 = true
        simp [hflag]
      rw [h] at this
      exact Bool.noConfusion this

/-- A pass of the block loop whose flag stays down changed nothing, and
every block's processing changed nothing. -/
theorem livePass_false (f : Func) (ra : List (Option Location))
    (po : List SABlock) (lv : LiveMap) (L : LiveMap)
    (h : livePass f ra po lv = (false, L)) :
    L = lv ∧ ∀ b ∈ po, processBlock f ra lv b = (false, lv) := by
  have h2 : po.foldl (passStep f ra) (false, lv) = (false, L) := h
  exact foldl_passStep_false f ra po lv L h2

/-- A stabilized `liveSpills` result satisfies every block's per-pass
equations with no change. -/
theorem liveSpills_stable (f : Func) (fuel : Nat) (L : LiveMap)
    (h : liveSpills f fuel = some L) :
    ∀ b ∈ postorderModel f, processBlock f f.regAlloc L b = (false, L) := by
  unfold liveSpills at h
  revert h
  generalize initLive f = lv
  induction fuel generalizing lv with
  | zero => intro h; exact absurd h (by simp [liveLoop])
  | succ n ih =>
    intro h
    simp only [liveLoop] at h
    rcases hflag : (livePass f f.regAlloc (postorderModel f) lv).1 with _ | _
    · rw [hflag, if_neg Bool.false_ne_true] at h
      have hL := Option.some.inj h
      have hpass : livePass f f.regAlloc (postorderModel f) lv
          = (false, L) := by
        rw [show livePass f f.regAlloc (postorderModel f) lv
          = ((livePass f f.regAlloc (postorderModel f) lv).1,
             (livePass f f.regAlloc (postorderModel f) lv).2) from rfl,
          hflag, hL]
      obtain ⟨h1, h2⟩ := livePass_false f _ _ lv L hpass
      subst h1
      exact fun b hb => by
        rw [h2 b hb]
    · rw [hflag, if_pos rfl] at h
      exact ih _ h

/-- Every stack phi of a block is collected by the backward scan. -/
theorem blockScan_collects (ra : List (Option Location))
    (vals : List SAValue) (send : IDSet) (v : SAValue)
    (hv : v ∈ vals) (hphi : isStackPhi ra v = true) :
    v ∈ (blockScan ra vals send).2 := by
  unfold blockScan
  refine foldl_establish (fun acc : IDSet × List SAValue => v ∈ acc.2)
    (liveStep ra) vals.reverse v (List.mem_reverse.mpr hv)
    (fun acc w _ hacc => ?_) (fun acc => ?_) _
  · unfold liveStep
    split
    · exact hacc
    · split
      · exact hacc
      · split
        · exact List.mem_cons_of_mem _ hacc
        · exact hacc
  · unfold liveStep
    have hop : ¬v.op = .StoreReg := by
      intro hop
      rw [isStackPhi_iff] at hphi
      rw [hphi.1] at hop
      exact Op.noConfusion hop
    have hop2 : ¬v.op = .LoadReg := by
      intro hop2
      rw [isStackPhi_iff] at hphi
      rw [hphi.1] at hop2
      exact Op.noConfusion hop2
    rw [if_neg hop, if_neg hop2, if_pos hphi]
    exact List.mem_cons_self _ _

/-- Membership in the per-edge phi-argument set. -/
theorem mem_foldl_insert (phis : List SAValue) (i : Nat) (init : IDSet)
    (v : SAValue) (hv : v ∈ phis) :
    v.args.getD i 0
      ∈ phis.foldl (fun u w => insert (w.args.getD i 0) u) init := by
  refine foldl_establish
    (fun u : IDSet => v.args.getD i 0 ∈ u)
    (fun u w => insert (w.args.getD i 0) u) phis v hv
    (fun u w _ hu => Finset.mem_insert_of_mem hu)
    (fun u => Finset.mem_insert_self _ _) _

/-- The live-at-start set only contains live-out IDs and `LoadReg`
arguments — in particular it excludes values that are merely phi
inputs. -/
theorem blockScan_start_subset (ra : List (Option Location))
    (vals : List SAValue) (send : IDSet) :
    ∀ x ∈ (blockScan ra vals send).1,
      x ∈ send ∨ ∃ w ∈ vals, w.op = .LoadReg ∧ w.args.headD 0 = x := by
  unfold blockScan
  refine foldl_preserve
    (P := fun acc : IDSet × List SAValue => ∀ x ∈ acc.1,
      x ∈ send ∨ ∃ w ∈ vals, w.op = .LoadReg ∧ w.args.headD 0 = x)
    (liveStep ra) vals.reverse (fun acc w hw hacc => ?_) _
    (fun x hx => Or.inl hx)
  unfold liveStep
  split
  · exact fun x hx => hacc x (Finset.mem_of_mem_erase hx)
  next hsr =>
    split
    next hlr =>
      intro x hx
      rcases Finset.mem_insert.mp hx with hx2 | hx2
      · exact Or.inr ⟨w, List.mem_reverse.mp hw, hlr, hx2.symm⟩
      · exact hacc x hx2
    · split
      · exact fun x hx => hacc x (Finset.mem_of_mem_erase hx)
      · exact hacc

/-- C8: in `liveSpills`, a stack phi's `i`-th input is attributed to
the edge from predecessor `i` — every stabilized live map has the input
in the live set of the edge from `b.Preds[i]` into `b` — while the
live-at-start set of `b` itself contains no value that is merely a phi
input (it only contains live-out IDs and `LoadReg` arguments). -/
theorem C8_phi_inputs_on_edges (f : Func) (fuel : Nat) (L : LiveMap)
    (hls : liveSpills f fuel = some L)
    (b : SABlock) (hb : b ∈ f.blocks)
    (v : SAValue) (hv : v ∈ b.values)
    (hphi : isStackPhi f.regAlloc v = true)
    (i : Nat) (hi : i < b.preds.length) :
    v.args.getD i 0
      ∈ (L (f.blockById (b.preds.getD i 0)).id).getD
          ((f.blockById (b.preds.getD i 0)).succs.findIdx
            (fun sid => sid = b.id)) ∅
    ∧ (∀ x ∈ (blockScan f.regAlloc b.values (blockLiveOut L b)).1,
        x ∈ blockLiveOut L b
        ∨ ∃ w ∈ b.values, w.op = .LoadReg ∧ w.args.headD 0 = x) := by
  have hstable := liveSpills_stable f fuel L hls b
    (by unfold postorderModel; exact List.mem_reverse.mpr hb)
  have hedges := (processBlock_false f f.regAlloc L b
    (by rw [hstable])).2
  have hedge := hedges i (List.mem_range.mpr hi)
  have hsub := edgeUpdate_false f _ _ b L i hedge
  constructor
  · refine hsub ?_
    refine Finset.mem_union_right _ ?_
    exact mem_foldl_insert _ i _ v
      (blockScan_collects f.regAlloc b.values _ v hv hphi)
  · exact blockScan_start_subset f.regAlloc b.values _

theorem C8_phi_inputs_on_edges_witness :
    ((⟨3, .Phi, .int32ty, 0, none, [1, 2]⟩ : SAValue).args.getD 0 0
      ∈ (((liveSpills c2wF 10).getD (fun _ => []))
            (c2wF.blockById ((⟨3, [⟨3, .Phi, .int32ty, 0, none, [1, 2]⟩],
              [1, 2], []⟩ : SABlock).preds.getD 0 0)).id).getD
          ((c2wF.blockById ((⟨3, [⟨3, .Phi, .int32ty, 0, none, [1, 2]⟩],
              [1, 2], []⟩ : SABlock).preds.getD 0 0)).succs.findIdx
            (fun sid => sid = (⟨3, [⟨3, .Phi, .int32ty, 0, none, [1, 2]⟩],
              [1, 2], []⟩ : SABlock).id)) ∅)
    ∧ (∀ x ∈ (blockScan c2wF.regAlloc
          (⟨3, [⟨3, .Phi, .int32ty, 0, none, [1, 2]⟩],
            [1, 2], []⟩ : SABlock).values
          (blockLiveOut ((liveSpills c2wF 10).getD (fun _ => []))
            ⟨3, [⟨3, .Phi, .int32ty, 0, none, [1, 2]⟩], [1, 2], []⟩)).1,
        x ∈ blockLiveOut ((liveSpills c2wF 10).getD (fun _ => []))
            ⟨3, [⟨3, .Phi, .int32ty, 0, none, [1, 2]⟩], [1, 2], []⟩
        ∨ ∃ w ∈ (⟨3, [⟨3, .Phi, .int32ty, 0, none, [1, 2]⟩],
            [1, 2], []⟩ : SABlock).values,
            w.op = .LoadReg ∧ w.args.headD 0 = x) :=
  C8_phi_inputs_on_edges c2wF 10 _ (by rfl)
    ⟨3, [⟨3, .Phi, .int32ty, 0, none, [1, 2]⟩], [1, 2], []⟩ (by decide)
    ⟨3, .Phi, .int32ty, 0, none, [1, 2]⟩ (by decide) (by decide)
    0 (by decide)

/-! ## C3: interference implies distinct slots -/

/-- A value ID of spill class: some `StoreReg` or stack phi (with
respect to the incoming home table) of the function carries it. -/
def spillID (f : Func) (id : Nat) : Prop :=
  ∃ b ∈ f.blocks, ∃ u ∈ b.values, u.id = id ∧
    (u.op = .StoreReg ∨ isStackPhi f.regAlloc u = true)

instance (f : Func) (id : Nat) : Decidable (spillID f id) := by
  unfold spillID; infer_instance

/-- Two IDs belong to one phi-coalescing group: some stack phi has both
among its own ID and its arguments.  The allocator assigns such a group
one shared slot by design ("a stack phi and its args must all use the
same stack slot"). -/
def sameGroup (f : Func) (id id' : Nat) : Prop :=
  ∃ b ∈ f.blocks, ∃ p ∈ b.values, isStackPhi f.regAlloc p = true ∧
    (id = p.id ∨ id ∈ p.args) ∧ (id' = p.id ∨ id' ∈ p.args)

instance (f : Func) (id id' : Nat) : Decidable (sameGroup f id id') := by
  unfold sameGroup; infer_instance

/-- A function refuting C3 as stated: the stack phi with ID 3 interferes
with its own argument, the spill with ID 2 (a `LoadReg` of 2 after the
phi keeps 2 live across the phi), yet coalescing forces both onto one
slot. -/
def c3cexF : Func :=
  ⟨[⟨0, [⟨2, .StoreReg, .int32ty, 0, none, [9]⟩,
         ⟨1, .StoreReg, .int32ty, 0, none, [8]⟩], [], [1, 2]⟩,
    ⟨1, [], [0], [2]⟩,
    ⟨2, [⟨3, .Phi, .int32ty, 0, none, [1, 2]⟩,
         ⟨4, .LoadReg, .int32ty, 0, none, [2]⟩], [0, 1], []⟩],
   0, [], [], 5⟩

/-- A well-behaved function for the C3 witness: two overlapping spills
in one block, no phis, so the interfering pair is in no coalescing
group; the allocator gives the second spill a fresh slot because the
first one occupies the only pool slot. -/
def c3wF : Func :=
  ⟨[⟨0, [⟨1, .StoreReg, .int32ty, 0, none, [8]⟩,
         ⟨2, .StoreReg, .int32ty, 0, none, [9]⟩,
         ⟨3, .LoadReg, .int32ty, 0, none, [1]⟩,
         ⟨4, .LoadReg, .int32ty, 0, none, [2]⟩], [], []⟩],
   0, [], [], 5⟩

theorem C3_counterexample :
    (interferenceOf c3cexF 10).map (fun itf => decide (2 ∈ itf 3)) = some true
    ∧ (⟨3, .Phi, .int32ty, 0, none, [1, 2]⟩ : SAValue)
        ∈ (c3cexF.blockById 2).values
    ∧ isStackPhi c3cexF.regAlloc ⟨3, .Phi, .int32ty, 0, none, [1, 2]⟩ = true
    ∧ (⟨2, .StoreReg, .int32ty, 0, none, [9]⟩ : SAValue)
        ∈ (c3cexF.blockById 0).values
    ∧ (stackalloc c3cexF 10).map (fun f2 => f2.getHome 3)
        = some (some (.localSlot ⟨some (.auto 0), .int32ty, 0⟩))
    ∧ (stackalloc c3cexF 10).map (fun f2 => f2.getHome 2)
        = some (some (.localSlot ⟨some (.auto 0), .int32ty, 0⟩)) :=
  ⟨rfl, by decide, by decide, by decide, rfl, rfl⟩

/-! ### List utilities for the pool argument -/

theorem getD_append_left {α : Type _} (l l2 : List α) (n : Nat) (d : α)
    (h : n < l.length) : (l ++ l2).getD n d = l.getD n d := by
  rw [List.getD_eq_getElem?_getD, List.getD_eq_getElem?_getD,
    List.getElem?_append_left h]

theorem getD_concat_self {α : Type _} (l : List α) (x : α) (d : α) :
    (l ++ [x]).getD l.length d = x := by
  rw [List.getD_eq_getElem?_getD, List.getElem?_concat_length]
  rfl

theorem getD_mem {α : Type _} (l : List α) (n : Nat) (d : α)
    (h : n < l.length) : l.getD n d ∈ l := by
  rw [List.getD_eq_getElem?_getD, List.getElem?_eq_getElem h]
  exact List.getElem_mem h

theorem nodup_getD_ne {α : Type _} (l : List α) (h : l.Nodup) (n m : Nat)
    (d : α) (hn : n < l.length) (hm : m < l.length) (hnm : n ≠ m) :
    l.getD n d ≠ l.getD m d := by
  intro heq
  rw [List.getD_eq_getElem?_getD, List.getD_eq_getElem?_getD,
    List.getElem?_eq_getElem hn, List.getElem?_eq_getElem hm] at heq
  simp only [Option.getD_some] at heq
  exact hnm (List.Nodup.getElem_inj_iff h |>.mp heq)

/-! ### The pool scan -/

theorem firstFree_le (n : Nat) (u : Nat → Bool) : firstFree n u ≤ n := by
  unfold firstFree
  cases hl : (List.range n).filter (fun i => !u i) with
  | nil => exact Nat.le_refl n
  | cons x xs =>
    have hx : x ∈ (List.range n).filter (fun i => !u i) := by
      rw [hl]; exact List.mem_cons_self _ _
    have hxr := List.mem_range.mp (List.mem_of_mem_filter hx)
    show x ≤ n
    omega

theorem firstFree_not_used (n : Nat) (u : Nat → Bool)
    (h : firstFree n u < n) : u (firstFree n u) = false := by
  unfold firstFree at h ⊢
  cases hl : (List.range n).filter (fun i => !u i) with
  | nil =>
    rw [hl] at h
    exact absurd h (lt_irrefl n)
  | cons x xs =>
    have hx : x ∈ (List.range n).filter (fun i => !u i) := by
      rw [hl]; exact List.mem_cons_self _ _
    have hfx := List.of_mem_filter hx
    show u x = false
    simpa using hfx

theorem firstFree_all_used (n : Nat) (u : Nat → Bool)
    (h : ∀ j, j < n → u j = true) : firstFree n u = n := by
  unfold firstFree
  have hnil : (List.range n).filter (fun i => !u i) = [] := by
    rw [List.filter_eq_nil_iff]
    intro a ha
    simp [h a (List.mem_range.mp ha)]
  rw [hnil, List.headD_nil]

/-! ### Symmetry of the interference graph -/

theorem interStep_symm (ra : List (Option Location)) (types : Nat → Ty)
    (acc : IDSet × (Nat → IDSet)) (v : SAValue)
    (h : ∀ id id', id' ∈ acc.2 id → id ∈ acc.2 id') :
    ∀ id id', id' ∈ (interStep ra types acc v).2 id
      → id ∈ (interStep ra types acc v).2 id' := by
  unfold interStep
  split
  · intro id id' hmem
    set T := (acc.1.erase v.id).filter (fun id => v.ty = types id) with hT
    have hTne : ∀ x ∈ T, x ≠ v.id := by
      intro x hx
      exact (Finset.mem_erase.mp (Finset.mem_of_mem_filter x hx)).1
    show id ∈ (if id' = v.id then acc.2 id' ∪ T
      else if id' ∈ T then insert v.id (acc.2 id') else acc.2 id')
    by_cases h1 : id = v.id
    · rw [show id' ∈ (if id = v.id then acc.2 id ∪ T
        else if id ∈ T then insert v.id (acc.2 id) else acc.2 id)
        ↔ id' ∈ acc.2 id ∪ T from by rw [if_pos h1]] at hmem
      subst h1
      rcases Finset.mem_union.mp hmem with h2 | h2
      · by_cases h3 : id' = v.id
        · subst h3
          rw [if_pos rfl]
          exact Finset.mem_union_left _ h2
        · rw [if_neg h3]
          by_cases h4 : id' ∈ T
          · rw [if_pos h4]; exact Finset.mem_insert_self _ _
          · rw [if_neg h4]; exact h _ _ h2
      · rw [if_neg (hTne id' h2), if_pos h2]
        exact Finset.mem_insert_self _ _
    · rw [show id' ∈ (if id = v.id then acc.2 id ∪ T
        else if id ∈ T then insert v.id (acc.2 id) else acc.2 id)
        ↔ id' ∈ (if id ∈ T then insert v.id (acc.2 id) else acc.2 id)
        from by rw [if_neg h1]] at hmem
      by_cases h2 : id ∈ T
      · rw [if_pos h2] at hmem
        rcases Finset.mem_insert.mp hmem with h3 | h3
        · rw [if_pos h3]
          exact Finset.mem_union_right _ h2
        · by_cases h4 : id' = v.id
          · rw [if_pos h4]
            exact Finset.mem_union_left _ (h _ _ h3)
          · rw [if_neg h4]
            by_cases h5 : id' ∈ T
            · rw [if_pos h5]; exact Finset.mem_insert_of_mem (h _ _ h3)
            · rw [if_neg h5]; exact h _ _ h3
      · rw [if_neg h2] at hmem
        by_cases h4 : id' = v.id
        · rw [if_pos h4]
          exact Finset.mem_union_left _ (h _ _ hmem)
        · rw [if_neg h4]
          by_cases h5 : id' ∈ T
          · rw [if_pos h5]; exact Finset.mem_insert_of_mem (h _ _ hmem)
          · rw [if_neg h5]; exact h _ _ hmem
  · split
    · exact h
    · exact h

theorem buildInterference_symm (f : Func) (types : Nat → Ty)
    (live : LiveMap) :
    ∀ id id', id' ∈ buildInterference f types live id
      → id ∈ buildInterference f types live id' := by
  unfold buildInterference
  refine foldl_preserve
    (P := fun nbr : Nat → IDSet => ∀ id id', id' ∈ nbr id → id ∈ nbr id')
    _ f.blocks (fun nbr b _ hP => ?_) _
    (fun id id' hmem => absurd hmem (Finset.not_mem_empty _))
  exact foldl_preserve
    (P := fun acc : IDSet × (Nat → IDSet) =>
      ∀ id id', id' ∈ acc.2 id → id ∈ acc.2 id')
    (interStep f.regAlloc types) b.values.reverse
    (fun acc v _ hacc => interStep_symm f.regAlloc types acc v hacc)
    (blockLiveOut live b, nbr) hP

/-! ### Shapes of the name table and the initial homes -/

theorem buildNames_shape (f : Func) (id : Nat) :
    buildNames f id = ⟨none, .unknown, 0⟩
    ∨ ∃ p ∈ f.names, buildNames f id = p.1 := by
  unfold buildNames
  refine foldl_preserve
    (P := fun m : Nat → LocalSlot =>
      m id = ⟨none, .unknown, 0⟩ ∨ ∃ p ∈ f.names, m id = p.1)
    _ f.names (fun m p hp hP => ?_) _ (Or.inl rfl)
  refine foldl_preserve
    (P := fun m : Nat → LocalSlot =>
      m id = ⟨none, .unknown, 0⟩ ∨ ∃ q ∈ f.names, m id = q.1)
    _ p.2 (fun m vid _ hP2 => ?_) _ hP
  show (if id = vid then p.1 else m id) = ⟨none, .unknown, 0⟩
    ∨ ∃ q ∈ f.names, (if id = vid then p.1 else m id) = q.1
  by_cases hid : id = vid
  · exact Or.inr ⟨p, hp, by rw [if_pos hid]⟩
  · rw [if_neg hid]
    exact hP2

theorem entry_values_sub (f : Func) :
    ∀ w ∈ f.entry.values, ∃ b ∈ f.blocks, w ∈ b.values := by
  unfold Func.entry Func.blockById
  cases hf : f.blocks.find? (fun b => b.id = f.entryID) with
  | none =>
    intro w hw
    exact absurd hw (by simp)
  | some b =>
    intro w hw
    exact ⟨b, List.mem_of_find?_eq_some hf, hw⟩

/-- Reading `used[i] = false` back as the two interference conditions. -/
theorem usedFun_false (itf : Nat → IDSet) (slots : Nat → Int) (v : SAValue)
    (i : Nat) (h : usedFun itf slots v i = false) :
    (∀ xid ∈ itf v.id, slots xid ≠ (i : Int))
    ∧ (v.op = .Phi → ∀ a ∈ v.args, ∀ xid ∈ itf a, slots xid ≠ (i : Int)) := by
  unfold usedFun at h
  rw [Bool.or_eq_false_iff] at h
  obtain ⟨ha, hb⟩ := h
  rw [decide_eq_false_iff_not] at ha
  push_neg at ha
  refine ⟨ha, fun hop a hx xid hxid => ?_⟩
  rw [Bool.and_eq_false_iff] at hb
  rcases hb with hb | hb
  · rw [decide_eq_false_iff_not] at hb
    exact absurd hop hb
  · rw [decide_eq_false_iff_not] at hb
    push_neg at hb
    exact hb a hx xid hxid

/-- Full characterization of the named path of the slot-picking loop:
state components unchanged except the homes of `v` (and its arguments
for a phi), which all receive the named slot. -/
theorem allocStep_named_eq (itf : Nat → IDSet) (names : Nat → LocalSlot)
    (phiArg : Nat → Bool) (st : AllocState) (v : SAValue)
    (h1 : v.op = .StoreReg ∨ isStackPhi st.ra v = true)
    (h2 : phiArg v.id = false)
    (hname : nameOK itf st.ra v (pickedName names v)) :
    (∀ t, (allocStep itf names phiArg st v).locs t = st.locs t)
    ∧ (∀ id, (allocStep itf names phiArg st v).slots id = st.slots id)
    ∧ (allocStep itf names phiArg st v).ctr = st.ctr
    ∧ ∀ id, getHomeL (allocStep itf names phiArg st v).ra id
        = if id = v.id ∨ (v.op = .Phi ∧ id ∈ v.args)
          then some (.localSlot (pickedName names v))
          else getHomeL st.ra id := by
  unfold allocStep
  rw [if_neg (not_not_intro h1), if_neg (by simp [h2]), if_pos hname]
  refine ⟨fun t => rfl, fun id => rfl, rfl, fun id => ?_⟩
  by_cases hphi : v.op = .Phi
  · simp only [hphi, if_true]
    rw [getHomeL_foldl_setHomeL]
    by_cases hmem : id ∈ v.args
    · simp [hmem]
    · rw [if_neg hmem, getHomeL_setHomeL]
      by_cases hid : id = v.id
      · simp [hid]
      · simp [hid, hmem]
  · simp only [hphi, if_false]
    rw [getHomeL_setHomeL]
    by_cases hid : id = v.id
    · simp [hid]
    · simp [hid, hphi]

/-- Full characterization of the pool path: the picked pool index is
written into `slots` for `v` (and its arguments for a phi), the type's
pool becomes `poolAfter`, the counter advances exactly when the pool
grew, and the homes of `v` and its arguments become the picked slot. -/
theorem allocStep_pool_eq (itf : Nat → IDSet) (names : Nat → LocalSlot)
    (phiArg : Nat → Bool) (st : AllocState) (v : SAValue)
    (h1 : v.op = .StoreReg ∨ isStackPhi st.ra v = true)
    (h2 : phiArg v.id = false)
    (hname : ¬ nameOK itf st.ra v (pickedName names v)) :
    (∀ t, (allocStep itf names phiArg st v).locs t
      = if t = v.ty then poolAfter itf st v else st.locs t)
    ∧ (∀ id, (allocStep itf names phiArg st v).slots id
      = if id = v.id ∨ (v.op = .Phi ∧ id ∈ v.args)
        then ((poolIndex itf st v : Nat) : Int) else st.slots id)
    ∧ (allocStep itf names phiArg st v).ctr
      = (if poolIndex itf st v = (st.locs v.ty).length
         then st.ctr + 1 else st.ctr)
    ∧ ∀ id, getHomeL (allocStep itf names phiArg st v).ra id
        = if id = v.id ∨ (v.op = .Phi ∧ id ∈ v.args)
          then some (.localSlot ((poolAfter itf st v).getD
            (poolIndex itf st v) ⟨none, .unknown, 0⟩))
          else getHomeL st.ra id := by
  unfold allocStep
  rw [if_neg (not_not_intro h1), if_neg (by simp [h2]), if_neg hname]
  refine ⟨fun t => rfl, fun id => rfl, rfl, fun id => ?_⟩
  by_cases hphi : v.op = .Phi
  · simp only [hphi, if_true]
    rw [getHomeL_foldl_setHomeL]
    by_cases hmem : id ∈ v.args
    · simp [hmem]
    · rw [if_neg hmem, getHomeL_setHomeL]
      by_cases hid : id = v.id
      · simp [hid]
      · simp [hid, hmem]
  · simp only [hphi, if_false]
    rw [getHomeL_setHomeL]
    by_cases hid : id = v.id
    · simp [hid]
    · simp [hid, hphi]

/-- The `slots` table after one step: unchanged, or (when `v` went
through the pool path) updated to the picked index on `v` and its
arguments. -/
theorem allocStep_slots_cases (itf : Nat → IDSet) (names : Nat → LocalSlot)
    (phiArg : Nat → Bool) (st : AllocState) (v : SAValue) :
    (∀ id, (allocStep itf names phiArg st v).slots id = st.slots id)
    ∨ ((v.op = .StoreReg ∨ isStackPhi st.ra v = true)
       ∧ phiArg v.id = false
       ∧ ∀ id, (allocStep itf names phiArg st v).slots id
           = if id = v.id ∨ (v.op = .Phi ∧ id ∈ v.args)
             then ((poolIndex itf st v : Nat) : Int) else st.slots id) := by
  by_cases hg1 : ¬(v.op = .StoreReg ∨ isStackPhi st.ra v = true)
  · rw [allocStep_skip1 _ _ _ _ _ hg1]
    exact Or.inl (fun id => rfl)
  · by_cases hg2 : phiArg v.id = true
    · rw [allocStep_skip2 _ _ _ _ _ hg2]
      exact Or.inl (fun id => rfl)
    · by_cases hn : nameOK itf st.ra v (pickedName names v)
      · exact Or.inl (allocStep_named_eq itf names phiArg st v
          (not_not.mp hg1) (by simpa using hg2) hn).2.1
      · exact Or.inr ⟨not_not.mp hg1, by simpa using hg2,
          (allocStep_pool_eq itf names phiArg st v
            (not_not.mp hg1) (by simpa using hg2) hn).2.1⟩

/-- The allocation invariant carried through the slot-picking loop:
(i) homes only ever get assigned, never cleared; (ii) a nonnegative
`slots` index points into the value's type pool and the home agrees
with the pool entry there; (iii) every assigned home is pool-indexed, a
register, or a named slot; (iv) pool entries are fresh `Auto` nodes of
their pool's type, pairwise distinct; (v) interfering spill-class IDs
outside one phi group never share an assigned home. -/
def SlotInv (f : Func) (itf : Nat → IDSet) (types : Nat → Ty)
    (st : AllocState) : Prop :=
  (∀ id, getHomeL st.ra id = none → getHomeL f.regAlloc id = none)
  ∧ (∀ id, ∀ k : Nat, st.slots id = (k : Int) →
      k < (st.locs (types id)).length ∧
      getHomeL st.ra id
        = some (.localSlot ((st.locs (types id)).getD k ⟨none, .unknown, 0⟩)))
  ∧ (∀ id loc, getHomeL st.ra id = some loc →
      (∃ k : Nat, st.slots id = (k : Int))
      ∨ (∃ r, loc = .register r)
      ∨ (∃ s t o, loc = .localSlot ⟨some (.named s), t, o⟩))
  ∧ (∀ t, (∀ sl ∈ st.locs t, ∃ k, k < st.ctr ∧ sl = ⟨some (.auto k), t, 0⟩)
      ∧ (st.locs t).Nodup)
  ∧ (∀ id id', id' ∈ itf id → id ≠ id' → spillID f id → spillID f id' →
      ¬ sameGroup f id id' → ∀ loc loc',
      getHomeL st.ra id = some loc → getHomeL st.ra id' = some loc'
      → loc ≠ loc')

/-- Homes after the `OpArg` pass are registers (from the incoming table)
or named argument slots. -/
theorem argHomes_shape (f : Func) (ra : List (Option Location))
    (hra : ∀ id loc, getHomeL ra id = some loc →
      (∃ r, loc = .register r)
      ∨ ∃ s t o, loc = .localSlot ⟨some (.named s), t, o⟩)
    (haux : ∀ w ∈ f.entry.values, w.op = .Arg →
      ∃ s, w.aux = some (.named s)) :
    ∀ id loc, getHomeL (argHomes f ra) id = some loc →
      (∃ r, loc = .register r)
      ∨ ∃ s t o, loc = .localSlot ⟨some (.named s), t, o⟩ := by
  unfold argHomes
  refine foldl_preserve
    (P := fun ra2 => ∀ id loc, getHomeL ra2 id = some loc →
      (∃ r, loc = .register r)
      ∨ ∃ s t o, loc = .localSlot ⟨some (.named s), t, o⟩)
    _ f.entry.values (fun ra2 w hw hP => ?_) _ hra
  by_cases hop : w.op = .Arg
  · rw [if_pos hop]
    intro id loc hloc
    rw [getHomeL_setHomeL] at hloc
    by_cases hid : id = w.id
    · rw [if_pos hid] at hloc
      obtain ⟨s, hs⟩ := haux w hw hop
      refine Or.inr ⟨s, w.ty, w.auxInt, ?_⟩
      rw [← Option.some.inj hloc, hs]
    · rw [if_neg hid] at hloc
      exact hP id loc hloc
  · rw [if_neg hop]
    exact hP

/-- Core of the pool argument: the slot picked for `v` in the pool path
differs from the assigned home of any value whose `slots` entry avoids
the picked index.  A fresh slot is a new `Auto` node; a reused pool
index differs from other same-pool indices by `Nodup`, from other
pools' entries by the type field, and from named or register homes by
shape. -/
theorem pool_slot_ne (itf : Nat → IDSet) (types : Nat → Ty)
    (st : AllocState) (v : SAValue)
    (hi1 : ∀ id, ∀ k : Nat, st.slots id = (k : Int) →
      k < (st.locs (types id)).length ∧
      getHomeL st.ra id
        = some (.localSlot ((st.locs (types id)).getD k ⟨none, .unknown, 0⟩)))
    (hi2 : ∀ id loc, getHomeL st.ra id = some loc →
      (∃ k : Nat, st.slots id = (k : Int))
      ∨ (∃ r, loc = .register r)
      ∨ (∃ s t o, loc = .localSlot ⟨some (.named s), t, o⟩))
    (hi3 : ∀ t, (∀ sl ∈ st.locs t, ∃ k, k < st.ctr ∧ sl = ⟨some (.auto k), t, 0⟩)
      ∧ (st.locs t).Nodup)
    (y : Nat) (loc2 : Location)
    (hyne : poolIndex itf st v < (st.locs v.ty).length →
      st.slots y ≠ ((poolIndex itf st v : Nat) : Int))
    (hh : getHomeL st.ra y = some loc2) :
    Location.localSlot ((poolAfter itf st v).getD (poolIndex itf st v)
      ⟨none, .unknown, 0⟩) ≠ loc2 := by
  intro heq
  by_cases hgrow : poolIndex itf st v = (st.locs v.ty).length
  · have hfresh : (poolAfter itf st v).getD (poolIndex itf st v)
        ⟨none, .unknown, 0⟩ = ⟨some (.auto st.ctr), v.ty, 0⟩ := by
      unfold poolAfter
      rw [if_pos hgrow, hgrow, getD_concat_self]
    rw [hfresh] at heq
    rcases hi2 y loc2 hh with ⟨k, hk⟩ | ⟨r, hr⟩ | ⟨s, t, o, hlo⟩
    · obtain ⟨hklen, hhome⟩ := hi1 y k hk
      rw [hh] at hhome
      have hloc2 := Option.some.inj hhome
      rw [hloc2] at heq
      have hent := Location.localSlot.inj heq
      have hmem := getD_mem (st.locs (types y)) k ⟨none, .unknown, 0⟩ hklen
      obtain ⟨k2, hk2, hs⟩ := (hi3 (types y)).1 _ hmem
      rw [hs] at hent
      rw [LocalSlot.mk.injEq] at hent
      have := GCNode.auto.inj (Option.some.inj hent.1)
      omega
    · rw [hr] at heq
      exact Location.noConfusion heq
    · rw [hlo] at heq
      have hent := Location.localSlot.inj heq
      rw [LocalSlot.mk.injEq] at hent
      exact GCNode.noConfusion (Option.some.inj hent.1)
  · have hlt : poolIndex itf st v < (st.locs v.ty).length :=
      lt_of_le_of_ne (by unfold poolIndex; exact firstFree_le _ _) hgrow
    have hsl : poolAfter itf st v = st.locs v.ty := by
      unfold poolAfter
      rw [if_neg hgrow]
    rw [hsl] at heq
    rcases hi2 y loc2 hh with ⟨k, hk⟩ | ⟨r, hr⟩ | ⟨s, t, o, hlo⟩
    · obtain ⟨hklen, hhome⟩ := hi1 y k hk
      rw [hh] at hhome
      have hloc2 := Option.some.inj hhome
      rw [hloc2] at heq
      have hent := Location.localSlot.inj heq
      by_cases hty : types y = v.ty
      · rw [hty] at hent hklen
        have hki : poolIndex itf st v ≠ k := by
          intro hik
          exact (hyne hlt) (by rw [hk, hik])
        exact nodup_getD_ne _ (hi3 v.ty).2 _ _ _ hlt hklen hki hent
      · have hmem1 := getD_mem (st.locs v.ty) (poolIndex itf st v)
          ⟨none, .unknown, 0⟩ hlt
        obtain ⟨k1, hk1, hs1⟩ := (hi3 v.ty).1 _ hmem1
        have hmem2 := getD_mem (st.locs (types y)) k ⟨none, .unknown, 0⟩ hklen
        obtain ⟨k2, hk2, hs2⟩ := (hi3 (types y)).1 _ hmem2
        rw [hs1, hs2] at hent
        rw [LocalSlot.mk.injEq] at hent
        exact hty hent.2.1.symm
    · rw [hr] at heq
      exact Location.noConfusion heq
    · rw [hlo] at heq
      have hent := Location.localSlot.inj heq
      have hmem1 := getD_mem (st.locs v.ty) (poolIndex itf st v)
        ⟨none, .unknown, 0⟩ hlt
      obtain ⟨k1, hk1, hs1⟩ := (hi3 v.ty).1 _ hmem1
      rw [hs1] at hent
      rw [LocalSlot.mk.injEq] at hent
      exact GCNode.noConfusion (Option.some.inj hent.1)

/-- One step of the slot-picking loop preserves the allocation
invariant.  The extra hypotheses say the processed value sits in the
function, its (and its arguments') cached types are its type, and
neither it nor its arguments carry a stale pool index. -/
theorem SlotInv_step (f : Func) (itf : Nat → IDSet) (names : Nat → LocalSlot)
    (types : Nat → Ty) (st : AllocState) (v : SAValue)
    (hsymm : ∀ id id', id' ∈ itf id → id ∈ itf id')
    (hnames : ∀ w, (names w).n = none ∨ ∃ s, (names w).n = some (.named s))
    (hvmem : ∃ b ∈ f.blocks, v ∈ b.values)
    (htyv : types v.id = v.ty)
    (htyargs : isStackPhi f.regAlloc v = true → ∀ a ∈ v.args, types a = v.ty)
    (hslotv : buildPhiArg f v.id = false →
      ∀ k : Nat, st.slots v.id ≠ (k : Int))
    (hslotargs : isStackPhi f.regAlloc v = true →
      ∀ a ∈ v.args, ∀ k : Nat, st.slots a ≠ (k : Int))
    (hinv : SlotInv f itf types st) :
    SlotInv f itf types (allocStep itf names (buildPhiArg f) st v) := by
  obtain ⟨hi0, hi1, hi2, hi3, hi4⟩ := hinv
  by_cases hg1 : ¬(v.op = .StoreReg ∨ isStackPhi st.ra v = true)
  · rw [allocStep_skip1 _ _ _ _ _ hg1]
    exact ⟨hi0, hi1, hi2, hi3, hi4⟩
  by_cases hg2 : buildPhiArg f v.id = true
  · rw [allocStep_skip2 _ _ _ _ _ hg2]
    exact ⟨hi0, hi1, hi2, hi3, hi4⟩
  have h1 : v.op = .StoreReg ∨ isStackPhi st.ra v = true := not_not.mp hg1
  have hpa : buildPhiArg f v.id = false := by simpa using hg2
  have hfphi : v.op = .Phi → isStackPhi f.regAlloc v = true := by
    intro hop
    have hsp : isStackPhi st.ra v = true := by
      rcases h1 with h1 | h1
      · rw [hop] at h1
        exact absurd h1 (by decide)
      · exact h1
    rw [isStackPhi_iff] at hsp ⊢
    exact ⟨hsp.1, hsp.2.1, hi0 _ hsp.2.2⟩
  have hSne : ∀ id, (id = v.id ∨ (v.op = .Phi ∧ id ∈ v.args)) →
      ∀ k : Nat, st.slots id ≠ (k : Int) := by
    rintro id (rfl | ⟨hop, hmem⟩) k
    · exact hslotv hpa k
    · exact hslotargs (hfphi hop) id hmem k
  have hStys : ∀ id, (id = v.id ∨ (v.op = .Phi ∧ id ∈ v.args)) →
      types id = v.ty := by
    rintro id (rfl | ⟨hop, hmem⟩)
    · exact htyv
    · exact htyargs (hfphi hop) id hmem
  have hSgroup : ∀ id id', (id = v.id ∨ (v.op = .Phi ∧ id ∈ v.args)) →
      (id' = v.id ∨ (v.op = .Phi ∧ id' ∈ v.args)) → id ≠ id' →
      sameGroup f id id' := by
    rintro id id' hid hid' hne
    have hop : v.op = .Phi := by
      rcases hid with rfl | ⟨hop, _⟩
      · rcases hid' with rfl | ⟨hop, _⟩
        · exact absurd rfl hne
        · exact hop
      · exact hop
    obtain ⟨b, hb, hvb⟩ := hvmem
    exact ⟨b, hb, v, hvb, hfphi hop,
      hid.imp (fun h => h) (fun h => h.2),
      hid'.imp (fun h => h) (fun h => h.2)⟩
  by_cases hname : nameOK itf st.ra v (pickedName names v)
  · obtain ⟨hlocs, hslots, hctr, hchar⟩ :=
      allocStep_named_eq itf names (buildPhiArg f) st v h1 hpa hname
    have hpick : ∃ s, (pickedName names v).n = some (.named s) := by
      have hpn : (pickedName names v).n = none
          ∨ ∃ s, (pickedName names v).n = some (.named s) := by
        unfold pickedName
        split
        · exact hnames _
        · exact hnames _
      rcases hpn with hn | hn
      · exact absurd hn hname.1
      · exact hn
    refine ⟨?_, ?_, ?_, ?_, ?_⟩
    · intro id hid
      rw [hchar id] at hid
      by_cases hS : id = v.id ∨ (v.op = .Phi ∧ id ∈ v.args)
      · rw [if_pos hS] at hid
        exact absurd hid (by simp)
      · rw [if_neg hS] at hid
        exact hi0 id hid
    · intro id k hk
      rw [hslots id] at hk
      obtain ⟨hklen, hhome⟩ := hi1 id k hk
      rw [hlocs (types id), hchar id]
      refine ⟨hklen, ?_⟩
      by_cases hS : id = v.id ∨ (v.op = .Phi ∧ id ∈ v.args)
      · exact absurd hk (hSne id hS k)
      · rw [if_neg hS]
        exact hhome
    · intro id loc hloc
      rw [hchar id] at hloc
      rw [hslots id]
      by_cases hS : id = v.id ∨ (v.op = .Phi ∧ id ∈ v.args)
      · rw [if_pos hS] at hloc
        obtain ⟨s, hs⟩ := hpick
        refine Or.inr (Or.inr
          ⟨s, (pickedName names v).ty, (pickedName names v).off, ?_⟩)
        have hx : pickedName names v
            = ⟨some (.named s), (pickedName names v).ty,
               (pickedName names v).off⟩ := by
          rw [← hs]
        rw [← Option.some.inj hloc]
        exact congrArg Location.localSlot hx
      · rw [if_neg hS] at hloc
        rcases hi2 id loc hloc with h | h | h
        exacts [Or.inl h, Or.inr (Or.inl h), Or.inr (Or.inr h)]
    · intro t
      rw [hlocs t, hctr]
      exact hi3 t
    · intro id id' hedge hne hsp hsp' hgrp loc loc' hl hl'
      rw [hchar id] at hl
      rw [hchar id'] at hl'
      by_cases hS : id = v.id ∨ (v.op = .Phi ∧ id ∈ v.args)
        <;> by_cases hS' : id' = v.id ∨ (v.op = .Phi ∧ id' ∈ v.args)
      · exact absurd (hSgroup id id' hS hS' hne) hgrp
      · rw [if_pos hS] at hl
        rw [if_neg hS'] at hl'
        have hnot : getHomeL st.ra id'
            ≠ some (.localSlot (pickedName names v)) := by
          rcases hS with rfl | ⟨hop, hmem⟩
          · exact hname.2.2.1 id' hedge
          · exact hname.2.2.2 hop id hmem id' hedge
        have hlv : loc = .localSlot (pickedName names v) :=
          (Option.some.inj hl).symm
        intro hll
        exact hnot (by rw [hl', ← hll, hlv])
      · rw [if_neg hS] at hl
        rw [if_pos hS'] at hl'
        have hedge' : id ∈ itf id' := hsymm _ _ hedge
        have hnot : getHomeL st.ra id
            ≠ some (.localSlot (pickedName names v)) := by
          rcases hS' with rfl | ⟨hop, hmem⟩
          · exact hname.2.2.1 id hedge'
          · exact hname.2.2.2 hop id' hmem id hedge'
        have hlv' : loc' = .localSlot (pickedName names v) :=
          (Option.some.inj hl').symm
        intro hll
        exact hnot (by rw [hl, hll, hlv'])
      · rw [if_neg hS] at hl
        rw [if_neg hS'] at hl'
        exact hi4 id id' hedge hne hsp hsp' hgrp loc loc' hl hl'
  · obtain ⟨hlocs, hslots, hctr, hchar⟩ :=
      allocStep_pool_eq itf names (buildPhiArg f) st v h1 hpa hname
    have hle : poolIndex itf st v ≤ (st.locs v.ty).length := by
      unfold poolIndex
      exact firstFree_le _ _
    refine ⟨?_, ?_, ?_, ?_, ?_⟩
    · intro id hid
      rw [hchar id] at hid
      by_cases hS : id = v.id ∨ (v.op = .Phi ∧ id ∈ v.args)
      · rw [if_pos hS] at hid
        exact absurd hid (by simp)
      · rw [if_neg hS] at hid
        exact hi0 id hid
    · intro id k hk
      rw [hslots id] at hk
      by_cases hS : id = v.id ∨ (v.op = .Phi ∧ id ∈ v.args)
      · rw [if_pos hS] at hk
        have hik : poolIndex itf st v = k := by exact_mod_cast hk
        constructor
        · rw [hlocs (types id), hStys id hS, if_pos rfl, ← hik]
          unfold poolAfter
          by_cases hgrow : poolIndex itf st v = (st.locs v.ty).length
          · rw [if_pos hgrow, List.length_append, hgrow]
            simp
          · rw [if_neg hgrow]
            exact lt_of_le_of_ne hle hgrow
        · rw [hchar id, if_pos hS, hlocs (types id), hStys id hS,
            if_pos rfl, hik]
      · rw [if_neg hS] at hk
        obtain ⟨hklen, hhome⟩ := hi1 id k hk
        constructor
        · rw [hlocs (types id)]
          by_cases hty : types id = v.ty
          · rw [if_pos hty]
            have hlen : (st.locs v.ty).length ≤ (poolAfter itf st v).length := by
              unfold poolAfter
              split
              · rw [List.length_append]
                omega
              · exact le_refl _
            rw [hty] at hklen
            omega
          · rw [if_neg hty]
            exact hklen
        · rw [hchar id, if_neg hS, hhome, hlocs (types id)]
          by_cases hty : types id = v.ty
          · rw [if_pos hty]
            rw [hty] at hklen ⊢
            unfold poolAfter
            by_cases hgrow : poolIndex itf st v = (st.locs v.ty).length
            · rw [if_pos hgrow, List.getD_append _ _ _ _ hklen]
            · rw [if_neg hgrow]
          · rw [if_neg hty]
    · intro id loc hloc
      rw [hchar id] at hloc
      rw [hslots id]
      by_cases hS : id = v.id ∨ (v.op = .Phi ∧ id ∈ v.args)
      · rw [if_pos hS]
        exact Or.inl ⟨poolIndex itf st v, rfl⟩
      · rw [if_neg hS]
        rw [if_neg hS] at hloc
        exact hi2 id loc hloc
    · intro t
      rw [hlocs t, hctr]
      by_cases hty : t = v.ty
      · rw [if_pos hty]
        unfold poolAfter
        by_cases hgrow : poolIndex itf st v = (st.locs v.ty).length
        · rw [if_pos hgrow, if_pos hgrow]
          constructor
          · intro sl hsl
            rcases List.mem_append.mp hsl with hsl | hsl
            · obtain ⟨k, hk, hs⟩ := (hi3 v.ty).1 sl hsl
              exact ⟨k, by omega, by rw [hs, hty]⟩
            · rw [List.mem_singleton] at hsl
              exact ⟨st.ctr, by omega, by rw [hsl, hty]⟩
          · rw [List.nodup_append]
            refine ⟨(hi3 v.ty).2, List.nodup_singleton _, ?_⟩
            intro sl hsl hsl2
            rw [List.mem_singleton] at hsl2
            obtain ⟨k, hk, hs⟩ := (hi3 v.ty).1 sl hsl
            rw [hsl2] at hs
            rw [LocalSlot.mk.injEq] at hs
            have := GCNode.auto.inj (Option.some.inj hs.1)
            omega
        · rw [if_neg hgrow, if_neg hgrow]
          constructor
          · intro sl hsl
            obtain ⟨k, hk, hs⟩ := (hi3 v.ty).1 sl hsl
            exact ⟨k, hk, by rw [hs, hty]⟩
          · exact (hi3 v.ty).2
      · rw [if_neg hty]
        constructor
        · intro sl hsl
          obtain ⟨k, hk, hs⟩ := (hi3 t).1 sl hsl
          refine ⟨k, ?_, hs⟩
          split
          · omega
          · omega
        · exact (hi3 t).2
    · intro id id' hedge hne hsp hsp' hgrp loc loc' hl hl'
      rw [hchar id] at hl
      rw [hchar id'] at hl'
      have core := pool_slot_ne itf types st v hi1 hi2 hi3
      by_cases hS : id = v.id ∨ (v.op = .Phi ∧ id ∈ v.args)
        <;> by_cases hS' : id' = v.id ∨ (v.op = .Phi ∧ id' ∈ v.args)
      · exact absurd (hSgroup id id' hS hS' hne) hgrp
      · rw [if_pos hS] at hl
        rw [if_neg hS'] at hl'
        have hyne : poolIndex itf st v < (st.locs v.ty).length →
            st.slots id' ≠ ((poolIndex itf st v : Nat) : Int) := by
          intro hlt
          have hu : usedFun itf st.slots v (poolIndex itf st v) = false := by
            unfold poolIndex at hlt ⊢
            exact firstFree_not_used _ _ hlt
          obtain ⟨hu1, hu2⟩ := usedFun_false itf st.slots v _ hu
          rcases hS with rfl | ⟨hop, hmem⟩
          · exact hu1 id' hedge
          · exact hu2 hop id hmem id' hedge
        have hlv : loc = .localSlot ((poolAfter itf st v).getD
            (poolIndex itf st v) ⟨none, .unknown, 0⟩) :=
          (Option.some.inj hl).symm
        intro hll
        exact core id' loc' hyne hl' (by rw [← hll, hlv])
      · rw [if_neg hS] at hl
        rw [if_pos hS'] at hl'
        have hedge' : id ∈ itf id' := hsymm _ _ hedge
        have hyne : poolIndex itf st v < (st.locs v.ty).length →
            st.slots id ≠ ((poolIndex itf st v : Nat) : Int) := by
          intro hlt
          have hu : usedFun itf st.slots v (poolIndex itf st v) = false := by
            unfold poolIndex at hlt ⊢
            exact firstFree_not_used _ _ hlt
          obtain ⟨hu1, hu2⟩ := usedFun_false itf st.slots v _ hu
          rcases hS' with rfl | ⟨hop, hmem⟩
          · exact hu1 id hedge'
          · exact hu2 hop id' hmem id hedge'
        have hlv' : loc' = .localSlot ((poolAfter itf st v).getD
            (poolIndex itf st v) ⟨none, .unknown, 0⟩) :=
          (Option.some.inj hl').symm
        intro hll
        exact core id loc hyne hl (by rw [hll, hlv'])
      · rw [if_neg hS] at hl
        rw [if_neg hS'] at hl'
        exact hi4 id id' hedge hne hsp hsp' hgrp loc loc' hl hl'

/-- The allocation invariant is preserved along the whole value list,
given per-function well-formedness: every listed value is in the
function, listed IDs are distinct, cached types agree, and no two
distinct stack phis share an argument. -/
theorem SlotInv_fold (f : Func) (itf : Nat → IDSet) (names : Nat → LocalSlot)
    (types : Nat → Ty)
    (hsymm : ∀ id id', id' ∈ itf id → id ∈ itf id')
    (hnames : ∀ w, (names w).n = none ∨ ∃ s, (names w).n = some (.named s))
    (hnoshare : ∀ b ∈ f.blocks, ∀ b2 ∈ f.blocks, ∀ u ∈ b.values,
      ∀ u2 ∈ b2.values, isStackPhi f.regAlloc u = true →
      isStackPhi f.regAlloc u2 = true → u.id ≠ u2.id →
      ∀ a ∈ u.args, a ∉ u2.args) :
    ∀ (l : List SAValue) (st : AllocState),
      (∀ u ∈ l, ∃ b ∈ f.blocks, u ∈ b.values) →
      (l.map SAValue.id).Nodup →
      (∀ u ∈ l, types u.id = u.ty) →
      (∀ u ∈ l, isStackPhi f.regAlloc u = true →
        ∀ a ∈ u.args, types a = u.ty) →
      (∀ u ∈ l, buildPhiArg f u.id = false →
        ∀ k : Nat, st.slots u.id ≠ (k : Int)) →
      (∀ u ∈ l, isStackPhi f.regAlloc u = true →
        ∀ a ∈ u.args, ∀ k : Nat, st.slots a ≠ (k : Int)) →
      SlotInv f itf types st →
      SlotInv f itf types
        (l.foldl (allocStep itf names (buildPhiArg f)) st) := by
  intro l
  induction l with
  | nil =>
    intro st _ _ _ _ _ _ hinv
    exact hinv
  | cons v rest ih =>
    intro st hlmem hlnod htyl htyargsl hH1 hH2 hinv
    rw [List.map_cons] at hlnod
    rw [List.foldl_cons]
    have hinv' := SlotInv_step f itf names types st v hsymm hnames
      (hlmem v (List.mem_cons_self _ _))
      (htyl v (List.mem_cons_self _ _))
      (htyargsl v (List.mem_cons_self _ _))
      (hH1 v (List.mem_cons_self _ _))
      (hH2 v (List.mem_cons_self _ _)) hinv
    have hscase := allocStep_slots_cases itf names (buildPhiArg f) st v
    have hH1' : ∀ u ∈ rest, buildPhiArg f u.id = false →
        ∀ k : Nat,
        (allocStep itf names (buildPhiArg f) st v).slots u.id
          ≠ (k : Int) := by
      intro u hu hpau k
      rcases hscase with hsame | ⟨hg, hpav, hpool⟩
      · rw [hsame u.id]
        exact hH1 u (List.mem_cons_of_mem _ hu) hpau k
      · rw [hpool u.id]
        by_cases hS : u.id = v.id ∨ (v.op = .Phi ∧ u.id ∈ v.args)
        · exfalso
          rcases hS with heq | ⟨hop, hmem⟩
          · have hnotin : v.id ∉ rest.map SAValue.id :=
              (List.nodup_cons.mp hlnod).1
            exact hnotin (heq ▸ List.mem_map_of_mem SAValue.id hu)
          · have hfphi : isStackPhi f.regAlloc v = true := by
              rcases hg with hsr | hsp
              · rw [hop] at hsr
                exact absurd hsr (by decide)
              · rw [isStackPhi_iff] at hsp ⊢
                exact ⟨hsp.1, hsp.2.1, hinv.1 _ hsp.2.2⟩
            obtain ⟨b, hb, hvb⟩ := hlmem v (List.mem_cons_self _ _)
            have hmark := buildPhiArg_true f b v u.id hb hvb hfphi hmem
            rw [hmark] at hpau
            exact Bool.noConfusion hpau
        · rw [if_neg hS]
          exact hH1 u (List.mem_cons_of_mem _ hu) hpau k
    have hH2' : ∀ u ∈ rest, isStackPhi f.regAlloc u = true →
        ∀ a ∈ u.args, ∀ k : Nat,
        (allocStep itf names (buildPhiArg f) st v).slots a ≠ (k : Int) := by
      intro u hu hphiu a ha k
      rcases hscase with hsame | ⟨hg, hpav, hpool⟩
      · rw [hsame a]
        exact hH2 u (List.mem_cons_of_mem _ hu) hphiu a ha k
      · rw [hpool a]
        by_cases hS : a = v.id ∨ (v.op = .Phi ∧ a ∈ v.args)
        · exfalso
          rcases hS with heq | ⟨hop, hmem⟩
          · obtain ⟨bu, hbu, hub⟩ := hlmem u (List.mem_cons_of_mem _ hu)
            have hmark := buildPhiArg_true f bu u a hbu hub hphiu ha
            rw [heq] at hmark
            rw [hmark] at hpav
            exact Bool.noConfusion hpav
          · have hfphi : isStackPhi f.regAlloc v = true := by
              rcases hg with hsr | hsp
              · rw [hop] at hsr
                exact absurd hsr (by decide)
              · rw [isStackPhi_iff] at hsp ⊢
                exact ⟨hsp.1, hsp.2.1, hinv.1 _ hsp.2.2⟩
            obtain ⟨bv2, hbv2, hvb2⟩ := hlmem v (List.mem_cons_self _ _)
            obtain ⟨bu, hbu, hub⟩ := hlmem u (List.mem_cons_of_mem _ hu)
            have hneid : v.id ≠ u.id := by
              intro hvu
              have hin : u.id ∈ rest.map SAValue.id :=
                List.mem_map_of_mem _ hu
              have hnotin := (List.nodup_cons.mp hlnod).1
              rw [hvu] at hnotin
              exact hnotin hin
            exact hnoshare bv2 hbv2 bu hbu v hvb2 u hub hfphi hphiu
              hneid a hmem ha
        · rw [if_neg hS]
          exact hH2 u (List.mem_cons_of_mem _ hu) hphiu a ha k
    exact ih (allocStep itf names (buildPhiArg f) st v)
      (fun u hu => hlmem u (List.mem_cons_of_mem _ hu))
      (List.nodup_cons.mp hlnod).2
      (fun u hu => htyl u (List.mem_cons_of_mem _ hu))
      (fun u hu => htyargsl u (List.mem_cons_of_mem _ hu))
      hH1' hH2' hinv'

/-- A spill-class ID is still homeless after the `OpArg` pass. -/
theorem spill_init_none (f : Func) (id : Nat)
    (hnod : ((f.blocks.map SABlock.values).flatten.map SAValue.id).Nodup)
    (hspill0 : ∀ b ∈ f.blocks, ∀ u ∈ b.values, u.op = .StoreReg →
      getHomeL f.regAlloc u.id = none)
    (hsp : spillID f id) :
    getHomeL (argHomes f f.regAlloc) id = none := by
  obtain ⟨b, hb, u, hu, huid, hcls⟩ := hsp
  have h0 : getHomeL f.regAlloc id = none := by
    rcases hcls with hsr | hphi
    · rw [← huid]
      exact hspill0 b hb u hu hsr
    · rw [isStackPhi_iff] at hphi
      rw [← huid]
      exact hphi.2.2
  rw [argHomes_preserves f f.regAlloc id ?hnoarg]
  · exact h0
  case hnoarg =>
    intro w hw hwop hwid
    obtain ⟨bw, hbw, hwb⟩ := entry_values_sub f w hw
    have hwu : w ≠ u := by
      intro hwu
      rcases hcls with hsr | hphi
      · rw [hwu, hsr] at hwop
        exact Op.noConfusion hwop
      · rw [isStackPhi_iff] at hphi
        rw [hwu, hphi.1] at hwop
        exact Op.noConfusion hwop
    have hwf : w ∈ (f.blocks.map SABlock.values).flatten := by
      rw [List.mem_flatten]
      exact ⟨bw.values, List.mem_map_of_mem _ hbw, hwb⟩
    have huf : u ∈ (f.blocks.map SABlock.values).flatten := by
      rw [List.mem_flatten]
      exact ⟨b.values, List.mem_map_of_mem _ hb, hu⟩
    have hinj := List.inj_on_of_nodup_map hnod hwf huf
    exact hwu (hinj (by rw [hwid, huid]))

/-- The allocation invariant holds at the start of the slot-picking
loop: no slots, empty pools, counter zero, homes only from the incoming
register assignment and the `OpArg` pass. -/
theorem SlotInv_init (f : Func) (itf : Nat → IDSet) (types : Nat → Ty)
    (hra0 : ∀ id loc, getHomeL f.regAlloc id = some loc →
      ∃ r, loc = .register r)
    (haux : ∀ w ∈ f.entry.values, w.op = .Arg →
      ∃ s, w.aux = some (.named s))
    (hnod : ((f.blocks.map SABlock.values).flatten.map SAValue.id).Nodup)
    (hspill0 : ∀ b ∈ f.blocks, ∀ u ∈ b.values, u.op = .StoreReg →
      getHomeL f.regAlloc u.id = none) :
    SlotInv f itf types
      ⟨argHomes f f.regAlloc, fun _ => [], fun _ => -1, 0⟩ := by
  refine ⟨?_, ?_, ?_, ?_, ?_⟩
  · intro id h
    exact argHomes_none_mono f f.regAlloc id h
  · intro id k hk
    exfalso
    have hk2 : (-1 : Int) = (k : Int) := hk
    omega
  · intro id loc hloc
    rcases argHomes_shape f f.regAlloc
      (fun id loc h => Or.inl (hra0 id loc h)) haux id loc hloc with h | h
    · exact Or.inr (Or.inl h)
    · exact Or.inr (Or.inr h)
  · intro t
    exact ⟨fun sl hsl => absurd hsl (List.not_mem_nil _), List.nodup_nil⟩
  · intro id id' hedge hne hsp hsp' hgrp loc loc' hl hl'
    exfalso
    have hnone := spill_init_none f id hnod hspill0 hsp
    rw [hl] at hnone
    exact Option.noConfusion hnone

/-- C3: for two spilled values (StoreReg or stack phi) with an edge in
the interference graph built by `stackalloc`, the allocator assigns
distinct stack slots — provided the pair does not sit inside one
phi-coalescing group (C3_counterexample shows a stack phi interfering
with its own argument still shares its slot), and under the
well-formedness the allocator assumes: distinct value IDs, cached types
matching, register-only incoming homes, spills homeless on entry, named
slots carried by frontend-named nodes, and no argument shared between
two stack phis.  Moreover a new slot is allocated exactly when every
existing same-type pool slot is marked used by an interfering value. -/
theorem C3_interference_distinct_slots
    (f : Func) (fuel : Nat) (f2 : Func) (itf : Nat → IDSet)
    (hsa : stackalloc f fuel = some f2)
    (hitf : interferenceOf f fuel = some itf)
    (hnod : ((f.blocks.map SABlock.values).flatten.map SAValue.id).Nodup)
    (hra0 : ∀ id loc, getHomeL f.regAlloc id = some loc →
      ∃ r, loc = .register r)
    (haux : ∀ w ∈ f.entry.values, w.op = .Arg →
      ∃ s, w.aux = some (.named s))
    (hnames0 : ∀ p ∈ f.names, p.1.n = none ∨ ∃ s, p.1.n = some (.named s))
    (htypes : ∀ b ∈ f.blocks, ∀ u ∈ b.values, typesOf f u.id = u.ty)
    (htyargs : ∀ b ∈ f.blocks, ∀ u ∈ b.values,
      isStackPhi f.regAlloc u = true → ∀ a ∈ u.args, typesOf f a = u.ty)
    (hnoshare : ∀ b ∈ f.blocks, ∀ b2 ∈ f.blocks, ∀ u ∈ b.values,
      ∀ u2 ∈ b2.values, isStackPhi f.regAlloc u = true →
      isStackPhi f.regAlloc u2 = true → u.id ≠ u2.id →
      ∀ a ∈ u.args, a ∉ u2.args)
    (hspill0 : ∀ b ∈ f.blocks, ∀ u ∈ b.values, u.op = .StoreReg →
      getHomeL f.regAlloc u.id = none)
    (id id' : Nat) (hedge : id' ∈ itf id) (hne : id ≠ id')
    (hspid : spillID f id) (hspid' : spillID f id')
    (hgrp : ¬ sameGroup f id id')
    (loc loc' : Location)
    (hl : f2.getHome id = some loc) (hl' : f2.getHome id' = some loc') :
    loc ≠ loc'
    ∧ (∀ (itf2 : Nat → IDSet) (names2 : Nat → LocalSlot) (pa2 : Nat → Bool)
         (st : AllocState) (u : SAValue),
        (u.op = .StoreReg ∨ isStackPhi st.ra u = true) → pa2 u.id = false →
        ¬ nameOK itf2 st.ra u (pickedName names2 u) →
        (∀ j, j < (st.locs u.ty).length → usedFun itf2 st.slots u j = true) →
        (allocStep itf2 names2 pa2 st u).locs u.ty
          = st.locs u.ty ++ [⟨some (.auto st.ctr), u.ty, 0⟩]) := by
  constructor
  · unfold stackalloc at hsa
    unfold interferenceOf at hitf
    cases hls : liveSpills f fuel with
    | none =>
      rw [hls] at hsa
      exact absurd hsa (by simp)
    | some live =>
      rw [hls] at hsa hitf
      have hitf2 : buildInterference f (typesOf f) live = itf := by
        simpa using hitf
      subst hitf2
      have hsa2 : some ({ f with regAlloc := (allocAll
          (buildInterference f (typesOf f) live) (buildNames f)
          (buildPhiArg f)
          ⟨argHomes f f.regAlloc, fun _ => [], fun _ => -1, 0⟩ f).ra })
          = some f2 := hsa
      have hf2 := Option.some.inj hsa2
      have hnames2 : ∀ w, (buildNames f w).n = none
          ∨ ∃ s, (buildNames f w).n = some (.named s) := by
        intro w
        rcases buildNames_shape f w with h | ⟨p, hp, h⟩
        · rw [h]
          exact Or.inl rfl
        · rw [h]
          exact hnames0 p hp
      have hfold := SlotInv_fold f (buildInterference f (typesOf f) live)
        (buildNames f) (typesOf f)
        (buildInterference_symm f (typesOf f) live) hnames2 hnoshare
        ((f.blocks.map SABlock.values).flatten)
        ⟨argHomes f f.regAlloc, fun _ => [], fun _ => -1, 0⟩
        (fun u hu => mem_flatten_values hu)
        hnod
        (fun u hu => by
          obtain ⟨b, hb, hub⟩ := mem_flatten_values hu
          exact htypes b hb u hub)
        (fun u hu hphi a ha => by
          obtain ⟨b, hb, hub⟩ := mem_flatten_values hu
          exact htyargs b hb u hub hphi a ha)
        (fun u hu hpa k hk => by
          have hk2 : (-1 : Int) = (k : Int) := hk
          omega)
        (fun u hu hphi a ha k hk => by
          have hk2 : (-1 : Int) = (k : Int) := hk
          omega)
        (SlotInv_init f (buildInterference f (typesOf f) live) (typesOf f)
          hra0 haux hnod hspill0)
      have hchain : f2.regAlloc
          = (((f.blocks.map SABlock.values).flatten).foldl
              (allocStep (buildInterference f (typesOf f) live)
                (buildNames f) (buildPhiArg f))
              ⟨argHomes f f.regAlloc, fun _ => [], fun _ => -1, 0⟩).ra := by
        rw [← hf2, ← allocAll_eq_flatten]
      unfold Func.getHome at hl hl'
      rw [hchain] at hl hl'
      exact hfold.2.2.2.2 id id' hedge hne hspid hspid' hgrp loc loc' hl hl'
  · intro itf2 names2 pa2 st u hg hpa2 hnm hall
    have hidx : poolIndex itf2 st u = (st.locs u.ty).length := by
      unfold poolIndex
      exact firstFree_all_used _ _ hall
    obtain ⟨hlocs, -, -, -⟩ :=
      allocStep_pool_eq itf2 names2 pa2 st u hg hpa2 hnm
    rw [hlocs u.ty, if_pos rfl]
    unfold poolAfter
    rw [if_pos hidx]

theorem C3_interference_distinct_slots_witness :
    Location.localSlot ⟨some (.auto 0), .int32ty, 0⟩
      ≠ Location.localSlot ⟨some (.auto 1), .int32ty, 0⟩
    ∧ (∀ (itf2 : Nat → IDSet) (names2 : Nat → LocalSlot) (pa2 : Nat → Bool)
         (st : AllocState) (u : SAValue),
        (u.op = .StoreReg ∨ isStackPhi st.ra u = true) → pa2 u.id = false →
        ¬ nameOK itf2 st.ra u (pickedName names2 u) →
        (∀ j, j < (st.locs u.ty).length → usedFun itf2 st.slots u j = true) →
        (allocStep itf2 names2 pa2 st u).locs u.ty
          = st.locs u.ty ++ [⟨some (.auto st.ctr), u.ty, 0⟩]) :=
  C3_interference_distinct_slots c3wF 10
    ((stackalloc c3wF 10).getD ⟨[], 0, [], [], 0⟩)
    ((interferenceOf c3wF 10).getD (fun _ => ∅))
    (by rfl) (by rfl)
    (by decide)
    (fun id loc h => absurd h (by simp [c3wF, getHomeL]))
    (fun w hw hop => absurd hop
      ((by decide : ∀ w ∈ c3wF.entry.values, ¬(w.op = Op.Arg)) w hw))
    (fun p hp => absurd hp (List.not_mem_nil p))
    (by decide) (by decide) (by decide) (by decide)
    1 2 (by decide) (by decide) (by decide) (by decide) (by decide)
    (.localSlot ⟨some (.auto 0), .int32ty, 0⟩)
    (.localSlot ⟨some (.auto 1), .int32ty, 0⟩)
    (by rfl) (by rfl)

end GoSSA


